import Mathlib

set_option autoImplicit false

/-!
# Buffer cache, swap area, frame table and supplemental page table

A shallow embedding of `filesys/cache.c`, `vm/swap.c`, `vm/frame.c`, `vm/page.c`
and the mapping bookkeeping of `userprog/syscall.c`, followed by the theorems
about them.  The kernel locks are not modelled: every operation below is the
body that runs while the corresponding lock is held, so the embedding is the
sequential behaviour of the code.  A failed `ASSERT`, a `PANIC` and a
dereference of `NULL` are the result `none`.
-/

/-- A `uint8_t`; bytes are only copied, never computed with. -/
abbrev Byte := Nat

/-! ## Part 1: `filesys/cache.c` -/

namespace Cache

/-- Source `#define BUFFER_CACHE_SIZE 64`. -/
abbrev BUFFER_CACHE_SIZE : Nat := 64

/-- Source `BLOCK_SECTOR_SIZE`, the size of a disk sector in bytes. -/
abbrev BLOCK_SECTOR_SIZE : Nat := 512

/-- A `uint8_t [BLOCK_SECTOR_SIZE]` buffer: the unit moved by `memcpy`,
`block_read` and `block_write` in this file. -/
abbrev Block := Fin BLOCK_SECTOR_SIZE → Byte

/-- Source `struct buffer_cache_entry`. -/
structure buffer_cache_entry where
  used : Bool
  disk_sector : Nat
  buffer : Block
  dirty : Bool
  access : Bool

/-- The global state touched by `cache.c`: the array `cache`, the
function-local `static size_t clock` of `buffer_cache_get_slot`, and the
contents of `fs_device`, sector by sector. -/
structure CacheState where
  cache : Fin BUFFER_CACHE_SIZE → buffer_cache_entry
  clock : Fin BUFFER_CACHE_SIZE
  fs_device : Nat → Block

/-- Source `cache[i].used = v`. -/
def set_used (s : CacheState) (i : Fin BUFFER_CACHE_SIZE) (v : Bool) : CacheState :=
  { s with cache := Function.update s.cache i { s.cache i with used := v } }

/-- Source `cache[i].access = v`. -/
def set_access (s : CacheState) (i : Fin BUFFER_CACHE_SIZE) (v : Bool) : CacheState :=
  { s with cache := Function.update s.cache i { s.cache i with access := v } }

/-- Source `cache[i].dirty = v`. -/
def set_dirty (s : CacheState) (i : Fin BUFFER_CACHE_SIZE) (v : Bool) : CacheState :=
  { s with cache := Function.update s.cache i { s.cache i with dirty := v } }

/-- Source `cache[i].disk_sector = sector`. -/
def set_disk_sector (s : CacheState) (i : Fin BUFFER_CACHE_SIZE) (sector : Nat) : CacheState :=
  { s with cache := Function.update s.cache i { s.cache i with disk_sector := sector } }

/-- Source `memcpy (cache[i].buffer, source, BLOCK_SECTOR_SIZE)`. -/
def set_buffer (s : CacheState) (i : Fin BUFFER_CACHE_SIZE) (source : Block) : CacheState :=
  { s with cache := Function.update s.cache i { s.cache i with buffer := source } }

/-- Source `block_write (fs_device, sector, buf)`. -/
def block_write (s : CacheState) (sector : Nat) (buf : Block) : CacheState :=
  { s with fs_device := Function.update s.fs_device sector buf }

/-- Source `block_read (fs_device, sector, cache[i].buffer)`. -/
def block_read (s : CacheState) (sector : Nat) (i : Fin BUFFER_CACHE_SIZE) : CacheState :=
  set_buffer s i (s.fs_device sector)

/-- Source `buffer_cache_init`: the loop `for (i = 0; i < BUFFER_CACHE_SIZE; ++i)
cache[i].used = false`. -/
def buffer_cache_init (s : CacheState) : CacheState :=
  (List.finRange BUFFER_CACHE_SIZE).foldl (fun st i => set_used st i false) s

/-- The state at boot: C zero-initialises the static array `cache` and the
static `clock`; `d` is what the device holds. -/
def boot (d : Nat → Block) : CacheState :=
  { cache := fun _ => ⟨false, 0, fun _ => 0, false, false⟩, clock := 0, fs_device := d }

/-- Source `write_buffer_cache_to_disk (&cache[i])`; `none` is the failure of
`ASSERT (entry != NULL && entry->used == true)`. -/
def write_buffer_cache_to_disk (s : CacheState) (i : Fin BUFFER_CACHE_SIZE) :
    Option CacheState :=
  if (s.cache i).used = true then
    if (s.cache i).dirty = true then
      some (set_dirty (block_write s (s.cache i).disk_sector (s.cache i).buffer) i false)
    else some s
  else none

/-- Source `buffer_cache_close`: every used line goes through
`write_buffer_cache_to_disk`, in index order. -/
def buffer_cache_close (s : CacheState) : Option CacheState :=
  (List.finRange BUFFER_CACHE_SIZE).foldl
    (fun acc i => acc.bind fun st =>
      if (st.cache i).used = false then some st else write_buffer_cache_to_disk st i)
    (some s)

/-- Source `buffer_cache_lookup`: the index of the first used line whose
`disk_sector` is `sector`, `none` for `NULL`. -/
def buffer_cache_lookup (s : CacheState) (sector : Nat) : Option (Fin BUFFER_CACHE_SIZE) :=
  (List.finRange BUFFER_CACHE_SIZE).find?
    (fun i => (s.cache i).used && decide ((s.cache i).disk_sector = sector))

/-- The number of lines that are used and have their reference bit set: the
quantity that the `while (true)` loop of `buffer_cache_get_slot` decreases. -/
def accessed_lines (s : CacheState) : Nat :=
  (Finset.univ.filter
    (fun i : Fin BUFFER_CACHE_SIZE => (s.cache i).used = true ∧ (s.cache i).access = true)).card

/-- The `while (true)` loop of `buffer_cache_get_slot`.  The result is the state
at the exit of the loop, with `clock` on the chosen line, and whether the loop
was left by the `return` on an unused line (`true`) or by `break` (`false`). -/
def get_slot_loop (s : CacheState) : CacheState × Bool :=
  if hu : (s.cache s.clock).used = false then
    (s, true)
  else if ha : (s.cache s.clock).access = true then
    get_slot_loop
      { set_access s s.clock false with
        clock := ⟨(s.clock.val + 1) % BUFFER_CACHE_SIZE, Nat.mod_lt _ (by decide)⟩ }
  else
    (s, false)
termination_by accessed_lines s
decreasing_by
  unfold accessed_lines
  apply Finset.card_lt_card
  rw [Finset.ssubset_iff_of_subset]
  · refine ⟨s.clock, ?_, ?_⟩
    · simp only [Finset.mem_filter, Finset.mem_univ, true_and]
      exact ⟨by simpa using hu, ha⟩
    · simp [set_access]
  · intro i
    simp only [Finset.mem_filter, Finset.mem_univ, true_and, set_access]
    by_cases h : i = s.clock
    · subst h; simp
    · simp [Function.update_noteq h]

/-- Source `buffer_cache_get_slot`: the clock loop, then the cleaning of the victim. -/
def buffer_cache_get_slot (s : CacheState) : Option (CacheState × Fin BUFFER_CACHE_SIZE) :=
  let r := get_slot_loop s
  if r.2 = true then
    some (r.1, r.1.clock)
  else
    let slot := r.1.clock
    (if (r.1.cache slot).dirty = true then write_buffer_cache_to_disk r.1 slot
     else some r.1).map fun st => (set_used st slot false, slot)

/-- Modelled from the spec: `buffer_cache_evict`, which `buffer_cache_write`
calls, is not defined in `cache.c`; the spec has one clock replacement for both
the read and the write path, which is `buffer_cache_get_slot`. -/
def buffer_cache_evict (s : CacheState) : Option (CacheState × Fin BUFFER_CACHE_SIZE) :=
  buffer_cache_get_slot s

/-- The body of `if (sector_block == NULL)` once a slot has been handed out,
shared by `buffer_cache_read` and `buffer_cache_write`: the
`ASSERT (sector_block != NULL && sector_block->used == false)`, the three
assignments and the `block_read`. -/
def fill_slot (s : CacheState) (i : Fin BUFFER_CACHE_SIZE) (sector : Nat) :
    Option CacheState :=
  if (s.cache i).used = false then
    some (block_read (set_dirty (set_disk_sector (set_used s i true) i sector) i false) sector i)
  else none

/-- The tail of `buffer_cache_read`, after `sector_block` is settled:
`sector_block->access = true` and the `memcpy` to `target`.  The result is the
new state and the bytes copied to `target`. -/
def read_tail (s : CacheState) (i : Fin BUFFER_CACHE_SIZE) : CacheState × Block :=
  (set_access s i true, ((set_access s i true).cache i).buffer)

/-- Source `buffer_cache_read (sector, target)`: the new state and the bytes copied to
`target`. -/
def buffer_cache_read (s : CacheState) (sector : Nat) : Option (CacheState × Block) :=
  match buffer_cache_lookup s sector with
  | some i => some (read_tail s i)
  | none =>
    (buffer_cache_get_slot s).bind fun (r : CacheState × Fin BUFFER_CACHE_SIZE) =>
      (fill_slot r.1 r.2 sector).map fun st => read_tail st r.2

/-- The tail of `buffer_cache_write`, after `sector_block` is settled: the two
flag assignments and the `memcpy` from `source`. -/
def write_tail (s : CacheState) (i : Fin BUFFER_CACHE_SIZE) (source : Block) : CacheState :=
  set_buffer (set_dirty (set_access s i true) i true) i source

/-- Source `buffer_cache_write (sector, source)`. -/
def buffer_cache_write (s : CacheState) (sector : Nat) (source : Block) : Option CacheState :=
  match buffer_cache_lookup s sector with
  | some i => some (write_tail s i source)
  | none =>
    (buffer_cache_evict s).bind fun (r : CacheState × Fin BUFFER_CACHE_SIZE) =>
      (fill_slot r.1 r.2 sector).map fun st => write_tail st r.2 source

/-- A call into the cache. -/
inductive Call where
  | read (sector : Nat)
  | write (sector : Nat) (source : Block)
  | close

/-- One call: the new state and, for a read, the bytes delivered. -/
def step (s : CacheState) : Call → Option (CacheState × Option Block)
  | .read sector => (buffer_cache_read s sector).map fun r => (r.1, some r.2)
  | .write sector source => (buffer_cache_write s sector source).map fun st => (st, none)
  | .close => (buffer_cache_close s).map fun st => (st, none)

/-- A sequence of calls, in order: the final state and what each call
delivered. -/
def run (s : CacheState) : List Call → Option (CacheState × List (Option Block))
  | [] => some (s, [])
  | c :: cs => (step s c).bind fun r => (run r.1 cs).map fun q => (q.1, r.2 :: q.2)

/-- The uncached disk of the spec: a read delivers what the device holds, a
write replaces the sector, `close` does nothing. -/
def uncached_step (d : Nat → Block) : Call → (Nat → Block) × Option Block
  | .read sector => (d, some (d sector))
  | .write sector source => (Function.update d sector source, none)
  | .close => (d, none)

/-- The uncached disk over a sequence of calls. -/
def uncached_run (d : Nat → Block) : List Call → (Nat → Block) × List (Option Block)
  | [] => (d, [])
  | c :: cs =>
    let r := uncached_step d c
    let q := uncached_run r.1 cs
    (q.1, r.2 :: q.2)

/-- The data of the most recent `write` to `sector` in a sequence of calls,
if there is one. -/
def last_write (sector : Nat) : List Call → Option Block
  | [] => none
  | .write t source :: cs =>
    match last_write sector cs with
    | some b => some b
    | none => if t = sector then some source else none
  | _ :: cs => last_write sector cs

/-! ### Invariants of the cache, as definitions -/

/-- No two used lines hold the same sector. -/
def distinct_sectors (s : CacheState) : Prop :=
  ∀ i j, (s.cache i).used = true → (s.cache j).used = true →
    (s.cache i).disk_sector = (s.cache j).disk_sector → i = j

/-- A used line that is not dirty holds what the device holds for its sector. -/
def clean_agrees (s : CacheState) : Prop :=
  ∀ i, (s.cache i).used = true → (s.cache i).dirty = false →
    (s.cache i).buffer = s.fs_device (s.cache i).disk_sector

/-- What a sector holds as seen through the cache: the buffer of its line if it
has one, what the device holds otherwise. -/
def view (s : CacheState) (sector : Nat) : Block :=
  match buffer_cache_lookup s sector with
  | some i => (s.cache i).buffer
  | none => s.fs_device sector

/-- The exclusive-or reading of the line invariant: a used line either equals
the device or is dirty, and not both. -/
def line_xor (s : CacheState) : Prop :=
  ∀ i, (s.cache i).used = false ∨
    Xor' ((s.cache i).buffer = s.fs_device (s.cache i).disk_sector) ((s.cache i).dirty = true)

/-- The inclusive reading of the line invariant: a used line equals the device
or is dirty (a dirty line may also equal the device). -/
def line_or (s : CacheState) : Prop :=
  ∀ i, (s.cache i).used = false ∨
    (s.cache i).buffer = s.fs_device (s.cache i).disk_sector ∨ (s.cache i).dirty = true

/-- Both line invariants together. -/
def cache_inv (s : CacheState) : Prop := distinct_sectors s ∧ clean_agrees s

/-- Two states that differ at most in reference bits and in the clock hand. -/
def same_data (s t : CacheState) : Prop :=
  t.fs_device = s.fs_device ∧
  ∀ i, (t.cache i).used = (s.cache i).used ∧ (t.cache i).disk_sector = (s.cache i).disk_sector ∧
    (t.cache i).buffer = (s.cache i).buffer ∧ (t.cache i).dirty = (s.cache i).dirty

/-- The cache `s` stands for the uncached disk `d`: the invariants hold and
every sector, seen through the cache, holds what `d` holds. -/
def agrees (s : CacheState) (d : Nat → Block) : Prop :=
  cache_inv s ∧ ∀ x, view s x = d x

end Cache

/-! ## Part 2: `vm/swap.c` -/

namespace VM

/-- Source `PGSIZE`, the size of a page in bytes. -/
abbrev PGSIZE : Nat := 4096

/-- Source `DISK_SECTOR_SIZE`, the size of a sector of the swap disk in bytes. -/
abbrev DISK_SECTOR_SIZE : Nat := 512

/-- The bound `PGSIZE / DISK_SECTOR_SIZE` of the two `sec_no` loops. -/
abbrev SECTORS_PER_PAGE : Nat := PGSIZE / DISK_SECTOR_SIZE

/-- One plus the largest `size_t` and `disk_sector_t`: both are 32 bits wide on
the machine the kernel is built for. -/
abbrev WORD : Nat := 2 ^ 32

/-- The contents of one sector of the swap disk. -/
abbrev Sector := Fin DISK_SECTOR_SIZE → Byte

/-- The contents of one page of memory: what `kpage` points to. -/
abbrev PageData := Fin PGSIZE → Byte

/-- The global state touched by `swap.c`: the bitmap `swap_table` and the
contents of the swap disk `disk_get (1, 1)`, sector by sector. -/
structure SwapState where
  swap_table : List Bool
  disk : Nat → Sector

/-- Modelled from the spec: `bitmap_create (n)`, a bitmap of `n` clear bits
(the bitmap primitive is not under `src/`). -/
def bitmap_create (n : Nat) : List Bool := List.replicate n false

/-- Modelled from the spec: `bitmap_scan_and_flip (b, 0, 1, false)`, the
"find-first-false-and-set" of the spec: the lowest index whose bit is clear is
set and returned; `none` is `BITMAP_ERROR` (the bitmap primitive is not under
`src/`). -/
def bitmap_scan_and_flip (b : List Bool) : Option (List Bool × Nat) :=
  if b.findIdx (fun x => x == false) < b.length then
    some (b.set (b.findIdx (fun x => x == false)) true, b.findIdx (fun x => x == false))
  else none

/-- Modelled from the spec: `bitmap_test (b, idx)`; an index past the end of the
bitmap reads as a clear bit (the bitmap primitive is not under `src/`). -/
def bitmap_test (b : List Bool) (idx : Nat) : Bool := b.getD idx false

/-- Modelled from the spec: `bitmap_set (b, idx, value)` (the bitmap primitive is
not under `src/`). -/
def bitmap_set (b : List Bool) (idx : Nat) (value : Bool) : List Bool := b.set idx value

/-- The sector `swap_idx * PGSIZE / DISK_SECTOR_SIZE + sec_no` of `swap_out` and
`swap_in`, in 32-bit unsigned arithmetic. -/
def slot_sector (swap_idx sec_no : Nat) : Nat :=
  ((swap_idx * PGSIZE) % WORD / DISK_SECTOR_SIZE + sec_no) % WORD

/-- The `DISK_SECTOR_SIZE` bytes at `kpage + sec_no * DISK_SECTOR_SIZE`. -/
def page_sector (c : PageData) (sec_no : Fin SECTORS_PER_PAGE) : Sector :=
  fun j => c ⟨sec_no.val * DISK_SECTOR_SIZE + j.val, by
    have h1 := sec_no.isLt
    have h2 := j.isLt
    simp only [SECTORS_PER_PAGE, PGSIZE, DISK_SECTOR_SIZE] at h1 h2 ⊢
    omega⟩

/-- The page after `disk_read` has stored the sector `d` at
`kpage + sec_no * DISK_SECTOR_SIZE`. -/
def put_sector (c : PageData) (sec_no : Fin SECTORS_PER_PAGE) (d : Sector) : PageData :=
  fun off =>
    if off.val / DISK_SECTOR_SIZE = sec_no.val then
      d ⟨off.val % DISK_SECTOR_SIZE, Nat.mod_lt _ (by decide)⟩
    else c off

/-- Source `swap_init`: the bitmap has `disk_size (d) * DISK_SECTOR_SIZE / PGSIZE` bits,
computed in 32-bit unsigned arithmetic; `size` is `disk_size (d)` and `disk` what
the swap disk holds. -/
def swap_init (size : Nat) (disk : Nat → Sector) : SwapState :=
  { swap_table := bitmap_create ((size * DISK_SECTOR_SIZE) % WORD / PGSIZE), disk := disk }

/-- Source `swap_out (kpage)`, where `c` is what `kpage` points to: the new state and
the returned `swap_idx`; `none` is `PANIC ("swap_out: out of swap slots")`. -/
def swap_out (s : SwapState) (c : PageData) : Option (SwapState × Nat) :=
  match bitmap_scan_and_flip s.swap_table with
  | none => none
  | some (tbl, swap_idx) =>
    some ({ swap_table := tbl,
            disk := (List.finRange SECTORS_PER_PAGE).foldl
              (fun dk sec_no =>
                Function.update dk (slot_sector swap_idx sec_no.val) (page_sector c sec_no))
              s.disk },
          swap_idx)

/-- Source `swap_in (page, kpage)`, where `swap_idx` is `page->swap_idx` and `c` is
what `kpage` points to before the call: the new state and what `kpage` points to
afterwards; `none` is the failure of `ASSERT (bitmap_test (swap_table,
page->swap_idx))`. -/
def swap_in (s : SwapState) (swap_idx : Nat) (c : PageData) : Option (SwapState × PageData) :=
  if bitmap_test s.swap_table swap_idx = true then
    some ({ s with swap_table := bitmap_set s.swap_table swap_idx false },
          (List.finRange SECTORS_PER_PAGE).foldl
            (fun fr sec_no => put_sector fr sec_no (s.disk (slot_sector swap_idx sec_no.val)))
            c)
  else none

/-- Source `swap_destroy (swap_idx)`; `none` is the failure of its `ASSERT`. -/
def swap_destroy (s : SwapState) (swap_idx : Nat) : Option SwapState :=
  if bitmap_test s.swap_table swap_idx = true then
    some { s with swap_table := bitmap_set s.swap_table swap_idx false }
  else none

/-- A call into the swap area. -/
inductive SwapCall where
  | out (c : PageData)
  | into (swap_idx : Nat) (c : PageData)
  | destroy (swap_idx : Nat)

/-- Whether a call names the slot `i`: `swap_in` and `swap_destroy` name a slot,
`swap_out` is given none (it picks a free one). -/
def SwapCall.names (i : Nat) : SwapCall → Bool
  | .out _ => false
  | .into swap_idx _ => decide (swap_idx = i)
  | .destroy swap_idx => decide (swap_idx = i)

/-- One call into the swap area; what `swap_out` returns and what `swap_in`
reads are dropped. -/
def swap_step (s : SwapState) : SwapCall → Option SwapState
  | .out c => (swap_out s c).map fun r => r.1
  | .into swap_idx c => (swap_in s swap_idx c).map fun r => r.1
  | .destroy swap_idx => swap_destroy s swap_idx

/-- A sequence of calls into the swap area, in order. -/
def swap_run (s : SwapState) : List SwapCall → Option SwapState
  | [] => some s
  | c :: cs => (swap_step s c).bind fun t => swap_run t cs

/-- The slot `i` holds the page `c` in a swap area whose bitmap has `n` bits:
bit `i` is set and the sectors of the slot hold the bytes of `c`. -/
def holds_slot (i : Nat) (c : PageData) (n : Nat) (u : SwapState) : Prop :=
  u.swap_table.length = n ∧ bitmap_test u.swap_table i = true ∧
  ∀ k : Fin SECTORS_PER_PAGE, u.disk (slot_sector i k.val) = page_sector c k

end VM

/-! ## Part 3: the state of the virtual memory manager -/

namespace VM

/-- Source `MAP_FAILED`, `((mapid_t) -1)`: the `mapid` of a page that belongs to no
file mapping (the `NO_MAPPING` of the spec). -/
abbrev MAP_FAILED : Int := -1

/-- Source `struct page`.  A `struct file *` is the number of the file it is a handle
of, `none` for `NULL`.  The `hash_elem` and `elem` members are what the
containers below stand for. -/
structure page where
  addr : Nat
  loaded : Bool
  mapid : Int
  file : Option Nat
  file_ofs : Nat
  file_read_bytes : Nat
  file_writable : Bool
  valid : Bool
  swap_idx : Nat
  deriving DecidableEq

/-- Source `struct frame`.  A `struct thread *` is a thread number. -/
structure frame where
  thread : Nat
  addr : Nat
  upage : Nat
  deriving DecidableEq

/-- Modelled from the spec: one present entry of a page directory, as the
page-directory primitive of the spec sees it (`pagedir.c` is not under
`src/`): the kernel address, and the writable, accessed and dirty bits. -/
structure pte where
  kpage : Nat
  writable : Bool
  accessed : Bool
  dirty : Bool
  deriving DecidableEq

/-- The members of `struct thread` that these files use.  `page_table` is the
hash keyed by `addr`; `mmap_list` holds, in list order, the addresses of the
pages linked by their `elem`. -/
structure thread where
  pagedir : Nat → Option pte
  page_table : Nat → Option page
  mmap_list : List Nat
  max_mapid : Int
  fd_list : List (Int × Nat)
  max_fd : Int

/-- The state of the memory manager: the threads, the list `frame_table`, the
swap area, the free pages of the user pool, the contents of physical pages by
kernel address, and the contents of files by file number. -/
structure State where
  threads : Nat → thread
  frame_table : List frame
  swap : SwapState
  free_pages : List Nat
  memory : Nat → PageData
  files : Nat → List Byte

/-- Apply `f` to the thread `tid`. -/
def update_thread (s : State) (tid : Nat) (f : thread → thread) : State :=
  { s with threads := Function.update s.threads tid (f (s.threads tid)) }

/-- Apply `f` to the page of thread `tid` at `addr`, if there is one: an
assignment through a `struct page *`. -/
def update_page (s : State) (tid addr : Nat) (f : page → page) : State :=
  update_thread s tid fun t =>
    { t with page_table := Function.update t.page_table addr ((t.page_table addr).map f) }

/-! ### The primitives the code consumes -/

/-- Modelled from the spec: `palloc_get_page (PAL_USER | flags)`, where `zero`
says whether `PAL_ZERO` is among the flags; `none` is `NULL`, the pool being
exhausted (`palloc.c` is not under `src/`). -/
def palloc_get_page (s : State) (zero : Bool) : State × Option Nat :=
  match s.free_pages with
  | [] => (s, none)
  | k :: rest =>
    ({ s with free_pages := rest,
              memory := if zero then Function.update s.memory k (fun _ => 0) else s.memory },
     some k)

/-- Modelled from the spec: `palloc_free_page (kaddr)` (`palloc.c` is not under
`src/`). -/
def palloc_free_page (s : State) (kaddr : Nat) : State :=
  { s with free_pages := kaddr :: s.free_pages }

/-- Modelled from the spec: `pagedir_get_page (pd, upage)`, `none` for `NULL`. -/
def pagedir_get_page (s : State) (tid upage : Nat) : Option Nat :=
  ((s.threads tid).pagedir upage).map fun e => e.kpage

/-- Modelled from the spec: `pagedir_set_page (pd, upage, kpage, writable)` when
it returns true. -/
def pagedir_set_page (s : State) (tid upage kpage : Nat) (writable : Bool) : State :=
  update_thread s tid fun t =>
    { t with pagedir := Function.update t.pagedir upage (some ⟨kpage, writable, false, false⟩) }

/-- Modelled from the spec: `pagedir_clear_page (pd, upage)`. -/
def pagedir_clear_page (s : State) (tid upage : Nat) : State :=
  update_thread s tid fun t => { t with pagedir := Function.update t.pagedir upage none }

/-- Modelled from the spec: `pagedir_is_accessed (pd, upage)`. -/
def pagedir_is_accessed (s : State) (tid upage : Nat) : Bool :=
  match (s.threads tid).pagedir upage with
  | some e => e.accessed
  | none => false

/-- Modelled from the spec: `pagedir_set_accessed (pd, upage, accessed)`. -/
def pagedir_set_accessed (s : State) (tid upage : Nat) (accessed : Bool) : State :=
  update_thread s tid fun t =>
    { t with
      pagedir := Function.update t.pagedir upage
                   ((t.pagedir upage).map fun e => { e with accessed := accessed }) }

/-- Modelled from the spec: `pagedir_is_dirty (pd, upage)`. -/
def pagedir_is_dirty (s : State) (tid upage : Nat) : Bool :=
  match (s.threads tid).pagedir upage with
  | some e => e.dirty
  | none => false

/-- Modelled from the spec: `pagedir_set_dirty (pd, upage, dirty)`. -/
def pagedir_set_dirty (s : State) (tid upage : Nat) (dirty : Bool) : State :=
  update_thread s tid fun t =>
    { t with
      pagedir := Function.update t.pagedir upage
                   ((t.pagedir upage).map fun e => { e with dirty := dirty }) }

/-- The first `n` bytes that the thread `tid` sees at the user address `uaddr`,
which is how `file_write_at` reads its buffer `page->addr`; `none` when the
thread has no mapping there (the kernel faults) or `n` exceeds a page. -/
def read_user (s : State) (tid uaddr n : Nat) : Option (List Byte) :=
  match (s.threads tid).pagedir uaddr with
  | some e =>
    if n ≤ PGSIZE then some (((List.finRange PGSIZE).map (s.memory e.kpage)).take n) else none
  | none => none

/-- Modelled from the spec: `file_write_at (file, buffer, size, file_ofs)` on the
contents of a file; bytes that would fall past the end of the file are not
written (`file.c` is not under `src/`). -/
def file_write_at (old : List Byte) (buffer : List Byte) (file_ofs : Nat) : List Byte :=
  old.take file_ofs ++ (buffer.take (old.length - file_ofs)) ++
    old.drop (file_ofs + (buffer.take (old.length - file_ofs)).length)

/-- Modelled from the spec: the bytes `file_read_at (file, buffer, size,
file_ofs)` delivers; there are fewer than `size` when the file ends before
(`file.c` is not under `src/`). -/
def file_read_at (old : List Byte) (size file_ofs : Nat) : List Byte :=
  (old.drop file_ofs).take size

/-! ### `vm/frame.c` and the lookup of `vm/page.c` it calls -/

/-- Source `vm_page_find (&thread->page_table, address)`: `hash_find` on the table
keyed by `addr`; `none` is `NULL`. -/
def vm_page_find (s : State) (tid address : Nat) : Option page :=
  (s.threads tid).page_table address

/-- Source `vm_frame_free (page)`: the first frame whose `addr` is `page` is removed
from the list and its physical page is freed; nothing happens if there is
none. -/
def vm_frame_free (s : State) (kpage : Nat) : State :=
  match s.frame_table.find? (fun f => f.addr == kpage) with
  | some f =>
    palloc_free_page
      { s with frame_table := s.frame_table.eraseP (fun f => f.addr == kpage) } f.addr
  | none => s

/-- The number of frames whose hardware accessed bit is set: the quantity that
the `while (true)` loop of `vm_frame_evict` decreases. -/
def accessed_frames (s : State) : Nat :=
  (s.frame_table.filter fun f => pagedir_is_accessed s f.thread f.upage).length

/-- The second-chance loop of `vm_frame_evict`, entered with `e` the position in
the list of the frame under inspection and `inspected` the number of iterations
made so far.  It gives the state when the `else` branch is reached, the
position of the victim, and the number of iterations made, this one included.
`none`: the list is empty, so that `list_begin` is not a frame. -/
def evict_sweep (s : State) (e inspected : Nat) : Option (State × Nat × Nat) :=
  match he : s.frame_table[e]? with
  | none => none
  | some fr =>
    if ha : pagedir_is_accessed s fr.thread fr.upage = true then
      evict_sweep (pagedir_set_accessed s fr.thread fr.upage false)
        (if e + 1 = s.frame_table.length then 0 else e + 1) (inspected + 1)
    else some (s, e, inspected + 1)
termination_by accessed_frames s
decreasing_by
  have key : ∀ (l : List frame) (p q : frame → Bool), (∀ x ∈ l, q x = true → p x = true) →
      (l.filter q).length ≤ (l.filter p).length ∧
      ((∃ x ∈ l, p x = true ∧ q x = false) → (l.filter q).length < (l.filter p).length) := by
    intro l p q
    induction l with
    | nil =>
      intro _
      refine ⟨Nat.le_refl _, ?_⟩
      intro h
      obtain ⟨x, hx, _⟩ := h
      exact absurd hx (List.not_mem_nil x)
    | cons a l ih =>
      intro hpq
      obtain ⟨ih1, ih2⟩ := ih (fun x hx => hpq x (List.mem_cons_of_mem _ hx))
      have ha := hpq a (List.mem_cons_self _ _)
      constructor
      · cases hq : q a with
        | false =>
          cases hp : p a with
          | false => simpa [List.filter_cons, hq, hp] using ih1
          | true => simp only [List.filter_cons, hq, hp]; simp; omega
        | true => simpa [List.filter_cons, hq, ha hq] using ih1
      · rintro ⟨x, hx, hpx, hqx⟩
        rcases List.mem_cons.mp hx with h | h
        · subst h
          simp only [List.filter_cons, hqx, hpx]
          simp
          omega
        · have := ih2 ⟨x, h, hpx, hqx⟩
          cases hq : q a with
          | false =>
            cases hp : p a with
            | false => simpa [List.filter_cons, hq, hp] using this
            | true => simp only [List.filter_cons, hq, hp]; simp; omega
          | true => simpa [List.filter_cons, hq, ha hq] using this
  have hmem : fr ∈ s.frame_table := List.getElem?_mem he
  have hnow : ∀ f : frame,
      pagedir_is_accessed (pagedir_set_accessed s fr.thread fr.upage false)
        f.thread f.upage
      = (if f.thread = fr.thread ∧ f.upage = fr.upage then false
         else pagedir_is_accessed s f.thread f.upage) := by
    intro f
    simp only [pagedir_is_accessed, pagedir_set_accessed, update_thread]
    by_cases ht : f.thread = fr.thread
    · by_cases hu : f.upage = fr.upage
      · rw [ht, hu]
        simp only [Function.update_same, and_self, if_true]
        cases (s.threads fr.thread).pagedir fr.upage <;> rfl
      · rw [ht]
        simp [Function.update_same, Function.update_noteq hu, hu]
    · simp [Function.update_noteq ht, ht]
  unfold accessed_frames
  apply (key _ _ _ ?_).2 ⟨fr, hmem, ha, ?_⟩
  · intro x _ hx
    rw [hnow] at hx
    split at hx
    · exact absurd hx (by simp)
    · exact hx
  · rw [hnow]; simp

/-- The call `file_write_at (page->file, page->addr, page->file_read_bytes,
page->file_ofs)` made by the thread `cur`, as in `vm_frame_evict`,
`vm_page_destructor` and `sys_munmap`.  `none`: `page->file` is `NULL`, or the
kernel faults on `page->addr`. -/
def write_back (s : State) (cur : Nat) (page : page) : Option State :=
  match page.file, read_user s cur page.addr page.file_read_bytes with
  | some file, some buffer =>
    some { s with
           files := Function.update s.files file
                      (file_write_at (s.files file) buffer page.file_ofs) }
  | _, _ => none

/-- The `else` branch of the loop of `vm_frame_evict`, for the frame at position
`e`, run by the thread `cur` (whose address space `file_write_at` reads
`page->addr` in): the write-back or swap-out, the removal of the frame, and the
`palloc_get_page` whose result is returned.  `none`: `page` is `NULL`, or
`page->file` is `NULL`, or the kernel faults on `page->addr`, or `swap_out`
panics. -/
def evict_commit (s : State) (cur e : Nat) (zero : Bool) : Option (State × Option Nat) :=
  match s.frame_table[e]? with
  | none => none
  | some fr =>
    match vm_page_find s fr.thread fr.upage with
    | none => none
    | some page =>
      (if pagedir_is_dirty s fr.thread fr.upage = true then
        if page.mapid ≠ MAP_FAILED then
          (write_back s cur page).map fun s0 =>
            update_page s0 fr.thread fr.upage fun p => { p with loaded := false }
        else
          (swap_out s.swap (s.memory fr.addr)).map fun r =>
            update_page { s with swap := r.1 } fr.thread fr.upage
              fun p => { p with valid := false, swap_idx := r.2 }
      else
        some (update_page s fr.thread fr.upage fun p => { p with loaded := false })).map
      fun s1 =>
        palloc_get_page
          (palloc_free_page
            (pagedir_clear_page { s1 with frame_table := s1.frame_table.eraseIdx e }
              fr.thread fr.upage)
            fr.addr)
          zero

/-- Source `vm_frame_evict (flags)`, run by the thread `cur`. -/
def vm_frame_evict (s : State) (cur : Nat) (zero : Bool) : Option (State × Option Nat) :=
  (evict_sweep s 0 0).bind fun r => evict_commit r.1 cur r.2.1 zero

/-- Source `vm_frame_alloc (upage, flags)`, run by the thread `cur`: the new state and
the returned kernel address, `none` inside `some` for `NULL`. -/
def vm_frame_alloc (s : State) (cur upage : Nat) (zero : Bool) : Option (State × Option Nat) :=
  (match (palloc_get_page s zero).2 with
   | none => vm_frame_evict (palloc_get_page s zero).1 cur zero
   | some kpage => some ((palloc_get_page s zero).1, some kpage)).map
  fun (r : State × Option Nat) =>
    match r.2 with
    | some kpage => ({ r.1 with frame_table := r.1.frame_table ++ [frame.mk cur kpage upage] }, some kpage)
    | none => r

/-! ### `vm/page.c` -/

/-- Source `vm_page_insert (address)`, run by the thread `cur`.  `raw` is what the
memory returned by `malloc` holds: the members that the function does not
assign keep it.  The result is the new state and the returned pointer: `none`
for `NULL` (the page was inserted), the entry already there otherwise. -/
def vm_page_insert (s : State) (cur address : Nat) (raw : page) : State × Option page :=
  match (s.threads cur).page_table address with
  | some old => (s, some old)
  | none =>
    (update_thread s cur fun t =>
      { t with
        page_table := Function.update t.page_table address
          (some { raw with addr := address, loaded := true, mapid := MAP_FAILED, file := none,
                           valid := true }) },
     none)

/-- Modelled from the spec: `frame_free`, which `vm_page_load_swap`,
`vm_page_load_file` and `vm_page_destructor` call, is not defined under `src/`;
the spec says "free the frame", which is `vm_frame_free`. -/
def frame_free (s : State) (kpage : Nat) : State := vm_frame_free s kpage

/-- The value of `pagedir_get_page (t->pagedir, upage) == NULL &&
pagedir_set_page (t->pagedir, upage, kpage, writable)`, where `ok` says whether
`pagedir_set_page` succeeds when it is called (it fails when no page table can
be allocated). -/
def install_ok (s : State) (cur upage : Nat) (ok : Bool) : Bool :=
  (pagedir_get_page s cur upage).isNone && ok

/-- Source `vm_page_load_swap (page)`, run by the thread `cur`, where `page` is the
entry of its page table at `addr`.  `none`: `page` is `NULL`, the allocation
crashes, `ASSERT (!page->valid)` fails, `kpage` is `NULL`, or the `ASSERT` of
`swap_in` fails. -/
def vm_page_load_swap (s : State) (cur addr : Nat) (ok : Bool) : Option (State × Bool) :=
  match vm_page_find s cur addr with
  | none => none
  | some page0 =>
    (vm_frame_alloc s cur page0.addr false).bind fun (r : State × Option Nat) =>
      match vm_page_find r.1 cur addr, r.2 with
      | some page, some kpage =>
        if page.valid = false then
          (swap_in r.1.swap page.swap_idx (r.1.memory kpage)).map
            fun (q : SwapState × PageData) =>
              if install_ok r.1 cur page.addr ok = true then
                (update_page
                  (pagedir_set_accessed
                    (pagedir_set_dirty
                      (pagedir_set_page
                        { r.1 with swap := q.1,
                                   memory := Function.update r.1.memory kpage q.2 }
                        cur page.addr kpage true)
                      cur page.addr true)
                    cur page.addr true)
                  cur addr fun p => { p with valid := true },
                 true)
              else
                (frame_free
                  { r.1 with swap := q.1, memory := Function.update r.1.memory kpage q.2 }
                  kpage,
                 false)
        else none
      | _, _ => none

/-- The page after `file_read_at` has stored the bytes `data` at its start. -/
def put_bytes (c : PageData) (data : List Byte) : PageData :=
  fun off => if off.val < data.length then data.getD off.val 0 else c off

/-- The page after `memset (kpage + n, 0, PGSIZE - n)`. -/
def memset_tail (c : PageData) (n : Nat) : PageData :=
  fun off => if off.val < n then c off else 0

/-- Source `vm_page_load_file (page)`, run by the thread `cur`, where `page` is the
entry of its page table at `addr`.  `none`: `page` is `NULL`, one of the two
`ASSERT`s fails, the allocation crashes, or `file_read_at` stores bytes past the
end of the page. -/
def vm_page_load_file (s : State) (cur addr : Nat) (ok : Bool) : Option (State × Bool) :=
  match vm_page_find s cur addr with
  | none => none
  | some page =>
    match page.loaded, page.file with
    | false, some file =>
      (vm_frame_alloc s cur page.addr (decide (page.file_read_bytes = 0))).bind
        fun (r : State × Option Nat) =>
          match r.2 with
          | none => some (r.1, false)
          | some kpage =>
            (if page.file_read_bytes > 0 then
              if (file_read_at (r.1.files file) page.file_read_bytes page.file_ofs).length
                  ≤ PGSIZE then
                if (file_read_at (r.1.files file) page.file_read_bytes page.file_ofs).length
                    = page.file_read_bytes then
                  some (Sum.inr { r.1 with
                    memory := Function.update r.1.memory kpage
                      (memset_tail
                        (put_bytes (r.1.memory kpage)
                          (file_read_at (r.1.files file) page.file_read_bytes page.file_ofs))
                        page.file_read_bytes) })
                else
                  some (Sum.inl (vm_frame_free
                    { r.1 with
                      memory := Function.update r.1.memory kpage
                        (put_bytes (r.1.memory kpage)
                          (file_read_at (r.1.files file) page.file_read_bytes
                            page.file_ofs)) }
                    kpage))
              else none
            else some (Sum.inr r.1)).map
            fun (q : State ⊕ State) =>
              match q with
              | Sum.inl s1 => (s1, false)
              | Sum.inr s1 =>
                if install_ok s1 cur page.addr ok = true then
                  (pagedir_set_accessed
                    (pagedir_set_page s1 cur page.addr kpage page.file_writable)
                    cur page.addr true,
                   true)
                else (frame_free s1 kpage, false)
    | _, _ => none

/-- Source `vm_page_load_zero (page)`, run by the thread `cur`, where `page` is the
entry of its page table at `addr`.  `none`: `page` is `NULL`, the allocation
crashes, or `ASSERT (!page->loaded)` fails. -/
def vm_page_load_zero (s : State) (cur addr : Nat) (ok : Bool) : Option (State × Bool) :=
  match vm_page_find s cur addr with
  | none => none
  | some page0 =>
    (vm_frame_alloc s cur page0.addr true).bind fun (r : State × Option Nat) =>
      match vm_page_find r.1 cur addr with
      | none => none
      | some page =>
        if page.loaded = false then
          match r.2 with
          | none => some (r.1, false)
          | some kpage =>
            if install_ok r.1 cur page.addr ok = true then
              some (pagedir_set_accessed (pagedir_set_page r.1 cur page.addr kpage true)
                      cur page.addr true,
                    true)
            else some (vm_frame_free r.1 kpage, false)
        else none

/-- Source `vm_page_destructor`, run by the thread `cur` on the entry of its page table
at `addr`, which `hash_destroy` has taken out of the table.  `none`: the write
to the file crashes, or the `ASSERT` of `swap_destroy` fails. -/
def vm_page_destructor (s : State) (cur addr : Nat) : Option State :=
  match vm_page_find s cur addr with
  | none => none
  | some page =>
    (match pagedir_get_page s cur page.addr with
     | some kpage =>
       (if page.mapid ≠ MAP_FAILED then
         (if pagedir_is_dirty s cur page.addr = true then write_back s cur page
          else some s).map fun s1 =>
           update_thread s1 cur fun t => { t with mmap_list := t.mmap_list.erase addr }
        else some s).map fun s2 => frame_free (pagedir_clear_page s2 cur page.addr) kpage
     | none => some s).bind fun s3 =>
      (if page.valid = false then
        (swap_destroy s3.swap page.swap_idx).map fun sw => { s3 with swap := sw }
       else some s3).map fun s4 =>
        update_thread s4 cur fun t =>
          { t with page_table := Function.update t.page_table addr none }

/-- Source `vm_page_destroy (&page_table)`, run by the thread `cur`: `hash_destroy`
hands every entry to `vm_page_destructor`; `order` is the order in which it
walks the entries. -/
def vm_page_destroy (s : State) (cur : Nat) (order : List Nat) : Option State :=
  order.foldl (fun acc addr => acc.bind fun st => vm_page_destructor st cur addr) (some s)

/-! ### The mapping bookkeeping of `userprog/syscall.c` -/

/-- Source `thread_fd_get (fd)`, run by the thread `cur`; `none` is `NULL`. -/
def thread_fd_get (s : State) (cur : Nat) (fd : Int) : Option Nat :=
  if fd < 2 ∨ fd ≥ (s.threads cur).max_fd then none
  else ((s.threads cur).fd_list.find? fun tfd => tfd.1 == fd).map fun tfd => tfd.2

/-- The rollback loop `while (current_ofs > 0)` of `sys_mmap`.  `none`:
`list_pop_back` on an empty list. -/
def mmap_rollback (s : State) (cur current_ofs : Nat) : Option State :=
  if _h : current_ofs > 0 then
    match (s.threads cur).mmap_list.getLast? with
    | none => none
    | some a =>
      mmap_rollback
        (update_thread s cur fun t =>
          { t with mmap_list := t.mmap_list.dropLast,
                   page_table := Function.update t.page_table a none })
        cur (current_ofs - PGSIZE)
  else some s
termination_by current_ofs
decreasing_by
  simp only [PGSIZE]
  omega

/-- The loop `while (current_read_bytes > 0)` of `sys_mmap`; `raw current_ofs` is
what the memory returned by the `malloc` of that iteration holds.  The result
says whether the loop ran to its end (`true`) or returned `MAP_FAILED` after the
rollback (`false`). -/
def mmap_loop (s : State) (cur file addr : Nat) (mapid : Int) (raw : Nat → page)
    (current_read_bytes current_ofs : Nat) : Option (State × Bool) :=
  if _h : current_read_bytes > 0 then
    match (vm_page_insert s cur ((addr + current_ofs) % WORD) (raw current_ofs)).2 with
    | some _ =>
      (mmap_rollback
        (update_thread s cur fun t => { t with max_mapid := t.max_mapid - 1 })
        cur current_ofs).map fun s1 => (s1, false)
    | none =>
      mmap_loop
        (update_thread
          (update_page
            (vm_page_insert s cur ((addr + current_ofs) % WORD) (raw current_ofs)).1
            cur ((addr + current_ofs) % WORD)
            fun p =>
              { p with loaded := false, mapid := mapid, file := some file,
                       file_ofs := current_ofs,
                       file_read_bytes :=
                         if current_read_bytes < PGSIZE then current_read_bytes else PGSIZE,
                       file_writable := true })
          cur fun t => { t with mmap_list := t.mmap_list ++ [(addr + current_ofs) % WORD] })
        cur file addr mapid raw
        (current_read_bytes -
          (if current_read_bytes < PGSIZE then current_read_bytes else PGSIZE))
        (current_ofs + PGSIZE)
  else some (s, true)
termination_by current_read_bytes
decreasing_by
  simp only [PGSIZE]
  split <;> omega

/-- Source `sys_mmap (fd, addr)`, run by the thread `cur`: the new state and the
returned `mapid_t`.  `file_reopen` gives a handle of the same file. -/
def sys_mmap (s : State) (cur : Nat) (fd : Int) (addr : Nat) (raw : Nat → page) :
    Option (State × Int) :=
  match thread_fd_get s cur fd with
  | none => some (s, MAP_FAILED)
  | some file =>
    if addr % PGSIZE ≠ 0 ∨ addr = 0 then some (s, MAP_FAILED)
    else if (s.files file).length = 0 then some (s, MAP_FAILED)
    else
      (mmap_loop (update_thread s cur fun t => { t with max_mapid := t.max_mapid + 1 })
        cur file addr (s.threads cur).max_mapid raw (s.files file).length 0).map
        fun (r : State × Bool) => (r.1, if r.2 = true then (s.threads cur).max_mapid else MAP_FAILED)

/-- The loop of `sys_munmap` over the elements of `mmap_list` from `e` on, where
`before` are the elements that precede `e` and stay in the list.  `none`: the
write to the file crashes. -/
def munmap_walk (s : State) (cur : Nat) (mapid : Int) (before : List Nat) :
    List Nat → Option State
  | [] => some s
  | a :: rest =>
    match vm_page_find s cur a with
    | none => none
    | some page =>
      if page.mapid < mapid then munmap_walk s cur mapid (before ++ [a]) rest
      else if page.mapid > mapid then some s
      else
        match pagedir_get_page s cur page.addr with
        | none =>
          munmap_walk
            (update_thread s cur fun t =>
              { t with mmap_list := before ++ rest,
                       page_table := Function.update t.page_table a none })
            cur mapid before rest
        | some kpage =>
          (if pagedir_is_dirty s cur page.addr = true then write_back s cur page
           else some s).bind fun s1 =>
            munmap_walk
              (vm_frame_free
                (update_thread (pagedir_clear_page s1 cur page.addr) cur fun t =>
                  { t with mmap_list := before ++ rest,
                           page_table := Function.update t.page_table a none })
                kpage)
              cur mapid before rest

/-- Source `sys_munmap (mapid)`, run by the thread `cur`. -/
def sys_munmap (s : State) (cur : Nat) (mapid : Int) : Option State :=
  munmap_walk s cur mapid [] (s.threads cur).mmap_list

/-! ### Runs of the memory manager -/

/-- A call into the memory manager by a thread, or an event that the code
outside these files and the hardware can cause: `touch` is a user access to a
mapped page, which sets the accessed bit (and the dirty bit for a write);
`set_page` is an assignment to the members of an entry of the page table other
than `addr` by a caller. -/
inductive VMCall where
  | insert (cur address : Nat) (raw : page)
  | load_zero (cur addr : Nat) (ok : Bool)
  | load_file (cur addr : Nat) (ok : Bool)
  | load_swap (cur addr : Nat) (ok : Bool)
  | mmap (cur : Nat) (fd : Int) (addr : Nat) (raw : Nat → page)
  | munmap (cur : Nat) (mapid : Int)
  | touch (cur addr : Nat) (write : Bool)
  | set_page (cur addr : Nat) (p : page)

/-- One call or event; `none` when the call crashes. -/
def vm_step (s : State) : VMCall → Option State
  | .insert cur address raw => some (vm_page_insert s cur address raw).1
  | .load_zero cur addr ok => (vm_page_load_zero s cur addr ok).map fun r => r.1
  | .load_file cur addr ok => (vm_page_load_file s cur addr ok).map fun r => r.1
  | .load_swap cur addr ok => (vm_page_load_swap s cur addr ok).map fun r => r.1
  | .mmap cur fd addr raw => (sys_mmap s cur fd addr raw).map fun r => r.1
  | .munmap cur mapid => sys_munmap s cur mapid
  | .touch cur addr write =>
    some (update_thread s cur fun t =>
      { t with
        pagedir := Function.update t.pagedir addr
          ((t.pagedir addr).map fun e =>
            { e with accessed := true, dirty := e.dirty || write }) })
  | .set_page cur addr p => some (update_page s cur addr fun q => { p with addr := q.addr })

/-- A sequence of calls and events, in order. -/
def vm_run (s : State) : List VMCall → Option State
  | [] => some s
  | c :: cs => (vm_step s c).bind fun t => vm_run t cs

/-- The state at boot: no thread has a page or a mapping, the frame table is
empty, `pool` are the pages of the user pool, and every thread has the open
files `fds` (descriptors below `max_fd`). -/
def vm_boot (pool : List Nat) (files : Nat → List Byte) (swap : SwapState)
    (fds : List (Int × Nat)) (max_fd : Int) : State :=
  { threads := fun _ =>
      { pagedir := fun _ => none, page_table := fun _ => none, mmap_list := [],
        max_mapid := 0, fd_list := fds, max_fd := max_fd },
    frame_table := [],
    swap := swap,
    free_pages := pool,
    memory := fun _ _ => 0,
    files := files }

/-! ### Invariants of the memory manager, as definitions -/

/-- Every frame of the frame table is mapped: the page directory of its thread
maps its `upage` to its `addr`. -/
def frames_mapped (s : State) : Prop :=
  ∀ f ∈ s.frame_table, pagedir_get_page s f.thread f.upage = some f.addr

/-- Every hardware mapping has its frame in the frame table. -/
def mapped_framed (s : State) : Prop :=
  ∀ tid upage kpage, pagedir_get_page s tid upage = some kpage →
    frame.mk tid kpage upage ∈ s.frame_table

/-- No two frames of the frame table have the same kernel address. -/
def frames_distinct (s : State) : Prop :=
  (s.frame_table.map fun f => f.addr).Nodup

/-- The free pages of the pool are distinct and none of them is the page of a
frame. -/
def pool_ok (s : State) : Prop :=
  s.free_pages.Nodup ∧ ∀ f ∈ s.frame_table, f.addr ∉ s.free_pages

/-- The frame table, the page directories and the pool fit together. -/
def pairing (s : State) : Prop :=
  frames_mapped s ∧ mapped_framed s ∧ frames_distinct s ∧ pool_ok s

/-- Two states with the same frame table, the same pool and the same hardware
mappings (the accessed and dirty bits may differ). -/
def same_shape (s t : State) : Prop :=
  t.frame_table = s.frame_table ∧ t.free_pages = s.free_pages ∧
  ∀ tid upage, pagedir_get_page t tid upage = pagedir_get_page s tid upage

/-- The state `t` is the state `s` with one more frame at the end of the frame
table, for the page `kpage` that is neither free nor in a frame of `s`. -/
def fresh_frame (s t : State) (cur kpage upage : Nat) : Prop :=
  pairing s ∧ kpage ∉ s.free_pages ∧ (∀ f ∈ s.frame_table, f.addr ≠ kpage) ∧
  t.frame_table = s.frame_table ++ [frame.mk cur kpage upage] ∧
  t.free_pages = s.free_pages ∧
  ∀ tid a, pagedir_get_page t tid a = pagedir_get_page s tid a

/-! ### A small concrete state -/

/-- An anonymous page record at `addr` with the defaults of `vm_page_insert`. -/
def anon_page (addr : Nat) : page :=
  { addr := addr, loaded := true, mapid := MAP_FAILED, file := none, file_ofs := 0,
    file_read_bytes := 0, file_writable := false, valid := true, swap_idx := 0 }

/-- A thread that has no page, no mapping and no open file. -/
def idle_thread : thread :=
  { pagedir := fun _ => none, page_table := fun _ => none, mmap_list := [], max_mapid := 0,
    fd_list := [], max_fd := 2 }

/-- A thread with two resident anonymous pages, at `0x1000` and `0x2000`, mapped
to the kernel pages 100 and 101, both with the accessed bit set. -/
def two_page_thread : thread :=
  { pagedir := fun a =>
      if a = 0x1000 then some ⟨100, true, true, false⟩
      else if a = 0x2000 then some ⟨101, true, true, false⟩ else none,
    page_table := fun a =>
      if a = 0x1000 ∨ a = 0x2000 then some (anon_page a) else none,
    mmap_list := [], max_mapid := 0, fd_list := [], max_fd := 2 }

/-- A state in which thread 0 owns two frames, with no free page left and a swap
area of two free slots. -/
def two_frame_state : State :=
  { threads := fun tid => if tid = 0 then two_page_thread else idle_thread,
    frame_table := [frame.mk 0 100 0x1000, frame.mk 0 101 0x2000],
    swap := swap_init 16 (fun _ _ => 0),
    free_pages := [],
    memory := fun _ _ => 0,
    files := fun _ => [] }

/-- A thread whose only page, at `0x1000`, is swapped out to slot 0. -/
def swapped_thread : thread :=
  { pagedir := fun _ => none,
    page_table := fun a =>
      if a = 0x1000 then some { anon_page 0x1000 with valid := false, swap_idx := 0 } else none,
    mmap_list := [], max_mapid := 0, fd_list := [], max_fd := 2 }

/-- A state in which the page of thread 0 at `0x1000` is in slot 0 of a swap
area of two slots, no frame is in use and the kernel page 102 is free. -/
def swapped_state : State :=
  { threads := fun tid => if tid = 0 then swapped_thread else idle_thread,
    frame_table := [],
    swap := { swap_table := [true, false], disk := fun _ _ => 0x55 },
    free_pages := [102],
    memory := fun _ _ => 0,
    files := fun _ => [] }

/-- Every page that is swapped out names a set bit of the swap bitmap, and no two
pages that are swapped out name the same bit. -/
def swap_slots_ok (s : State) : Prop :=
  (∀ tid a p, vm_page_find s tid a = some p → p.valid = false →
    bitmap_test s.swap.swap_table p.swap_idx = true) ∧
  (∀ tid a p tid2 a2 p2, vm_page_find s tid a = some p → vm_page_find s tid2 a2 = some p2 →
    p.valid = false → p2.valid = false → p.swap_idx = p2.swap_idx → tid = tid2 ∧ a = a2)

/-- The page tables of `t` have entries at the same addresses as those of `s`,
with the same `addr` member. -/
def same_addrs (s t : State) : Prop :=
  ∀ tid a, (vm_page_find t tid a).map (fun p => p.addr) =
    (vm_page_find s tid a).map (fun p => p.addr)

/-- The state at boot with one free user page (100), a file 7 of three bytes
open as descriptor 2 in every thread, and a swap area of two free slots. -/
def one_file_boot : State :=
  vm_boot [100] (fun f => if f = 7 then [1, 2, 3] else []) (swap_init 16 (fun _ _ => 0))
    [(2, 7)] 3

/-- The page that `sys_mmap` makes at `0x1000` for a mapping of file 7 with
`mapid` 0. -/
def lazy_file_page : page :=
  { addr := 0x1000, loaded := false, mapid := 0, file := some 7, file_ofs := 0,
    file_read_bytes := 3, file_writable := true, valid := true, swap_idx := 0 }

/-- The state at boot with one free user page (100), a file 7 of `len` zero bytes
open as descriptor 2 in every thread, and a swap area of two free slots. -/
def big_file_boot (len : Nat) : State :=
  vm_boot [100] (fun f => if f = 7 then List.replicate len 0 else [])
    (swap_init 16 (fun _ _ => 0)) [(2, 7)] 3

/-- The state in which file 7 has 9000 bytes (three pages) and thread 0 has an
anonymous page at `0x2000` already. -/
def occupied_boot : State :=
  (vm_page_insert (big_file_boot 9000) 0 0x2000 (anon_page 0)).1

/-- A thread with one mapping, of `mapid` 0: the lazy page `lazy_file_page` at
`0x1000`, not resident. -/
def mapped_thread : thread :=
  { pagedir := fun _ => none,
    page_table := fun a => if a = 0x1000 then some lazy_file_page else none,
    mmap_list := [0x1000], max_mapid := 1, fd_list := [(2, 7)], max_fd := 3 }

/-- The state in which thread 0 is `mapped_thread` and file 7 holds three bytes. -/
def mapped_state : State :=
  { threads := fun tid => if tid = 0 then mapped_thread else idle_thread,
    frame_table := [],
    swap := swap_init 16 (fun _ _ => 0),
    free_pages := [100],
    memory := fun _ _ => 0,
    files := fun f => if f = 7 then [1, 2, 3] else [] }

/-- The page of a mapping of file 7 at `0x1000`, resident. -/
def resident_file_page : page :=
  { addr := 0x1000, loaded := true, mapid := 0, file := some 7, file_ofs := 0,
    file_read_bytes := 3, file_writable := true, valid := true, swap_idx := 0 }

/-- A state with two threads that both have a page at the user address
`0x1000`: thread 1 has file 7 mapped there, in the frame at kernel page 100,
which it has written (the bytes are `0xAA`, the dirty bit is set, the accessed
bit is clear); thread 0 has an anonymous page there, in the frame at kernel
page 101, which holds the bytes `0xBB`.  No user page is free. -/
def two_thread_state : State :=
  { threads := fun tid =>
      if tid = 1 then
        { pagedir := fun a => if a = 0x1000 then some ⟨100, true, false, true⟩ else none,
          page_table := fun a => if a = 0x1000 then some resident_file_page else none,
          mmap_list := [0x1000], max_mapid := 1, fd_list := [(2, 7)], max_fd := 3 }
      else if tid = 0 then
        { pagedir := fun a => if a = 0x1000 then some ⟨101, true, true, false⟩ else none,
          page_table := fun a => if a = 0x1000 then some (anon_page 0x1000) else none,
          mmap_list := [], max_mapid := 0, fd_list := [], max_fd := 2 }
      else idle_thread,
    frame_table := [frame.mk 1 100 0x1000, frame.mk 0 101 0x1000],
    swap := swap_init 16 (fun _ _ => 0),
    free_pages := [],
    memory := fun k _ => if k = 100 then 0xAA else 0xBB,
    files := fun f => if f = 7 then [1, 2, 3] else [] }

/-! ### The mapping registry under `sys_mmap`, `sys_munmap` and `vm_frame_evict` -/

/-- A call that C15 ranges over, with the thread `cur` that makes it. -/
inductive RegCall where
  | mmap (cur : Nat) (fd : Int) (addr : Nat) (raw : Nat → page)
  | munmap (cur : Nat) (mapid : Int)
  | evict (cur : Nat) (zero : Bool)

/-- One call of `sys_mmap`, `sys_munmap` or `vm_frame_evict`; `none` when it
crashes. -/
def reg_step (s : State) : RegCall → Option State
  | RegCall.mmap cur fd addr raw => (sys_mmap s cur fd addr raw).map fun r => r.1
  | RegCall.munmap cur mapid => sys_munmap s cur mapid
  | RegCall.evict cur zero => (vm_frame_evict s cur zero).map fun r => r.1

/-- A sequence of such calls. -/
def reg_run (s : State) : List RegCall → Option State
  | [] => some s
  | c :: cs => (reg_step s c).bind fun t => reg_run t cs

/-- Every element of the `mmap_list` of thread `tid` is a page of its page table
whose `mapid` is below `max_mapid`. -/
def registry_bounded (s : State) (tid : Nat) : Prop :=
  ∀ a ∈ (s.threads tid).mmap_list,
    ∃ p, vm_page_find s tid a = some p ∧ p.mapid < (s.threads tid).max_mapid

/-- The `mmap_list` of thread `tid` is sorted non-decreasing by `mapid`. -/
def registry_sorted (s : State) (tid : Nat) : Prop :=
  (s.threads tid).mmap_list.Pairwise fun a b =>
    ∀ p q, vm_page_find s tid a = some p → vm_page_find s tid b = some q → p.mapid ≤ q.mapid

/-- The invariant of the mapping registry of thread `tid`: no page is in the list
twice, and the list is bounded and sorted. -/
def registry_inv (s : State) (tid : Nat) : Prop :=
  (s.threads tid).mmap_list.Nodup ∧ registry_bounded s tid ∧ registry_sorted s tid

/-- The `PGSIZE` bytes that the sectors of the slot `swap_idx` hold on the swap
disk `dk`, in the order in which `swap_in` reads them. -/
def slot_page (dk : Nat → Sector) (swap_idx : Nat) : PageData :=
  fun off => dk (slot_sector swap_idx (off.val / DISK_SECTOR_SIZE))
    ⟨off.val % DISK_SECTOR_SIZE, Nat.mod_lt _ (by decide)⟩

/-- The files `fs` after the write that `sys_munmap` makes for the page of thread
`cur` at `a`, read in the state `s`: when the hardware dirty bit of the page is
set, its first `file_read_bytes` bytes go to its file at `file_ofs`; otherwise
nothing is written. -/
def unmap_write (s : State) (cur : Nat) (fs : Nat → List Byte) (a : Nat) : Nat → List Byte :=
  match vm_page_find s cur a with
  | none => fs
  | some p =>
    if pagedir_is_dirty s cur p.addr = true then
      match p.file, read_user s cur p.addr p.file_read_bytes with
      | some f, some buffer => Function.update fs f (file_write_at (fs f) buffer p.file_ofs)
      | _, _ => fs
    else fs

/-- A state in which thread 0 has file 7 (three bytes) mapped at `0x1000` with
`mapid` 0, resident in the frame at kernel page 100, which it has written: the
page holds the byte `0xAA` everywhere and its dirty bit is set. -/
def dirty_mapped_state : State :=
  { threads := fun tid =>
      if tid = 0 then
        { pagedir := fun a => if a = 0x1000 then some ⟨100, true, true, true⟩ else none,
          page_table := fun a => if a = 0x1000 then some resident_file_page else none,
          mmap_list := [0x1000], max_mapid := 1, fd_list := [(2, 7)], max_fd := 3 }
      else idle_thread,
    frame_table := [frame.mk 0 100 0x1000],
    swap := swap_init 16 (fun _ _ => 0),
    free_pages := [],
    memory := fun _ _ => 0xAA,
    files := fun f => if f = 7 then [1, 2, 3] else [] }

end VM

/-! # Theorems -/

/-! ## Theorems about `filesys/cache.c` -/

namespace Cache

theorem lookup_some {s : CacheState} {sector : Nat} {i : Fin BUFFER_CACHE_SIZE}
    (h : buffer_cache_lookup s sector = some i) :
    (s.cache i).used = true ∧ (s.cache i).disk_sector = sector := by
  have := List.find?_some h
  simpa using this

theorem lookup_none {s : CacheState} {sector : Nat}
    (h : buffer_cache_lookup s sector = none) (i : Fin BUFFER_CACHE_SIZE)
    (hu : (s.cache i).used = true) : (s.cache i).disk_sector ≠ sector := by
  unfold buffer_cache_lookup at h
  rw [List.find?_eq_none] at h
  have := h i (List.mem_finRange i)
  simpa [hu] using this

theorem lookup_of_line {s : CacheState} (hd : distinct_sectors s) {sector : Nat}
    {i : Fin BUFFER_CACHE_SIZE} (hu : (s.cache i).used = true)
    (hs : (s.cache i).disk_sector = sector) : buffer_cache_lookup s sector = some i := by
  cases h : buffer_cache_lookup s sector with
  | none => exact absurd hs (lookup_none h i hu)
  | some j =>
    have hj := lookup_some h
    rw [hd j i hj.1 hu (hj.2.trans hs.symm)]

theorem lookup_of_miss {s : CacheState} {sector : Nat}
    (h : ∀ i, (s.cache i).used = true → (s.cache i).disk_sector ≠ sector) :
    buffer_cache_lookup s sector = none := by
  cases hl : buffer_cache_lookup s sector with
  | none => rfl
  | some j => exact absurd (lookup_some hl).2 (h j (lookup_some hl).1)

theorem view_of_line {s : CacheState} (hd : distinct_sectors s) {sector : Nat}
    {i : Fin BUFFER_CACHE_SIZE} (hu : (s.cache i).used = true)
    (hs : (s.cache i).disk_sector = sector) : view s sector = (s.cache i).buffer := by
  simp [view, lookup_of_line hd hu hs]

theorem view_of_miss {s : CacheState} {sector : Nat}
    (h : ∀ i, (s.cache i).used = true → (s.cache i).disk_sector ≠ sector) :
    view s sector = s.fs_device sector := by
  simp [view, lookup_of_miss h]

theorem same_data_refl (s : CacheState) : same_data s s :=
  ⟨rfl, fun _ => ⟨rfl, rfl, rfl, rfl⟩⟩

theorem same_data_trans {s t u : CacheState} (h1 : same_data s t) (h2 : same_data t u) :
    same_data s u := by
  refine ⟨h2.1.trans h1.1, fun i => ?_⟩
  obtain ⟨a1, a2, a3, a4⟩ := h1.2 i
  obtain ⟨b1, b2, b3, b4⟩ := h2.2 i
  exact ⟨b1.trans a1, b2.trans a2, b3.trans a3, b4.trans a4⟩

theorem same_data_set_access (s : CacheState) (i : Fin BUFFER_CACHE_SIZE) (v : Bool)
    (c : Fin BUFFER_CACHE_SIZE) : same_data s { set_access s i v with clock := c } := by
  refine ⟨rfl, fun j => ?_⟩
  by_cases h : j = i
  · subst h; simp [set_access]
  · simp [set_access, Function.update_noteq h]

theorem same_data_lookup {s t : CacheState} (h : same_data s t) (sector : Nat) :
    buffer_cache_lookup t sector = buffer_cache_lookup s sector := by
  unfold buffer_cache_lookup
  congr 1
  funext i
  rw [(h.2 i).1, (h.2 i).2.1]

theorem same_data_view {s t : CacheState} (h : same_data s t) (sector : Nat) :
    view t sector = view s sector := by
  unfold view
  rw [same_data_lookup h, h.1]
  cases buffer_cache_lookup s sector with
  | none => rfl
  | some i => exact (h.2 i).2.2.1

theorem same_data_inv {s t : CacheState} (h : same_data s t) (hi : cache_inv s) :
    cache_inv t := by
  constructor
  · intro i j hu hv hs
    rw [(h.2 i).1] at hu
    rw [(h.2 j).1] at hv
    rw [(h.2 i).2.1, (h.2 j).2.1] at hs
    exact hi.1 i j hu hv hs
  · intro i hu hdirty
    rw [(h.2 i).1] at hu
    rw [(h.2 i).2.2.2] at hdirty
    rw [(h.2 i).2.2.1, (h.2 i).2.1, h.1]
    exact hi.2 i hu hdirty

/-- The clock loop changes reference bits and the hand only, and says how it
was left. -/
theorem get_slot_loop_spec (s : CacheState) :
    same_data s (get_slot_loop s).1 ∧
    ((get_slot_loop s).2 = true →
      ((get_slot_loop s).1.cache (get_slot_loop s).1.clock).used = false) ∧
    ((get_slot_loop s).2 = false →
      ((get_slot_loop s).1.cache (get_slot_loop s).1.clock).used = true ∧
      ((get_slot_loop s).1.cache (get_slot_loop s).1.clock).access = false) := by
  induction s using get_slot_loop.induct with
  | case1 s hu =>
    rw [get_slot_loop]
    simp [hu, same_data_refl]
  | case2 s hu ha ih =>
    rw [get_slot_loop]
    simp only [hu, ha, dite_true, dite_false]
    exact ⟨same_data_trans (same_data_set_access s s.clock false _) ih.1, ih.2⟩
  | case3 s hu ha =>
    rw [get_slot_loop]
    simp only [hu, ha, dite_false]
    refine ⟨same_data_refl s, by simp, fun _ => ⟨by simpa using hu, by simpa using ha⟩⟩

/-- Dropping a used line whose buffer is (now) on the device keeps the
invariants and changes nothing that can be seen through the cache. -/
theorem evict_line {s t : CacheState} {i : Fin BUFFER_CACHE_SIZE} (hi : cache_inv s)
    (hu : (s.cache i).used = true) (hrest : ∀ j, j ≠ i → t.cache j = s.cache j)
    (hti : (t.cache i).used = false)
    (hdev : t.fs_device =
      Function.update s.fs_device (s.cache i).disk_sector (s.cache i).buffer) :
    cache_inv t ∧ (∀ sector, view t sector = view s sector) ∧
    (∀ j, (t.cache j).used = true →
      (s.cache j).used = true ∧ (t.cache j).disk_sector = (s.cache j).disk_sector) := by
  have hne : ∀ j, (t.cache j).used = true → j ≠ i := by
    intro j hj h
    rw [h, hti] at hj
    exact Bool.false_ne_true hj
  have hsame : ∀ j, (t.cache j).used = true → t.cache j = s.cache j :=
    fun j hj => hrest j (hne j hj)
  have hdist : distinct_sectors t := by
    intro j k hj hk hs
    have ej := hsame j hj
    have ek := hsame k hk
    rw [ej] at hj hs
    rw [ek] at hk hs
    exact hi.1 j k hj hk hs
  refine ⟨⟨hdist, ?_⟩, ?_, ?_⟩
  · intro j hj hdirty
    have hji := hne j hj
    have ej := hsame j hj
    rw [ej] at hj hdirty ⊢
    rw [hdev, Function.update_noteq]
    · exact hi.2 j hj hdirty
    · intro hs
      exact hji (hi.1 j i hj hu hs)
  · intro sector
    by_cases hex : ∃ j, (t.cache j).used = true ∧ (t.cache j).disk_sector = sector
    · obtain ⟨j, hj, hs⟩ := hex
      rw [view_of_line hdist hj hs]
      have ej := hsame j hj
      rw [ej] at hj hs ⊢
      rw [view_of_line hi.1 hj hs]
    · have hmiss : ∀ j, (t.cache j).used = true → (t.cache j).disk_sector ≠ sector :=
        fun j hj hs => hex ⟨j, hj, hs⟩
      rw [view_of_miss hmiss, hdev]
      by_cases hs : (s.cache i).disk_sector = sector
      · rw [view_of_line hi.1 hu hs, ← hs, Function.update_same]
      · rw [Function.update_noteq (Ne.symm hs), view_of_miss]
        intro j hj hjs
        by_cases hji : j = i
        · exact hs (hji ▸ hjs)
        · have hrj := hrest j hji
          exact hmiss j (by rw [hrj]; exact hj) (by rw [hrj]; exact hjs)
  · intro j hj
    have := hsame j hj
    rw [this] at hj
    exact ⟨hj, by rw [this]⟩

/-- The function `buffer_cache_get_slot` returns, and what it returns is an unused line of a
state that looks the same through the cache. -/
theorem get_slot_spec {s : CacheState} (hi : cache_inv s) :
    ∃ t i, buffer_cache_get_slot s = some (t, i) ∧ (t.cache i).used = false ∧ cache_inv t ∧
      (∀ sector, view t sector = view s sector) ∧
      (∀ j, (t.cache j).used = true →
        (s.cache j).used = true ∧ (t.cache j).disk_sector = (s.cache j).disk_sector) := by
  obtain ⟨hsd, hfree, hvict⟩ := get_slot_loop_spec s
  have hir := same_data_inv hsd hi
  simp only [buffer_cache_get_slot]
  cases h2 : (get_slot_loop s).2 with
  | true =>
    refine ⟨(get_slot_loop s).1, (get_slot_loop s).1.clock, by simp, hfree h2, hir,
      same_data_view hsd, fun j hj => ?_⟩
    rw [(hsd.2 j).1] at hj
    exact ⟨hj, (hsd.2 j).2.1⟩
  | false =>
    obtain ⟨hu, -⟩ := hvict h2
    simp only [Bool.false_eq_true, if_false]
    generalize hr : (get_slot_loop s).1 = r at hsd hir hu
    have key : ∀ t : CacheState, (∀ j, j ≠ r.clock → t.cache j = r.cache j) →
        (t.cache r.clock).used = false →
        t.fs_device = Function.update r.fs_device (r.cache r.clock).disk_sector
          (r.cache r.clock).buffer →
        (t.cache r.clock).used = false ∧ cache_inv t ∧
        (∀ sector, view t sector = view s sector) ∧
        (∀ j, (t.cache j).used = true →
          (s.cache j).used = true ∧ (t.cache j).disk_sector = (s.cache j).disk_sector) := by
      intro t h1 h2 h3
      obtain ⟨a, b, c⟩ := evict_line hir hu h1 h2 h3
      refine ⟨h2, a, fun sector => (b sector).trans (same_data_view hsd sector), fun j hj => ?_⟩
      obtain ⟨c1, c2⟩ := c j hj
      rw [(hsd.2 j).1] at c1
      exact ⟨c1, c2.trans (hsd.2 j).2.1⟩
    by_cases hd : (r.cache r.clock).dirty = true
    · refine ⟨set_used (set_dirty (block_write r (r.cache r.clock).disk_sector
        (r.cache r.clock).buffer) r.clock false) r.clock false, r.clock,
        by simp [hd, write_buffer_cache_to_disk, hu], ?_⟩
      apply key
      · intro j hj
        simp [set_used, set_dirty, block_write, Function.update_noteq hj]
      · simp [set_used]
      · simp [set_used, set_dirty, block_write]
    · refine ⟨set_used r r.clock false, r.clock, by simp [hd], ?_⟩
      apply key
      · intro j hj
        simp [set_used, Function.update_noteq hj]
      · simp [set_used]
      · have := hir.2 r.clock hu (by simpa using hd)
        simp only [set_used]
        rw [this, Function.update_eq_self]

/-- Filling an unused line with a sector that has no line yet. -/
theorem fill_slot_spec {s : CacheState} {i : Fin BUFFER_CACHE_SIZE} {sector : Nat}
    (hi : cache_inv s) (hu : (s.cache i).used = false)
    (hmiss : ∀ j, (s.cache j).used = true → (s.cache j).disk_sector ≠ sector) :
    ∃ t, fill_slot s i sector = some t ∧ cache_inv t ∧
      (∀ x, view t x = view s x) ∧
      (t.cache i).used = true ∧ (t.cache i).disk_sector = sector := by
  refine ⟨block_read (set_dirty (set_disk_sector (set_used s i true) i sector) i false)
    sector i, by simp [fill_slot, hu], ?_⟩
  generalize ht : block_read (set_dirty (set_disk_sector (set_used s i true) i sector) i false)
    sector i = t
  have hdev : t.fs_device = s.fs_device := by
    subst ht; simp [block_read, set_buffer, set_dirty, set_disk_sector, set_used]
  have hline : t.cache i = ⟨true, sector, s.fs_device sector, false, (s.cache i).access⟩ := by
    subst ht; simp [block_read, set_buffer, set_dirty, set_disk_sector, set_used]
  have hrest : ∀ j, j ≠ i → t.cache j = s.cache j := by
    intro j hj
    subst ht
    simp [block_read, set_buffer, set_dirty, set_disk_sector, set_used,
      Function.update_noteq hj]
  have hused : ∀ j, (t.cache j).used = true → j ≠ i → (s.cache j).used = true := by
    intro j hj hji
    rw [hrest j hji] at hj
    exact hj
  have hdist : distinct_sectors t := by
    intro j k hj hk hs
    by_cases hji : j = i <;> by_cases hki : k = i
    · rw [hji, hki]
    · exfalso
      subst hji
      rw [hline, hrest k hki] at hs
      exact hmiss k (hused k hk hki) hs.symm
    · exfalso
      subst hki
      rw [hline, hrest j hji] at hs
      exact hmiss j (hused j hj hji) hs
    · have hj2 := hused j hj hji
      have hk2 := hused k hk hki
      rw [hrest j hji, hrest k hki] at hs
      exact hi.1 j k hj2 hk2 hs
  refine ⟨⟨hdist, ?_⟩, ?_, by rw [hline], by rw [hline]⟩
  · intro j hj hd
    by_cases hji : j = i
    · subst hji; rw [hline, hdev]
    · have hj2 := hused j hj hji
      rw [hrest j hji] at hd ⊢
      rw [hdev]
      exact hi.2 j hj2 hd
  · intro x
    by_cases hx : x = sector
    · subst hx
      rw [view_of_line hdist (i := i) (by rw [hline]) (by rw [hline]), view_of_miss hmiss, hline]
    · by_cases hex : ∃ j, (s.cache j).used = true ∧ (s.cache j).disk_sector = x
      · obtain ⟨j, hj, hs⟩ := hex
        have hji : j ≠ i := by
          intro h; rw [h, hu] at hj; exact Bool.false_ne_true hj
        rw [view_of_line hi.1 hj hs, ← hrest j hji]
        apply view_of_line hdist
        · rw [hrest j hji]; exact hj
        · rw [hrest j hji]; exact hs
      · have hm : ∀ j, (s.cache j).used = true → (s.cache j).disk_sector ≠ x :=
          fun j hj hs => hex ⟨j, hj, hs⟩
        rw [view_of_miss hm, ← hdev]
        apply view_of_miss
        intro j hj hs
        by_cases hji : j = i
        · subst hji
          rw [hline] at hs
          exact hx hs.symm
        · rw [hrest j hji] at hs
          exact hm j (hused j hj hji) hs

theorem lookup_congr {s t : CacheState}
    (h : ∀ i, (t.cache i).used = (s.cache i).used ∧
      (t.cache i).disk_sector = (s.cache i).disk_sector) (sector : Nat) :
    buffer_cache_lookup t sector = buffer_cache_lookup s sector := by
  unfold buffer_cache_lookup
  congr 1
  funext i
  rw [(h i).1, (h i).2]

theorem read_tail_spec (s : CacheState) (i : Fin BUFFER_CACHE_SIZE) :
    same_data s (read_tail s i).1 ∧ (read_tail s i).2 = (s.cache i).buffer := by
  constructor
  · exact same_data_set_access s i true s.clock
  · simp [read_tail, set_access]

/-- Overwriting the buffer of the line of `sector` and marking it dirty. -/
theorem write_tail_spec {s : CacheState} {i : Fin BUFFER_CACHE_SIZE} {sector : Nat}
    (source : Block) (hi : cache_inv s) (hu : (s.cache i).used = true)
    (hs : (s.cache i).disk_sector = sector) :
    cache_inv (write_tail s i source) ∧
    ∀ x, view (write_tail s i source) x = Function.update (view s) sector source x := by
  generalize ht : write_tail s i source = t
  have hdev : t.fs_device = s.fs_device := by
    subst ht; simp [write_tail, set_buffer, set_dirty, set_access]
  have hline : t.cache i = ⟨(s.cache i).used, (s.cache i).disk_sector, source, true, true⟩ := by
    subst ht; simp [write_tail, set_buffer, set_dirty, set_access]
  have hrest : ∀ j, j ≠ i → t.cache j = s.cache j := by
    intro j hj
    subst ht
    simp [write_tail, set_buffer, set_dirty, set_access, Function.update_noteq hj]
  have hkeys : ∀ j, (t.cache j).used = (s.cache j).used ∧
      (t.cache j).disk_sector = (s.cache j).disk_sector := by
    intro j
    by_cases hj : j = i
    · subst hj; rw [hline]; exact ⟨rfl, rfl⟩
    · rw [hrest j hj]; exact ⟨rfl, rfl⟩
  have hdist : distinct_sectors t := by
    intro j k hj hk hjk
    rw [(hkeys j).1] at hj
    rw [(hkeys k).1] at hk
    rw [(hkeys j).2, (hkeys k).2] at hjk
    exact hi.1 j k hj hk hjk
  refine ⟨⟨hdist, ?_⟩, ?_⟩
  · intro j hj hd
    by_cases hji : j = i
    · subst hji
      rw [hline] at hd
      exact absurd hd (by simp)
    · rw [hrest j hji] at hj hd ⊢
      rw [hdev]
      exact hi.2 j hj hd
  · intro x
    by_cases hx : x = sector
    · subst hx
      rw [Function.update_same,
        view_of_line hdist (i := i) (by rw [(hkeys i).1]; exact hu) (by rw [(hkeys i).2]; exact hs),
        hline]
    · rw [Function.update_noteq hx]
      unfold view
      rw [lookup_congr hkeys, hdev]
      cases hl : buffer_cache_lookup s x with
      | none => rfl
      | some j =>
        have hji : j ≠ i := by
          intro h
          subst h
          exact hx ((lookup_some hl).2.symm.trans hs)
        simp only [hrest j hji]

/-- One line of `buffer_cache_close`. -/
theorem close_line {s : CacheState} (i : Fin BUFFER_CACHE_SIZE) (hi : cache_inv s) :
    ∃ t, (if (s.cache i).used = false then some s else write_buffer_cache_to_disk s i) = some t ∧
      cache_inv t ∧ (∀ x, view t x = view s x) ∧
      (∀ j, (t.cache j).used = (s.cache j).used) ∧
      (∀ j, (s.cache j).used = true → (j = i ∨ (s.cache j).dirty = false) →
        (t.cache j).dirty = false) := by
  by_cases hu : (s.cache i).used = false
  · refine ⟨s, by simp [hu], hi, fun _ => rfl, fun _ => rfl, fun j hj h => ?_⟩
    rcases h with h | h
    · subst h; rw [hu] at hj; exact absurd hj (by simp)
    · exact h
  have hu1 : (s.cache i).used = true := by simpa using hu
  by_cases hd : (s.cache i).dirty = true
  · refine ⟨set_dirty (block_write s (s.cache i).disk_sector (s.cache i).buffer) i false,
      by simp [hu1, hd, write_buffer_cache_to_disk], ?_⟩
    generalize ht : set_dirty (block_write s (s.cache i).disk_sector (s.cache i).buffer) i false
      = t
    have hdev : t.fs_device =
        Function.update s.fs_device (s.cache i).disk_sector (s.cache i).buffer := by
      subst ht; simp [set_dirty, block_write]
    have hline : t.cache i = { s.cache i with dirty := false } := by
      subst ht; simp [set_dirty, block_write]
    have hrest : ∀ j, j ≠ i → t.cache j = s.cache j := by
      intro j hj
      subst ht
      simp [set_dirty, block_write, Function.update_noteq hj]
    have hkeys : ∀ j, (t.cache j).used = (s.cache j).used ∧
        (t.cache j).disk_sector = (s.cache j).disk_sector ∧
        (t.cache j).buffer = (s.cache j).buffer := by
      intro j
      by_cases hj : j = i
      · subst hj; rw [hline]; exact ⟨rfl, rfl, rfl⟩
      · rw [hrest j hj]; exact ⟨rfl, rfl, rfl⟩
    have hdist : distinct_sectors t := by
      intro j k hj hk hjk
      rw [(hkeys j).1] at hj
      rw [(hkeys k).1] at hk
      rw [(hkeys j).2.1, (hkeys k).2.1] at hjk
      exact hi.1 j k hj hk hjk
    refine ⟨⟨hdist, ?_⟩, ?_, fun j => (hkeys j).1, ?_⟩
    · intro j hj hdj
      rw [(hkeys j).1] at hj
      rw [(hkeys j).2.2, (hkeys j).2.1, hdev]
      by_cases hji : j = i
      · subst hji; rw [Function.update_same]
      · rw [hrest j hji] at hdj
        rw [Function.update_noteq]
        · exact hi.2 j hj hdj
        · intro h
          exact hji (hi.1 j i hj hu1 h)
    · intro x
      unfold view
      rw [lookup_congr (fun j => ⟨(hkeys j).1, (hkeys j).2.1⟩), hdev]
      cases hl : buffer_cache_lookup s x with
      | none =>
        simp only
        rw [Function.update_noteq]
        exact (lookup_none hl i hu1).symm
      | some j => exact (hkeys j).2.2
    · intro j _ h
      by_cases hji : j = i
      · subst hji; rw [hline]
      · rw [hrest j hji]
        rcases h with h | h
        · exact absurd h hji
        · exact h
  · refine ⟨s, by simp [hu1, hd, write_buffer_cache_to_disk], hi, fun _ => rfl, fun _ => rfl,
      fun j _ h => ?_⟩
    rcases h with h | h
    · subst h; simpa using hd
    · exact h

/-- The loop of `buffer_cache_close`, over any list of lines. -/
theorem close_fold (l : List (Fin BUFFER_CACHE_SIZE)) :
    ∀ s : CacheState, cache_inv s →
    ∃ t, l.foldl (fun acc i => acc.bind fun st =>
        if (st.cache i).used = false then some st else write_buffer_cache_to_disk st i)
        (some s) = some t ∧
      cache_inv t ∧ (∀ x, view t x = view s x) ∧
      (∀ j, (t.cache j).used = (s.cache j).used) ∧
      (∀ j, (s.cache j).used = true → (j ∈ l ∨ (s.cache j).dirty = false) →
        (t.cache j).dirty = false) := by
  induction l with
  | nil =>
    intro s hi
    exact ⟨s, rfl, hi, fun _ => rfl, fun _ => rfl, fun j _ h => by simpa using h⟩
  | cons i l ih =>
    intro s hi
    obtain ⟨u, hu, hiu, hvu, huu, hdu⟩ := close_line i hi
    obtain ⟨t, ht, hit, hvt, hut, hdt⟩ := ih u hiu
    refine ⟨t, ?_, hit, fun x => (hvt x).trans (hvu x), fun j => (hut j).trans (huu j), ?_⟩
    · rw [List.foldl_cons, Option.some_bind, hu]
      exact ht
    · intro j hj h
      apply hdt j (by rw [huu j]; exact hj)
      rcases h with h | h
      · rcases List.mem_cons.mp h with h | h
        · exact Or.inr (hdu j hj (Or.inl h))
        · exact Or.inl h
      · exact Or.inr (hdu j hj (Or.inr h))

/-- The function `buffer_cache_close` returns; afterwards no used line is dirty and nothing
has changed as seen through the cache. -/
theorem close_spec {s : CacheState} (hi : cache_inv s) :
    ∃ t, buffer_cache_close s = some t ∧ cache_inv t ∧ (∀ x, view t x = view s x) ∧
      (∀ j, (t.cache j).used = true → (t.cache j).dirty = false) := by
  obtain ⟨t, ht, hit, hvt, hut, hdt⟩ := close_fold (List.finRange BUFFER_CACHE_SIZE) s hi
  refine ⟨t, ht, hit, hvt, fun j hj => ?_⟩
  exact hdt j (by rw [← hut j]; exact hj) (Or.inl (List.mem_finRange j))

/-- The loop of `buffer_cache_init`, over any list of lines. -/
theorem init_fold (l : List (Fin BUFFER_CACHE_SIZE)) :
    ∀ s : CacheState,
      (l.foldl (fun st i => set_used st i false) s).fs_device = s.fs_device ∧
      ∀ i, (i ∈ l ∨ (s.cache i).used = false) →
        ((l.foldl (fun st i => set_used st i false) s).cache i).used = false := by
  induction l with
  | nil => intro s; exact ⟨rfl, fun i h => by simpa using h⟩
  | cons k l ih =>
    intro s
    obtain ⟨h1, h2⟩ := ih (set_used s k false)
    refine ⟨h1, fun i h => ?_⟩
    apply h2
    by_cases hik : i = k
    · subst hik; right; simp [set_used]
    · rcases h with h | h
      · rcases List.mem_cons.mp h with h | h
        · exact absurd h hik
        · exact Or.inl h
      · right; simp [set_used, Function.update_noteq hik, h]

theorem init_spec (s : CacheState) :
    (buffer_cache_init s).fs_device = s.fs_device ∧
    ∀ i, ((buffer_cache_init s).cache i).used = false := by
  obtain ⟨h1, h2⟩ := init_fold (List.finRange BUFFER_CACHE_SIZE) s
  exact ⟨h1, fun i => h2 i (Or.inl (List.mem_finRange i))⟩

theorem init_agrees (s : CacheState) : agrees (buffer_cache_init s) s.fs_device := by
  obtain ⟨h1, h2⟩ := init_spec s
  have hnone : ∀ i, ¬ ((buffer_cache_init s).cache i).used = true := by
    intro i; rw [h2 i]; simp
  refine ⟨⟨fun i _ hu => absurd hu (hnone i), fun i hu => absurd hu (hnone i)⟩, fun x => ?_⟩
  rw [view_of_miss (fun i hu => absurd hu (hnone i)), h1]

/-- On a miss, a slot is handed out and filled: the line of `sector` exists
afterwards and nothing has changed as seen through the cache. -/
theorem miss_spec {s : CacheState} {sector : Nat} (hi : cache_inv s)
    (hl : buffer_cache_lookup s sector = none) :
    ∃ u i t, buffer_cache_get_slot s = some (u, i) ∧ fill_slot u i sector = some t ∧
      cache_inv t ∧ (∀ x, view t x = view s x) ∧
      (t.cache i).used = true ∧ (t.cache i).disk_sector = sector := by
  obtain ⟨u, i, hg, hui, hiu, hvu, hsub⟩ := get_slot_spec hi
  have hmiss : ∀ j, (u.cache j).used = true → (u.cache j).disk_sector ≠ sector := by
    intro j hj
    obtain ⟨a, b⟩ := hsub j hj
    rw [b]
    exact lookup_none hl j a
  obtain ⟨t, hf, hit, hvt, h1, h2⟩ := fill_slot_spec hiu hui hmiss
  exact ⟨u, i, t, hg, hf, hit, fun x => (hvt x).trans (hvu x), h1, h2⟩

theorem read_spec {s : CacheState} {d : Nat → Block} (h : agrees s d) (sector : Nat) :
    ∃ t, buffer_cache_read s sector = some (t, d sector) ∧ agrees t d := by
  obtain ⟨hi, hv⟩ := h
  unfold buffer_cache_read
  cases hl : buffer_cache_lookup s sector with
  | some i =>
    obtain ⟨hsd, hout⟩ := read_tail_spec s i
    refine ⟨(read_tail s i).1, ?_, same_data_inv hsd hi,
      fun x => (same_data_view hsd x).trans (hv x)⟩
    have : d sector = (s.cache i).buffer := by
      rw [← hv sector]; simp [view, hl]
    simp only [this, ← hout]
  | none =>
    obtain ⟨u, i, t, hg, hf, hit, hvt, h1, h2⟩ := miss_spec hi hl
    obtain ⟨hsd, hout⟩ := read_tail_spec t i
    refine ⟨(read_tail t i).1, ?_, same_data_inv hsd hit,
      fun x => ((same_data_view hsd x).trans (hvt x)).trans (hv x)⟩
    have : d sector = (t.cache i).buffer := by
      rw [← hv sector, ← hvt sector, view_of_line hit.1 h1 h2]
    simp only [hg, Option.some_bind, hf, Option.map_some', this, ← hout]

theorem write_spec {s : CacheState} {d : Nat → Block} (h : agrees s d) (sector : Nat)
    (source : Block) :
    ∃ t, buffer_cache_write s sector source = some t ∧
      agrees t (Function.update d sector source) := by
  obtain ⟨hi, hv⟩ := h
  have hupd : ∀ (f : Nat → Block), (∀ x, f x = d x) →
      ∀ x, Function.update f sector source x = Function.update d sector source x := by
    intro f hf x
    by_cases hx : x = sector
    · subst hx; simp
    · simp [Function.update_noteq hx, hf x]
  unfold buffer_cache_write
  cases hl : buffer_cache_lookup s sector with
  | some i =>
    obtain ⟨a, b⟩ := write_tail_spec source hi (lookup_some hl).1 (lookup_some hl).2
    exact ⟨write_tail s i source, rfl, a, fun x => (b x).trans (hupd _ hv x)⟩
  | none =>
    obtain ⟨u, i, t, hg, hf, hit, hvt, h1, h2⟩ := miss_spec hi hl
    obtain ⟨a, b⟩ := write_tail_spec source hit h1 h2
    refine ⟨write_tail t i source, ?_, a,
      fun x => (b x).trans (hupd _ (fun y => (hvt y).trans (hv y)) x)⟩
    simp only [buffer_cache_evict, hg, Option.some_bind, hf, Option.map_some']

theorem step_spec {s : CacheState} {d : Nat → Block} (h : agrees s d) (c : Call) :
    ∃ t, step s c = some (t, (uncached_step d c).2) ∧ agrees t (uncached_step d c).1 := by
  cases c with
  | read sector =>
    obtain ⟨t, ht, hat⟩ := read_spec h sector
    exact ⟨t, by simp [step, ht, uncached_step], hat⟩
  | write sector source =>
    obtain ⟨t, ht, hat⟩ := write_spec h sector source
    exact ⟨t, by simp [step, ht, uncached_step], hat⟩
  | close =>
    obtain ⟨t, ht, hit, hvt, -⟩ := close_spec h.1
    exact ⟨t, by simp [step, ht, uncached_step], hit, fun x => (hvt x).trans (h.2 x)⟩

theorem run_spec (calls : List Call) :
    ∀ (s : CacheState) (d : Nat → Block), agrees s d →
      ∃ t, run s calls = some (t, (uncached_run d calls).2) ∧
        agrees t (uncached_run d calls).1 := by
  induction calls with
  | nil => intro s d h; exact ⟨s, rfl, h⟩
  | cons c cs ih =>
    intro s d h
    obtain ⟨u, hu, hau⟩ := step_spec h c
    obtain ⟨t, ht, hat⟩ := ih u _ hau
    exact ⟨t, by simp [run, hu, ht, uncached_run], hat⟩

/-- What the uncached disk holds after a sequence of calls: the data of the
most recent write to the sector, or what it held before. -/
theorem uncached_run_last_write (calls : List Call) :
    ∀ (d : Nat → Block) (x : Nat),
      (uncached_run d calls).1 x = (last_write x calls).getD (d x) := by
  induction calls with
  | nil => intro d x; rfl
  | cons c cs ih =>
    intro d x
    cases c with
    | read sector => simp [uncached_run, uncached_step, last_write, ih]
    | close => simp [uncached_run, uncached_step, last_write, ih]
    | write sector source =>
      simp only [uncached_run, uncached_step, last_write, ih]
      cases hl : last_write x cs with
      | some b => simp
      | none =>
        by_cases hx : sector = x
        · subst hx; simp
        · simp [hx, Function.update_noteq (Ne.symm hx)]

/-- What the uncached disk delivers at the call that follows the calls `pre`. -/
theorem uncached_run_output (pre : List Call) :
    ∀ (d : Nat → Block) (c : Call) (post : List Call),
      (uncached_run d (pre ++ c :: post)).2[pre.length]? =
        some (uncached_step (uncached_run d pre).1 c).2 := by
  induction pre with
  | nil => intro d c post; simp [uncached_run]
  | cons p ps ih =>
    intro d c post
    simp [uncached_run, ih]

/-- Once no used line is dirty, the device holds what is seen through the
cache. -/
theorem device_eq_view {s : CacheState} (hi : cache_inv s)
    (hc : ∀ j, (s.cache j).used = true → (s.cache j).dirty = false) (x : Nat) :
    s.fs_device x = view s x := by
  unfold view
  cases hl : buffer_cache_lookup s x with
  | none => rfl
  | some i =>
    obtain ⟨hu, hs⟩ := lookup_some hl
    have := hi.2 i hu (hc i hu)
    rw [hs] at this
    exact this.symm

/-- A write of a sector that has no line, when the clock hand is on an unused
line: the line under the hand is filled and overwritten, nothing is evicted. -/
theorem write_fresh {s : CacheState} {sector : Nat} (source : Block)
    (hl : buffer_cache_lookup s sector = none) (hu : (s.cache s.clock).used = false) :
    buffer_cache_write s sector source =
      some (write_tail (block_read (set_dirty (set_disk_sector (set_used s s.clock true)
        s.clock sector) s.clock false) sector s.clock) s.clock source) := by
  have hloop : get_slot_loop s = (s, true) := by
    rw [get_slot_loop]; simp [hu]
  simp [buffer_cache_write, hl, buffer_cache_evict, buffer_cache_get_slot, hloop, fill_slot, hu]

/-- C1: starting from `buffer_cache_init` over any boot state, every sequence of
calls runs to completion and delivers what the uncached disk delivers; a
`buffer_cache_read` of `sector` that follows the calls `pre` delivers the data of
the most recent `buffer_cache_write` to `sector` in `pre`, or what the device
held for `sector` at boot if there is none. -/
theorem read_delivers_latest_write (s0 : CacheState) (pre : List Call) (sector : Nat)
    (post : List Call) :
    ∃ t outs, run (buffer_cache_init s0) (pre ++ Call.read sector :: post) = some (t, outs) ∧
      outs = (uncached_run s0.fs_device (pre ++ Call.read sector :: post)).2 ∧
      outs[pre.length]? =
        some (some ((last_write sector pre).getD (s0.fs_device sector))) := by
  obtain ⟨t, ht, -⟩ := run_spec (pre ++ Call.read sector :: post) _ _ (init_agrees s0)
  refine ⟨t, _, ht, rfl, ?_⟩
  rw [uncached_run_output, ← uncached_run_last_write]
  rfl

/-- C2: after any sequence of calls and then `buffer_cache_close`, which all
return, the device holds for every sector the data of the most recent
`buffer_cache_write` to it (what it held at boot for a sector never written), and
no used line is dirty. -/
theorem close_flushes_every_write (s0 : CacheState) (calls : List Call) :
    ∃ t outs u, run (buffer_cache_init s0) calls = some (t, outs) ∧
      buffer_cache_close t = some u ∧
      (∀ sector, u.fs_device sector = (last_write sector calls).getD (s0.fs_device sector)) ∧
      (∀ i, (u.cache i).used = false ∨ (u.cache i).dirty = false) := by
  obtain ⟨t, ht, hat⟩ := run_spec calls _ _ (init_agrees s0)
  obtain ⟨u, hu, hiu, hvu, hcu⟩ := close_spec hat.1
  refine ⟨t, _, u, ht, hu, fun x => ?_, fun i => ?_⟩
  · rw [device_eq_view hiu hcu, hvu, hat.2, uncached_run_last_write]
  · cases h : (u.cache i).used with
    | false => exact Or.inl rfl
    | true => exact Or.inr (hcu i h)

/-- C3: every sequence of `buffer_cache_read`, `buffer_cache_write` and
`buffer_cache_close` calls after `buffer_cache_init` runs to completion, and in
the state it reaches no two used lines have the same `disk_sector`. -/
theorem used_lines_have_distinct_sectors (s0 : CacheState) (calls : List Call) :
    ∃ t outs, run (buffer_cache_init s0) calls = some (t, outs) ∧ distinct_sectors t := by
  obtain ⟨t, ht, hat⟩ := run_spec calls _ _ (init_agrees s0)
  exact ⟨t, _, ht, hat.1.1⟩

/-- C4, as stated, fails: after `buffer_cache_init` on a device of zero bytes and
a `buffer_cache_write` of zero bytes to sector 0, the line of sector 0 is dirty
and its buffer equals the device, so the exclusive or does not hold. -/
theorem line_xor_fails_after_same_data_write :
    ∃ t, run (buffer_cache_init (boot (fun _ _ => 0))) [Call.write 0 (fun _ => 0)]
        = some (t, [none]) ∧ ¬ line_xor t := by
  obtain ⟨hdev, hused⟩ := init_spec (boot (fun _ _ => 0))
  have hl : buffer_cache_lookup (buffer_cache_init (boot (fun _ _ => 0))) 0 = none :=
    lookup_of_miss (fun i hu => by rw [hused i] at hu; exact absurd hu (by simp))
  have hw := write_fresh (fun _ => 0) hl (hused _)
  generalize buffer_cache_init (boot (fun _ _ => 0)) = s1 at hdev hused hl hw ⊢
  refine ⟨write_tail (block_read (set_dirty (set_disk_sector (set_used s1 s1.clock true)
    s1.clock 0) s1.clock false) 0 s1.clock) s1.clock (fun _ => 0),
    by simp [run, step, hw], fun hx => ?_⟩
  have h := hx s1.clock
  simp [write_tail, block_read, set_buffer, set_dirty, set_disk_sector, set_used,
    set_access, hdev, boot, Xor'] at h

/-- C4, amended: in every state reached from `buffer_cache_init` by
`buffer_cache_read`, `buffer_cache_write` and `buffer_cache_close` calls, which
all return, every line is unused, or its buffer equals what the device holds for
its `disk_sector`, or it is dirty (inclusive or). -/
theorem used_line_equals_device_or_dirty (s0 : CacheState) (calls : List Call) :
    ∃ t outs, run (buffer_cache_init s0) calls = some (t, outs) ∧ line_or t := by
  obtain ⟨t, ht, hat⟩ := run_spec calls _ _ (init_agrees s0)
  refine ⟨t, _, ht, fun i => ?_⟩
  cases hu : (t.cache i).used with
  | false => exact Or.inl rfl
  | true =>
    right
    cases hd : (t.cache i).dirty with
    | false => exact Or.inl (hat.1.2 i hu hd)
    | true => exact Or.inr rfl

theorem accessed_lines_le (s : CacheState) : accessed_lines s ≤ BUFFER_CACHE_SIZE := by
  unfold accessed_lines
  exact (Finset.card_filter_le _ _).trans (by simp)

/-- Clearing the reference bit of a used and referenced line at the hand lowers
the number of used and referenced lines. -/
theorem accessed_lines_decreases (s : CacheState) (c : Fin BUFFER_CACHE_SIZE)
    (hu : ¬ (s.cache s.clock).used = false) (ha : (s.cache s.clock).access = true) :
    accessed_lines { set_access s s.clock false with clock := c } < accessed_lines s := by
  unfold accessed_lines
  apply Finset.card_lt_card
  rw [Finset.ssubset_iff_of_subset]
  · refine ⟨s.clock, ?_, ?_⟩
    · simp only [Finset.mem_filter, Finset.mem_univ, true_and]
      exact ⟨by simpa using hu, ha⟩
    · simp [set_access]
  · intro i
    simp only [Finset.mem_filter, Finset.mem_univ, true_and, set_access]
    by_cases h : i = s.clock
    · subst h; simp
    · simp [Function.update_noteq h]

/-- One turn of the clock loop past a used and referenced line, for the scan
property: what holds of the rest of the scan from the next line holds of the
scan from this one, one line longer. -/
theorem scan_step (s u r : CacheState)
    (hc : u.clock.val = (s.clock.val + 1) % BUFFER_CACHE_SIZE)
    (hcache : ∀ i, u.cache i = if i = s.clock then { s.cache i with access := false }
      else s.cache i)
    (hd : u.fs_device = s.fs_device)
    (hu : (s.cache s.clock).used = true) (ha : (s.cache s.clock).access = true)
    (hdec : accessed_lines u < accessed_lines s)
    (ih : (∃ j, j ≤ accessed_lines u ∧
      r.clock.val = (u.clock.val + j) % BUFFER_CACHE_SIZE ∧
      (∀ j2 < j, ∀ i : Fin BUFFER_CACHE_SIZE, i.val = (u.clock.val + j2) % BUFFER_CACHE_SIZE →
        ((u.cache i).used = true ∧ (u.cache i).access = true) ∧
        r.cache i = { u.cache i with access := false }) ∧
      (∀ i : Fin BUFFER_CACHE_SIZE,
        (∀ j2 < j, i.val ≠ (u.clock.val + j2) % BUFFER_CACHE_SIZE) →
        r.cache i = u.cache i) ∧
      r.fs_device = u.fs_device)) :
    (∃ j, j ≤ accessed_lines s ∧
      r.clock.val = (s.clock.val + j) % BUFFER_CACHE_SIZE ∧
      (∀ j2 < j, ∀ i : Fin BUFFER_CACHE_SIZE, i.val = (s.clock.val + j2) % BUFFER_CACHE_SIZE →
        ((s.cache i).used = true ∧ (s.cache i).access = true) ∧
        r.cache i = { s.cache i with access := false }) ∧
      (∀ i : Fin BUFFER_CACHE_SIZE,
        (∀ j2 < j, i.val ≠ (s.clock.val + j2) % BUFFER_CACHE_SIZE) →
        r.cache i = s.cache i) ∧
      r.fs_device = s.fs_device) := by
  obtain ⟨j, hj, hclock, hskip, hrest, hdev⟩ := ih
  have hmod : ∀ j2, (u.clock.val + j2) % BUFFER_CACHE_SIZE
      = (s.clock.val + (j2 + 1)) % BUFFER_CACHE_SIZE := by
    intro j2
    rw [hc, Nat.mod_add_mod]
    congr 1
    omega
  refine ⟨j + 1, by omega, ?_, ?_, ?_, ?_⟩
  · rw [hclock]
    exact hmod j
  · intro j2 hj2 i hi
    cases j2 with
    | zero =>
      have hic : i = s.clock := by
        apply Fin.ext
        rw [hi, Nat.add_zero, Nat.mod_eq_of_lt s.clock.isLt]
      rw [hic]
      refine ⟨⟨hu, ha⟩, ?_⟩
      by_cases hex : ∃ j3 < j, s.clock.val = (u.clock.val + j3) % BUFFER_CACHE_SIZE
      · obtain ⟨j3, hj3, hi3⟩ := hex
        have := (hskip j3 hj3 s.clock hi3).2
        rw [this, hcache]
        simp
      · have := hrest s.clock (fun j3 hj3 h => hex ⟨j3, hj3, h⟩)
        rw [this, hcache]
        simp
    | succ j3 =>
      have hj3 : j3 < j := by omega
      have hi3 : i.val = (u.clock.val + j3) % BUFFER_CACHE_SIZE := by
        rw [hmod]; exact hi
      obtain ⟨⟨h1, h2⟩, h3⟩ := hskip j3 hj3 i hi3
      rw [hcache] at h1 h2 h3
      by_cases hic : i = s.clock
      · rw [if_pos hic] at h2
        exact absurd h2 (by simp)
      · rw [if_neg hic] at h1 h2 h3
        exact ⟨⟨h1, h2⟩, h3⟩
  · intro i hi
    have hic : i ≠ s.clock := by
      intro h
      apply hi 0 (by omega)
      rw [h, Nat.add_zero, Nat.mod_eq_of_lt s.clock.isLt]
    have := hrest i (fun j3 hj3 h => hi (j3 + 1) (by omega) (by rw [← hmod]; exact h))
    rw [this, hcache, if_neg hic]
  · rw [hdev, hd]

/-- The scan of the clock loop: it leaves the hand `j` lines further, having
passed `j` used and referenced lines, whose reference bits are now clear, and
touched nothing else. -/
theorem get_slot_loop_scan (s : CacheState) :
    ∃ j, j ≤ accessed_lines s ∧
      (get_slot_loop s).1.clock.val = (s.clock.val + j) % BUFFER_CACHE_SIZE ∧
      (∀ j2 < j, ∀ i : Fin BUFFER_CACHE_SIZE, i.val = (s.clock.val + j2) % BUFFER_CACHE_SIZE →
        ((s.cache i).used = true ∧ (s.cache i).access = true) ∧
        (get_slot_loop s).1.cache i = { s.cache i with access := false }) ∧
      (∀ i : Fin BUFFER_CACHE_SIZE,
        (∀ j2 < j, i.val ≠ (s.clock.val + j2) % BUFFER_CACHE_SIZE) →
        (get_slot_loop s).1.cache i = s.cache i) ∧
      (get_slot_loop s).1.fs_device = s.fs_device := by
  induction s using get_slot_loop.induct with
  | case1 s hu =>
    rw [get_slot_loop]
    rw [dif_pos hu]
    exact ⟨0, Nat.zero_le _, by simp [Nat.mod_eq_of_lt s.clock.isLt],
      fun j2 h => absurd h (Nat.not_lt_zero _), fun _ _ => rfl, rfl⟩
  | case2 s hu ha ih =>
    rw [get_slot_loop]
    rw [dif_neg hu, dif_pos ha]
    refine scan_step s _ _ ?_ ?_ ?_ ?_ ha ?_ ih
    · rfl
    · intro i
      simp only [set_access]
      by_cases h : i = s.clock
      · subst h; simp
      · simp [Function.update_noteq h, h]
    · rfl
    · simpa using hu
    · exact accessed_lines_decreases s _ hu ha
  | case3 s hu ha =>
    rw [get_slot_loop]
    rw [dif_neg hu, dif_neg ha]
    exact ⟨0, Nat.zero_le _, by simp [Nat.mod_eq_of_lt s.clock.isLt],
      fun j2 h => absurd h (Nat.not_lt_zero _), fun _ _ => rfl, rfl⟩
/-- C17: for every cache state, `buffer_cache_get_slot` returns: there is a number
`j ≤ 64` of lines passed such that the slot returned is `j` lines after the
hand, cyclically; the lines passed were used with `access` set, and are
unchanged but for `access`, now clear; unless the hand has made a full
revolution (`j = 64`), the slot returned was unused or had `access` clear; the
lines not passed, other than the slot, are unchanged; the slot returned has
`used = false`, so that the `ASSERT` of the callers holds; the device has been
written only if the slot was used and dirty, and then its buffer has been
written to its `disk_sector`. -/
theorem buffer_cache_get_slot_spec (s : CacheState) :
    ∃ (j : Nat) (t : CacheState) (slot : Fin BUFFER_CACHE_SIZE),
      buffer_cache_get_slot s = some (t, slot) ∧
      j ≤ BUFFER_CACHE_SIZE ∧ slot.val = (s.clock.val + j) % BUFFER_CACHE_SIZE ∧
      (∀ j2 < j, ∀ i : Fin BUFFER_CACHE_SIZE, i.val = (s.clock.val + j2) % BUFFER_CACHE_SIZE →
        ((s.cache i).used = true ∧ (s.cache i).access = true) ∧
        (i ≠ slot → t.cache i = { s.cache i with access := false })) ∧
      (j < BUFFER_CACHE_SIZE → (s.cache slot).used = false ∨ (s.cache slot).access = false) ∧
      (∀ i : Fin BUFFER_CACHE_SIZE, i ≠ slot →
        (∀ j2 < j, i.val ≠ (s.clock.val + j2) % BUFFER_CACHE_SIZE) → t.cache i = s.cache i) ∧
      (t.cache slot).used = false ∧
      (∀ sector, (fill_slot t slot sector).isSome = true) ∧
      ((s.cache slot).used = true ∧ (s.cache slot).dirty = true →
        t.fs_device = Function.update s.fs_device (s.cache slot).disk_sector
          (s.cache slot).buffer) ∧
      (¬ ((s.cache slot).used = true ∧ (s.cache slot).dirty = true) →
        t.fs_device = s.fs_device) := by
  obtain ⟨j, hj, hclock, hskip, hrest, hdev⟩ := get_slot_loop_scan s
  obtain ⟨-, hfree, hvict⟩ := get_slot_loop_spec s
  have hj64 : j ≤ BUFFER_CACHE_SIZE := hj.trans (accessed_lines_le s)
  -- every line of the state at the exit of the loop is the old one, up to `access`
  have hline : ∀ i, (get_slot_loop s).1.cache i = s.cache i ∨
      (get_slot_loop s).1.cache i = { s.cache i with access := false } := by
    intro i
    by_cases hex : ∃ j2 < j, i.val = (s.clock.val + j2) % BUFFER_CACHE_SIZE
    · obtain ⟨j2, h2, hi⟩ := hex
      exact Or.inr (hskip j2 h2 i hi).2
    · exact Or.inl (hrest i (fun j2 h2 h => hex ⟨j2, h2, h⟩))
  have hfields : ∀ i, ((get_slot_loop s).1.cache i).used = (s.cache i).used ∧
      ((get_slot_loop s).1.cache i).dirty = (s.cache i).dirty ∧
      ((get_slot_loop s).1.cache i).disk_sector = (s.cache i).disk_sector ∧
      ((get_slot_loop s).1.cache i).buffer = (s.cache i).buffer := by
    intro i
    rcases hline i with h | h <;> rw [h] <;> exact ⟨rfl, rfl, rfl, rfl⟩
  -- the slot is not one of the lines passed, unless the revolution is full
  have hnot : j < BUFFER_CACHE_SIZE →
      ∀ j2 < j, (get_slot_loop s).1.clock.val ≠ (s.clock.val + j2) % BUFFER_CACHE_SIZE := by
    intro hlt j2 h2
    rw [hclock]
    simp only [BUFFER_CACHE_SIZE] at hlt ⊢
    omega
  have hexit : j < BUFFER_CACHE_SIZE →
      (s.cache (get_slot_loop s).1.clock).used = false ∨
      (s.cache (get_slot_loop s).1.clock).access = false := by
    intro hlt
    have hsame := hrest (get_slot_loop s).1.clock (hnot hlt)
    cases h2 : (get_slot_loop s).2 with
    | true => left; rw [← hsame]; exact hfree h2
    | false => right; rw [← hsame]; exact (hvict h2).2
  generalize hr : get_slot_loop s = r at hclock hskip hrest hdev hfree hvict hfields hexit
  have hgoal : ∃ t : CacheState, buffer_cache_get_slot s = some (t, r.1.clock) ∧
      (∀ i, i ≠ r.1.clock → t.cache i = r.1.cache i) ∧ (t.cache r.1.clock).used = false ∧
      ((s.cache r.1.clock).used = true ∧ (s.cache r.1.clock).dirty = true →
        t.fs_device = Function.update s.fs_device (s.cache r.1.clock).disk_sector
          (s.cache r.1.clock).buffer) ∧
      (¬ ((s.cache r.1.clock).used = true ∧ (s.cache r.1.clock).dirty = true) →
        t.fs_device = s.fs_device) := by
    cases h2 : r.2 with
    | true =>
      refine ⟨r.1, ?_, ?_, ?_, ?_⟩
      · simp [buffer_cache_get_slot, hr, h2]
      · intro _ _; rfl
      · exact hfree h2
      · have hu : (s.cache r.1.clock).used = false := by
          rw [← (hfields _).1]; exact hfree h2
        exact ⟨fun h => absurd h.1 (by simp [hu]), fun _ => hdev⟩
    | false =>
      obtain ⟨hu, -⟩ := hvict h2
      by_cases hd : (r.1.cache r.1.clock).dirty = true
      · refine ⟨set_used (set_dirty (block_write r.1 (r.1.cache r.1.clock).disk_sector
          (r.1.cache r.1.clock).buffer) r.1.clock false) r.1.clock false, ?_, ?_, ?_, ?_⟩
        · simp [buffer_cache_get_slot, hr, h2, hd, write_buffer_cache_to_disk, hu]
        · intro i hne
          simp [set_used, set_dirty, block_write, Function.update_noteq hne]
        · simp [set_used]
        · refine ⟨fun _ => ?_, fun h => absurd ⟨?_, ?_⟩ h⟩
          · simp only [set_used, set_dirty, block_write]
            rw [(hfields _).2.2.1, (hfields _).2.2.2, hdev]
          · rw [← (hfields _).1]; exact hu
          · rw [← (hfields _).2.1]; exact hd
      · refine ⟨set_used r.1 r.1.clock false, ?_, ?_, ?_, ?_⟩
        · simp [buffer_cache_get_slot, hr, h2, hd]
        · intro i hne
          simp [set_used, Function.update_noteq hne]
        · simp [set_used]
        · refine ⟨fun h => absurd ?_ hd, fun _ => hdev⟩
          rw [(hfields _).2.1]; exact h.2
  obtain ⟨t, h1, h2, h3, h4⟩ := hgoal
  refine ⟨j, t, r.1.clock, h1, hj64, hclock, ?_, hexit, ?_, h3, ?_, h4.1, h4.2⟩
  · intro j2 hj2 i hi
    exact ⟨(hskip j2 hj2 i hi).1, fun hne => by rw [h2 i hne]; exact (hskip j2 hj2 i hi).2⟩
  · intro i hne hi
    rw [h2 i hne]
    exact hrest i hi
  · intro sector
    simp [fill_slot, h3]

end Cache

/-! ## Theorems about `vm/swap.c` -/

namespace VM

theorem scan_and_flip_none {b : List Bool} :
    bitmap_scan_and_flip b = none ↔ ∀ x ∈ b, x = true := by
  unfold bitmap_scan_and_flip
  constructor
  · intro h
    split at h
    · exact absurd h (by simp)
    · rename_i hlt
      have hle : b.findIdx (fun x => x == false) ≤ b.length := List.findIdx_le_length _
      have heq : b.findIdx (fun x => x == false) = b.length := by omega
      rw [List.findIdx_eq_length] at heq
      intro x hx
      simpa using heq x hx
  · intro h
    have heq : b.findIdx (fun x => x == false) = b.length := by
      rw [List.findIdx_eq_length]
      intro x hx
      simp [h x hx]
    rw [if_neg (by omega)]

theorem scan_and_flip_some {b tbl : List Bool} {i : Nat}
    (h : bitmap_scan_and_flip b = some (tbl, i)) :
    i < b.length ∧ bitmap_test b i = false ∧ (∀ j, j < i → bitmap_test b j = true) ∧
      tbl = b.set i true := by
  unfold bitmap_scan_and_flip at h
  split at h
  · rename_i hlt
    simp only [Option.some.injEq, Prod.mk.injEq] at h
    obtain ⟨h1, h2⟩ := h
    subst h2
    refine ⟨hlt, ?_, ?_, h1.symm⟩
    · have := List.findIdx_getElem (w := hlt)
      simp only [bitmap_test, List.getD_eq_getElem?_getD, List.getElem?_eq_getElem hlt,
        Option.getD_some]
      simpa using this
    · intro j hj
      have hjl : j < b.length := Nat.lt_trans hj hlt
      have := List.not_of_lt_findIdx hj
      simp only [bitmap_test, List.getD_eq_getElem?_getD, List.getElem?_eq_getElem hjl,
        Option.getD_some]
      simpa using this
  · exact absurd h (by simp)

theorem slot_sector_eq (i k : Nat) (hk : k < SECTORS_PER_PAGE) :
    slot_sector i k = (i % 2 ^ 20) * SECTORS_PER_PAGE + k := by
  simp only [slot_sector, SECTORS_PER_PAGE, PGSIZE, DISK_SECTOR_SIZE, WORD] at hk ⊢
  omega

theorem slot_sector_inj {i j k m : Nat} (hi : i < 2 ^ 20) (hj : j < 2 ^ 20)
    (hk : k < SECTORS_PER_PAGE) (hm : m < SECTORS_PER_PAGE)
    (h : slot_sector i k = slot_sector j m) : i = j ∧ k = m := by
  rw [slot_sector_eq i k hk, slot_sector_eq j m hm] at h
  simp only [SECTORS_PER_PAGE, PGSIZE, DISK_SECTOR_SIZE] at hk hm h
  omega

theorem slot_sector_inj_sec {i k m : Nat} (hk : k < SECTORS_PER_PAGE)
    (hm : m < SECTORS_PER_PAGE) (h : slot_sector i k = slot_sector i m) : k = m := by
  rw [slot_sector_eq i k hk, slot_sector_eq i m hm] at h
  omega

/-- The `disk_write` loop of `swap_out` over any list of sector numbers: the
sectors of the slot that are in the list hold the page's bytes, every other
sector is as before. -/
theorem write_fold (i : Nat) (c : PageData) (l : List (Fin SECTORS_PER_PAGE)) :
    ∀ dk : Nat → Sector,
      (∀ k, k ∈ l →
        l.foldl (fun dk sec_no =>
          Function.update dk (slot_sector i sec_no.val) (page_sector c sec_no)) dk
          (slot_sector i k.val) = page_sector c k) ∧
      (∀ x, (∀ k, k ∈ l → slot_sector i k.val ≠ x) →
        l.foldl (fun dk sec_no =>
          Function.update dk (slot_sector i sec_no.val) (page_sector c sec_no)) dk x = dk x) := by
  induction l with
  | nil => intro dk; exact ⟨fun k hk => absurd hk (List.not_mem_nil k), fun _ _ => rfl⟩
  | cons a l ih =>
    intro dk
    obtain ⟨h1, h2⟩ := ih (Function.update dk (slot_sector i a.val) (page_sector c a))
    refine ⟨fun k hk => ?_, fun x hx => ?_⟩
    · rw [List.foldl_cons]
      by_cases hkl : k ∈ l
      · exact h1 k hkl
      · have hka : k = a := by
          rcases List.mem_cons.mp hk with h | h
          · exact h
          · exact absurd h hkl
        subst hka
        rw [h2 _ (fun m hm heq => ?_), Function.update_same]
        have := slot_sector_inj_sec m.isLt k.isLt heq
        exact hkl (Fin.ext this ▸ hm)
    · rw [List.foldl_cons, h2 x (fun k hk => hx k (List.mem_cons_of_mem _ hk)),
        Function.update_noteq (Ne.symm (hx a (List.mem_cons_self _ _)))]

/-- The `disk_read` loop of `swap_in` over any list of sector numbers. -/
theorem read_fold (i : Nat) (dk : Nat → Sector) (l : List (Fin SECTORS_PER_PAGE)) :
    ∀ (c : PageData) (off : Fin PGSIZE),
      l.foldl (fun fr sec_no => put_sector fr sec_no (dk (slot_sector i sec_no.val))) c off =
        if (∃ k, k ∈ l ∧ off.val / DISK_SECTOR_SIZE = k.val) then
          dk (slot_sector i (off.val / DISK_SECTOR_SIZE))
            ⟨off.val % DISK_SECTOR_SIZE, Nat.mod_lt _ (by decide)⟩
        else c off := by
  induction l with
  | nil => intro c off; simp
  | cons a l ih =>
    intro c off
    rw [List.foldl_cons, ih]
    by_cases hl : ∃ k, k ∈ l ∧ off.val / DISK_SECTOR_SIZE = k.val
    · have : ∃ k, k ∈ a :: l ∧ off.val / DISK_SECTOR_SIZE = k.val := by
        obtain ⟨k, hk, h⟩ := hl
        exact ⟨k, List.mem_cons_of_mem _ hk, h⟩
      rw [if_pos hl, if_pos this]
    · rw [if_neg hl]
      by_cases ha : off.val / DISK_SECTOR_SIZE = a.val
      · have : ∃ k, k ∈ a :: l ∧ off.val / DISK_SECTOR_SIZE = k.val :=
          ⟨a, List.mem_cons_self _ _, ha⟩
        rw [if_pos this]
        simp only [put_sector, ha, if_true]
      · have : ¬ ∃ k, k ∈ a :: l ∧ off.val / DISK_SECTOR_SIZE = k.val := by
          rintro ⟨k, hk, h⟩
          rcases List.mem_cons.mp hk with h2 | h2
          · exact ha (h2 ▸ h)
          · exact hl ⟨k, h2, h⟩
        rw [if_neg this]
        simp only [put_sector, ha, if_false]

theorem bitmap_test_lt {b : List Bool} {i : Nat} (h : bitmap_test b i = true) :
    i < b.length := by
  by_contra hn
  simp [bitmap_test, List.getElem?_eq_none (Nat.le_of_not_lt hn)] at h

theorem bitmap_test_set_ne (b : List Bool) {i j : Nat} (v : Bool) (h : j ≠ i) :
    bitmap_test (bitmap_set b j v) i = bitmap_test b i := by
  simp [bitmap_test, bitmap_set, List.getElem?_set_ne h]

theorem bitmap_test_set_self (b : List Bool) {i : Nat} (v : Bool) (h : i < b.length) :
    bitmap_test (bitmap_set b i v) i = v := by
  simp [bitmap_test, bitmap_set, List.getElem?_set_self h]

theorem bitmap_set_length (b : List Bool) (i : Nat) (v : Bool) :
    (bitmap_set b i v).length = b.length := by
  simp [bitmap_set]

/-- What `swap_out` does when it returns. -/
theorem swap_out_some {s t : SwapState} {c : PageData} {i : Nat}
    (h : swap_out s c = some (t, i)) :
    i < s.swap_table.length ∧ bitmap_test s.swap_table i = false ∧
    (∀ j, j < i → bitmap_test s.swap_table j = true) ∧
    t.swap_table = bitmap_set s.swap_table i true ∧
    (∀ k : Fin SECTORS_PER_PAGE, t.disk (slot_sector i k.val) = page_sector c k) ∧
    (∀ x, (∀ k : Fin SECTORS_PER_PAGE, slot_sector i k.val ≠ x) → t.disk x = s.disk x) := by
  unfold swap_out at h
  cases hb : bitmap_scan_and_flip s.swap_table with
  | none => rw [hb] at h; exact absurd h (by simp)
  | some r =>
    obtain ⟨tbl, idx⟩ := r
    rw [hb] at h
    simp only [Option.some.injEq, Prod.mk.injEq] at h
    obtain ⟨ht, hidx⟩ := h
    subst hidx
    obtain ⟨h1, h2, h3, h4⟩ := scan_and_flip_some hb
    obtain ⟨w1, w2⟩ := write_fold idx c (List.finRange SECTORS_PER_PAGE) s.disk
    subst ht
    exact ⟨h1, h2, h3, h4, fun k => w1 k (List.mem_finRange k),
      fun x hx => w2 x (fun k _ => hx k)⟩

/-- A call that does not name the slot `i` leaves the slot as it is. -/
theorem step_keeps_slot {i n : Nat} {c : PageData} {u v : SwapState} {call : SwapCall}
    (hn : n ≤ 2 ^ 20) (hu : holds_slot i c n u) (hcall : call.names i = false)
    (hstep : swap_step u call = some v) : holds_slot i c n v := by
  obtain ⟨hlen, hbit, hdisk⟩ := hu
  have hi : i < n := hlen ▸ bitmap_test_lt hbit
  cases call with
  | out c2 =>
    simp only [swap_step, Option.map_eq_some'] at hstep
    obtain ⟨⟨w, j⟩, hw, hwv⟩ := hstep
    simp only at hwv
    subst hwv
    obtain ⟨h1, h2, -, h4, -, h6⟩ := swap_out_some hw
    have hji : j ≠ i := by
      intro h; subst h; rw [hbit] at h2; exact absurd h2 (by simp)
    refine ⟨by rw [h4, bitmap_set_length, hlen], by rw [h4, bitmap_test_set_ne _ _ hji, hbit],
      fun k => ?_⟩
    rw [h6 _ (fun m heq => ?_), hdisk k]
    exact hji (slot_sector_inj (by omega) (by omega) m.isLt k.isLt heq).1
  | into j c2 =>
    have hji : j ≠ i := by simpa [SwapCall.names] using hcall
    simp only [swap_step, swap_in, Option.map_eq_some'] at hstep
    obtain ⟨⟨w, d⟩, hw, hwv⟩ := hstep
    simp only at hwv
    subst hwv
    split at hw
    · simp only [Option.some.injEq, Prod.mk.injEq] at hw
      obtain ⟨hw1, -⟩ := hw
      subst hw1
      exact ⟨by simp [bitmap_set_length, hlen], by simp [bitmap_test_set_ne _ _ hji, hbit],
        hdisk⟩
    · exact absurd hw (by simp)
  | destroy j =>
    have hji : j ≠ i := by simpa [SwapCall.names] using hcall
    simp only [swap_step, swap_destroy] at hstep
    split at hstep
    · simp only [Option.some.injEq] at hstep
      subst hstep
      exact ⟨by simp [bitmap_set_length, hlen], by simp [bitmap_test_set_ne _ _ hji, hbit],
        hdisk⟩
    · exact absurd hstep (by simp)

theorem run_keeps_slot {i n : Nat} {c : PageData} (hn : n ≤ 2 ^ 20) (calls : List SwapCall) :
    ∀ {u v : SwapState}, holds_slot i c n u → (∀ call ∈ calls, call.names i = false) →
      swap_run u calls = some v → holds_slot i c n v := by
  induction calls with
  | nil =>
    intro u v hu _ hrun
    simp only [swap_run, Option.some.injEq] at hrun
    exact hrun ▸ hu
  | cons call cs ih =>
    intro u v hu hcalls hrun
    simp only [swap_run, Option.bind_eq_some] at hrun
    obtain ⟨w, hw, hwv⟩ := hrun
    exact ih (step_keeps_slot hn hu (hcalls call (List.mem_cons_self _ _)) hw)
      (fun x hx => hcalls x (List.mem_cons_of_mem _ hx)) hwv

/-- No call changes the number of bits of the bitmap. -/
theorem step_length {u v : SwapState} {call : SwapCall} (hstep : swap_step u call = some v) :
    v.swap_table.length = u.swap_table.length := by
  cases call with
  | out c2 =>
    simp only [swap_step, Option.map_eq_some'] at hstep
    obtain ⟨⟨w, j⟩, hw, hwv⟩ := hstep
    simp only at hwv
    subst hwv
    rw [(swap_out_some hw).2.2.2.1, bitmap_set_length]
  | into j c2 =>
    simp only [swap_step, swap_in, Option.map_eq_some'] at hstep
    obtain ⟨⟨w, d⟩, hw, hwv⟩ := hstep
    simp only at hwv
    subst hwv
    split at hw
    · simp only [Option.some.injEq, Prod.mk.injEq] at hw
      rw [← hw.1]
      simp [bitmap_set_length]
    · exact absurd hw (by simp)
  | destroy j =>
    simp only [swap_step, swap_destroy] at hstep
    split at hstep
    · simp only [Option.some.injEq] at hstep
      rw [← hstep]
      simp [bitmap_set_length]
    · exact absurd hstep (by simp)

theorem run_length (calls : List SwapCall) :
    ∀ {u v : SwapState}, swap_run u calls = some v →
      v.swap_table.length = u.swap_table.length := by
  induction calls with
  | nil =>
    intro u v hrun
    simp only [swap_run, Option.some.injEq] at hrun
    rw [hrun]
  | cons call cs ih =>
    intro u v hrun
    simp only [swap_run, Option.bind_eq_some] at hrun
    obtain ⟨w, hw, hwv⟩ := hrun
    rw [ih hwv, step_length hw]

/-- The bitmap made by `swap_init` has at most `2 ^ 20` bits, so
`swap_idx * PGSIZE` does not overflow for any of its indices. -/
theorem swap_init_length (size : Nat) (disk : Nat → Sector) :
    (swap_init size disk).swap_table.length ≤ 2 ^ 20 := by
  simp only [swap_init, bitmap_create, List.length_replicate, DISK_SECTOR_SIZE, PGSIZE, WORD]
  omega

/-- A `swap_in` of a slot that holds the page `c` reads back `c`. -/
theorem swap_in_reads_slot {i n : Nat} {c : PageData} {u : SwapState}
    (hu : holds_slot i c n u) (old : PageData) :
    swap_in u i old = some ({ u with swap_table := bitmap_set u.swap_table i false }, c) := by
  obtain ⟨-, hbit, hdisk⟩ := hu
  simp only [swap_in, hbit, if_true, Option.some.injEq, Prod.mk.injEq, true_and]
  funext off
  rw [read_fold]
  have hoff : off.val / DISK_SECTOR_SIZE < SECTORS_PER_PAGE := by
    have := off.isLt
    simp only [SECTORS_PER_PAGE, PGSIZE, DISK_SECTOR_SIZE] at this ⊢
    omega
  rw [if_pos ⟨⟨off.val / DISK_SECTOR_SIZE, hoff⟩, List.mem_finRange _, rfl⟩]
  have := hdisk ⟨off.val / DISK_SECTOR_SIZE, hoff⟩
  simp only at this
  rw [this]
  simp only [page_sector]
  congr 1
  apply Fin.ext
  simp only [DISK_SECTOR_SIZE]
  omega

/-- C5: swap round trip.  In a swap area reached from `swap_init` by any calls,
if `swap_out` of a page holding `c` returns `i`, then after any further calls
that return and do not name slot `i`, `swap_in` for `swap_idx = i` returns and
fills the frame with exactly `c`, clears bit `i` and leaves every other bit as it
is; with no call in between the bitmap is back to what it was before the
`swap_out`. -/
theorem swap_round_trip (size : Nat) (disk : Nat → Sector) (before : List SwapCall)
    (s : SwapState) (c : PageData) (t : SwapState) (i : Nat) (calls : List SwapCall)
    (u : SwapState) (old : PageData)
    (hs : swap_run (swap_init size disk) before = some s)
    (hout : swap_out s c = some (t, i))
    (hcalls : ∀ call ∈ calls, call.names i = false)
    (hrun : swap_run t calls = some u) :
    ∃ v, swap_in u i old = some (v, c) ∧ bitmap_test v.swap_table i = false ∧
      (∀ j, j ≠ i → bitmap_test v.swap_table j = bitmap_test u.swap_table j) ∧
      (calls = [] → v.swap_table = s.swap_table) := by
  have hn : s.swap_table.length ≤ 2 ^ 20 := by
    rw [run_length before hs]; exact swap_init_length size disk
  obtain ⟨h1, h2, -, h4, h5, -⟩ := swap_out_some hout
  have ht : holds_slot i c s.swap_table.length t :=
    ⟨by rw [h4, bitmap_set_length], by rw [h4, bitmap_test_set_self _ _ h1], h5⟩
  have hu := run_keeps_slot hn calls ht hcalls hrun
  refine ⟨_, swap_in_reads_slot hu old, ?_, fun j hj => ?_, fun hnil => ?_⟩
  · exact bitmap_test_set_self _ _ (hu.1 ▸ h1)
  · exact bitmap_test_set_ne _ _ (Ne.symm hj)
  · subst hnil
    simp only [swap_run, Option.some.injEq] at hrun
    subst hrun
    simp only [h4, bitmap_set, List.set_set]
    apply List.ext_getElem?
    intro j
    by_cases hj : i = j
    · subst hj
      rw [List.getElem?_set_self h1]
      simp only [bitmap_test, List.getD_eq_getElem?_getD, List.getElem?_eq_getElem h1,
        Option.getD_some] at h2
      rw [List.getElem?_eq_getElem h1, h2]
    · rw [List.getElem?_set_ne hj]

/-- C5 at a swap disk of 16 sectors (two slots) holding zeros: a page of bytes
`0x55` is swapped out to slot 0, a second page is swapped out in between, and
the first page is read back. -/
theorem swap_round_trip_witness :
    ∃ t u v, swap_out (swap_init 16 (fun _ _ => 0)) (fun _ => 0x55) = some (t, 0) ∧
      swap_run t [SwapCall.out (fun _ => 0x66)] = some u ∧
      swap_in u 0 (fun _ => 0) = some (v, fun _ => 0x55) ∧
      bitmap_test v.swap_table 0 = false := by
  have hout : ∃ t, swap_out (swap_init 16 (fun _ _ => 0)) (fun _ => 0x55) = some (t, 0) :=
    ⟨_, rfl⟩
  obtain ⟨t, ht⟩ := hout
  have hrun : ∃ u, swap_run t [SwapCall.out (fun _ => 0x66)] = some u := by
    have hbit : bitmap_scan_and_flip t.swap_table = some ([true, true], 1) := by
      rw [(swap_out_some ht).2.2.2.1]; rfl
    simp [swap_run, swap_step, swap_out, hbit]
  obtain ⟨u, hu⟩ := hrun
  obtain ⟨v, hv, hbit, -⟩ :=
    swap_round_trip 16 (fun _ _ => 0) [] _ (fun _ => 0x55) t 0
      [SwapCall.out (fun _ => 0x66)] u (fun _ => 0) rfl ht
      (by simp [SwapCall.names]) hu
  exact ⟨t, u, v, ht, hu, hv, hbit⟩

/-- C6: `swap_out` either panics, and then every bit of the bitmap is set, or
returns the smallest index `i` whose bit was clear, with bit `i` set and every
other bit unchanged, the bytes of the page stored in the `PGSIZE /
DISK_SECTOR_SIZE` consecutive sectors that start at `swap_idx * PGSIZE /
DISK_SECTOR_SIZE` (which is `i * PGSIZE / DISK_SECTOR_SIZE` when `i * PGSIZE`
does not overflow, as for every index of a bitmap made by `swap_init`), and every
other sector unchanged. -/
theorem swap_out_first_free_slot (s : SwapState) (c : PageData) :
    (swap_out s c = none ∧ ∀ x ∈ s.swap_table, x = true) ∨
    (∃ t i, swap_out s c = some (t, i) ∧ i < s.swap_table.length ∧
      bitmap_test s.swap_table i = false ∧
      (∀ j, j < i → bitmap_test s.swap_table j = true) ∧
      bitmap_test t.swap_table i = true ∧
      t.swap_table.length = s.swap_table.length ∧
      (∀ j, j ≠ i → bitmap_test t.swap_table j = bitmap_test s.swap_table j) ∧
      (∀ sec_no : Fin SECTORS_PER_PAGE,
        t.disk (slot_sector i sec_no.val) = page_sector c sec_no ∧
        slot_sector i sec_no.val = slot_sector i 0 + sec_no.val ∧
        (i < 2 ^ 20 → slot_sector i sec_no.val = i * PGSIZE / DISK_SECTOR_SIZE + sec_no.val)) ∧
      (∀ x, (∀ sec_no : Fin SECTORS_PER_PAGE, slot_sector i sec_no.val ≠ x) →
        t.disk x = s.disk x)) := by
  cases h : swap_out s c with
  | none =>
    left
    refine ⟨rfl, ?_⟩
    apply scan_and_flip_none.mp
    unfold swap_out at h
    cases hb : bitmap_scan_and_flip s.swap_table with
    | none => rfl
    | some r => rw [hb] at h; exact absurd h (by simp)
  | some r =>
    right
    obtain ⟨t, i⟩ := r
    obtain ⟨h1, h2, h3, h4, h5, h6⟩ := swap_out_some h
    refine ⟨t, i, rfl, h1, h2, h3, by rw [h4, bitmap_test_set_self _ _ h1],
      by rw [h4, bitmap_set_length], fun j hj => by rw [h4, bitmap_test_set_ne _ _ (Ne.symm hj)],
      fun sec_no => ⟨h5 sec_no, ?_, fun hi => ?_⟩, h6⟩
    · rw [slot_sector_eq i sec_no.val sec_no.isLt, slot_sector_eq i 0 (by decide)]
      omega
    · rw [slot_sector_eq i sec_no.val sec_no.isLt]
      simp only [SECTORS_PER_PAGE, PGSIZE, DISK_SECTOR_SIZE]
      omega

/-! ### The pairing of frames and hardware mappings -/

theorem same_shape_refl (s : State) : same_shape s s := ⟨rfl, rfl, fun _ _ => rfl⟩

theorem same_shape_trans {s t u : State} (h1 : same_shape s t) (h2 : same_shape t u) :
    same_shape s u :=
  ⟨h2.1.trans h1.1, h2.2.1.trans h1.2.1, fun tid a => (h2.2.2 tid a).trans (h1.2.2 tid a)⟩

theorem pairing_of_same_shape {s t : State} (h : same_shape s t) (hp : pairing s) :
    pairing t := by
  obtain ⟨hf, hfree, hpd⟩ := h
  obtain ⟨h1, h2, h3, h4⟩ := hp
  refine ⟨?_, ?_, ?_, ?_⟩
  · intro f hfm
    rw [hf] at hfm
    rw [hpd]
    exact h1 f hfm
  · intro tid a k hk
    rw [hpd] at hk
    rw [hf]
    exact h2 tid a k hk
  · unfold frames_distinct
    rw [hf]
    exact h3
  · unfold pool_ok
    rw [hf, hfree]
    exact h4

theorem get_page_update_thread (s : State) (tid : Nat) (f : thread → thread)
    (hf : ∀ t, (f t).pagedir = t.pagedir) (tid2 a : Nat) :
    pagedir_get_page (update_thread s tid f) tid2 a = pagedir_get_page s tid2 a := by
  unfold pagedir_get_page update_thread
  by_cases h : tid2 = tid
  · subst h; simp [hf]
  · simp [Function.update_noteq h]

theorem same_shape_update_thread (s : State) (tid : Nat) (f : thread → thread)
    (hf : ∀ t, (f t).pagedir = t.pagedir) : same_shape s (update_thread s tid f) :=
  ⟨rfl, rfl, get_page_update_thread s tid f hf⟩

theorem same_shape_update_page (s : State) (tid addr : Nat) (f : page → page) :
    same_shape s (update_page s tid addr f) :=
  same_shape_update_thread s tid _ (fun _ => rfl)

/-- Changing accessed and dirty bits of an entry changes no mapping. -/
theorem same_shape_bits (s : State) (tid upage : Nat) (g : pte → pte)
    (hg : ∀ e, (g e).kpage = e.kpage) :
    same_shape s (update_thread s tid fun t =>
      { t with pagedir := Function.update t.pagedir upage ((t.pagedir upage).map g) }) := by
  refine ⟨rfl, rfl, fun tid2 a => ?_⟩
  unfold pagedir_get_page update_thread
  by_cases h : tid2 = tid
  · subst h
    by_cases ha : a = upage
    · subst ha
      simp only [Function.update_same]
      cases (s.threads tid2).pagedir a with
      | none => rfl
      | some e => simp [hg]
    · simp [Function.update_noteq ha]
  · simp [Function.update_noteq h]

theorem same_shape_set_accessed (s : State) (tid upage : Nat) (v : Bool) :
    same_shape s (pagedir_set_accessed s tid upage v) :=
  same_shape_bits s tid upage _ (fun _ => rfl)

theorem same_shape_set_dirty (s : State) (tid upage : Nat) (v : Bool) :
    same_shape s (pagedir_set_dirty s tid upage v) :=
  same_shape_bits s tid upage _ (fun _ => rfl)

/-- What the second-chance loop returns: the frame table, the pool, the mappings
and the page tables are as before, the victim is a frame of the table, and the
count has grown. -/
theorem evict_sweep_shape (s : State) (e n : Nat) :
    ∀ r, evict_sweep s e n = some r →
      same_shape s r.1 ∧ r.2.1 < s.frame_table.length ∧ n < r.2.2 ∧
      ∀ tid, (r.1.threads tid).page_table = (s.threads tid).page_table := by
  induction s, e, n using evict_sweep.induct with
  | case1 s e n he =>
    intro r h
    rw [evict_sweep] at h
    split at h
    · exact absurd h (by simp)
    · rename_i fr hfr
      rw [he] at hfr
      exact absurd hfr (by simp)
  | case2 s e n fr he ha ih =>
    intro r h
    rw [evict_sweep] at h
    split at h
    · exact absurd h (by simp)
    · rename_i fr2 hfr
      have : fr2 = fr := by rw [he] at hfr; exact (Option.some.inj hfr).symm
      subst this
      rw [dif_pos ha] at h
      obtain ⟨h1, h2, h3, h4⟩ := ih r h
      have hs := same_shape_set_accessed s fr2.thread fr2.upage false
      refine ⟨same_shape_trans hs h1, ?_, by omega, fun tid => ?_⟩
      · rw [← hs.1]
        exact h2
      · rw [h4 tid]
        simp only [pagedir_set_accessed, update_thread]
        by_cases htid : tid = fr2.thread
        · subst htid; simp
        · simp [Function.update_noteq htid]
  | case3 s e n fr he ha =>
    intro r h
    rw [evict_sweep] at h
    split at h
    · exact absurd h (by simp)
    · rename_i fr2 hfr
      have : fr2 = fr := by rw [he] at hfr; exact (Option.some.inj hfr).symm
      subst this
      rw [dif_neg ha] at h
      simp only [Option.some.injEq] at h
      subst h
      exact ⟨same_shape_refl s, (List.getElem?_eq_some.mp he).1, by simp, fun _ => rfl⟩

theorem filter_length_mono (l : List frame) (p q : frame → Bool)
    (hpq : ∀ x ∈ l, q x = true → p x = true) :
    (l.filter q).length ≤ (l.filter p).length ∧
    ((∃ x ∈ l, p x = true ∧ q x = false) → (l.filter q).length < (l.filter p).length) := by
  induction l with
  | nil =>
    refine ⟨Nat.le_refl _, ?_⟩
    rintro ⟨x, hx, _⟩
    exact absurd hx (List.not_mem_nil x)
  | cons a l ih =>
    obtain ⟨ih1, ih2⟩ := ih (fun x hx => hpq x (List.mem_cons_of_mem _ hx))
    have ha := hpq a (List.mem_cons_self _ _)
    constructor
    · cases hq : q a with
      | false =>
        cases hp : p a with
        | false => simpa [List.filter_cons, hq, hp] using ih1
        | true => simp only [List.filter_cons, hq, hp]; simp; omega
      | true => simpa [List.filter_cons, hq, ha hq] using ih1
    · rintro ⟨x, hx, hpx, hqx⟩
      rcases List.mem_cons.mp hx with h | h
      · subst h
        simp only [List.filter_cons, hqx, hpx]
        simp
        omega
      · have := ih2 ⟨x, h, hpx, hqx⟩
        cases hq : q a with
        | false =>
          cases hp : p a with
          | false => simpa [List.filter_cons, hq, hp] using this
          | true => simp only [List.filter_cons, hq, hp]; simp; omega
        | true => simpa [List.filter_cons, hq, ha hq] using this

theorem is_accessed_set_accessed (s : State) (tid upage : Nat) (tid2 a : Nat) :
    pagedir_is_accessed (pagedir_set_accessed s tid upage false) tid2 a =
      (if tid2 = tid ∧ a = upage then false else pagedir_is_accessed s tid2 a) := by
  simp only [pagedir_is_accessed, pagedir_set_accessed, update_thread]
  by_cases ht : tid2 = tid
  · by_cases hu : a = upage
    · rw [ht, hu]
      simp only [Function.update_same, and_self, if_true]
      cases (s.threads tid).pagedir upage <;> rfl
    · rw [ht]
      simp [Function.update_same, Function.update_noteq hu, hu]
  · simp [Function.update_noteq ht, ht]

/-- Clearing the accessed bit of a frame whose bit is set leaves fewer frames
with the bit set. -/
theorem accessed_frames_decreases {s : State} {fr : frame} (hmem : fr ∈ s.frame_table)
    (ha : pagedir_is_accessed s fr.thread fr.upage = true) :
    accessed_frames (pagedir_set_accessed s fr.thread fr.upage false) < accessed_frames s := by
  unfold accessed_frames
  apply (filter_length_mono _ _ _ ?_).2 ⟨fr, hmem, ha, ?_⟩
  · intro x _ hx
    rw [is_accessed_set_accessed] at hx
    split at hx
    · exact absurd hx (by simp)
    · exact hx
  · rw [is_accessed_set_accessed]; simp

theorem accessed_frames_le (s : State) : accessed_frames s ≤ s.frame_table.length :=
  List.length_filter_le _ _

/-- The second-chance loop, entered at a frame of the table, reaches its `else`
branch; it has then made at most one iteration more than there were frames
with the accessed bit set, the victim's accessed bit is clear, and no page table
has changed. -/
theorem evict_sweep_total (s : State) (e n : Nat) :
    e < s.frame_table.length →
    ∃ r, evict_sweep s e n = some r ∧ r.2.2 ≤ n + accessed_frames s + 1 ∧
      (∀ tid, (r.1.threads tid).page_table = (s.threads tid).page_table) ∧
      ∃ fr, r.1.frame_table[r.2.1]? = some fr ∧
        pagedir_is_accessed r.1 fr.thread fr.upage = false := by
  induction s, e, n using evict_sweep.induct with
  | case1 s e n he =>
    intro hlt
    rw [List.getElem?_eq_getElem hlt] at he
    exact absurd he (by simp)
  | case2 s e n fr he ha ih =>
    intro _
    have hlen : (pagedir_set_accessed s fr.thread fr.upage false).frame_table.length
        = s.frame_table.length := rfl
    have hlt : (if e + 1 = s.frame_table.length then 0 else e + 1)
        < (pagedir_set_accessed s fr.thread fr.upage false).frame_table.length := by
      rw [hlen]
      have := (List.getElem?_eq_some.mp he).1
      split <;> omega
    obtain ⟨r, hr, hcount, hpages, hvict⟩ := ih hlt
    refine ⟨r, ?_, ?_, ?_, hvict⟩
    · rw [evict_sweep]
      split
      · rename_i hnone
        rw [he] at hnone
        exact absurd hnone (by simp)
      · rename_i fr2 hfr
        have : fr2 = fr := by rw [he] at hfr; exact (Option.some.inj hfr).symm
        subst this
        rw [dif_pos ha]
        exact hr
    · have := accessed_frames_decreases (List.getElem?_mem he) ha
      omega
    · intro tid
      rw [hpages tid]
      simp only [pagedir_set_accessed, update_thread]
      by_cases h : tid = fr.thread
      · subst h; simp
      · simp [Function.update_noteq h]
  | case3 s e n fr he ha =>
    intro _
    refine ⟨(s, e, n + 1), ?_, by simp, fun _ => rfl, fr, he, by simpa using ha⟩
    rw [evict_sweep]
    split
    · rename_i hnone
      rw [he] at hnone
      exact absurd hnone (by simp)
    · rename_i fr2 hfr
      have : fr2 = fr := by rw [he] at hfr; exact (Option.some.inj hfr).symm
      subst this
      rw [dif_neg ha]

/-- C7: on a non-empty frame table whose frames all name an entry of their
thread's page table, whatever the accessed bits are, the second-chance loop of
`vm_frame_evict` reaches its `else` branch (where the eviction is committed)
after at most `2 · n` iterations, `n` being the number of frames; the frame it
stops at has its accessed bit clear and `vm_page_find` gives its page. -/
theorem evict_sweep_within_two_passes (s : State) (hne : s.frame_table ≠ [])
    (hpages : ∀ f ∈ s.frame_table, (vm_page_find s f.thread f.upage).isSome = true) :
    ∃ t victim inspected fr,
      evict_sweep s 0 0 = some (t, victim, inspected) ∧
      inspected ≤ 2 * s.frame_table.length ∧
      t.frame_table = s.frame_table ∧
      t.frame_table[victim]? = some fr ∧
      pagedir_is_accessed t fr.thread fr.upage = false ∧
      (vm_page_find t fr.thread fr.upage).isSome = true := by
  have hlen : 0 < s.frame_table.length := List.length_pos.mpr hne
  obtain ⟨r, hr, hcount, hpt, fr, hfr, hacc⟩ := evict_sweep_total s 0 0 hlen
  obtain ⟨hshape, -, -, -⟩ := evict_sweep_shape s 0 0 r hr
  have hle := accessed_frames_le s
  refine ⟨r.1, r.2.1, r.2.2, fr, hr, by omega, hshape.1, hfr, hacc, ?_⟩
  have hmem : fr ∈ s.frame_table := by
    rw [← hshape.1]; exact List.getElem?_mem hfr
  have := hpages fr hmem
  simp only [vm_page_find] at this ⊢
  rw [hpt]
  exact this

/-- C7 on two frames whose accessed bits are both set. -/
theorem evict_sweep_within_two_passes_witness :
    two_frame_state.frame_table ≠ [] ∧
    ∃ t victim inspected fr,
      evict_sweep two_frame_state 0 0 = some (t, victim, inspected) ∧
      inspected ≤ 2 * two_frame_state.frame_table.length ∧
      t.frame_table = two_frame_state.frame_table ∧
      t.frame_table[victim]? = some fr ∧
      pagedir_is_accessed t fr.thread fr.upage = false ∧
      (vm_page_find t fr.thread fr.upage).isSome = true :=
  ⟨by simp [two_frame_state],
   evict_sweep_within_two_passes two_frame_state (by simp [two_frame_state]) (by
    intro f hf
    simp only [two_frame_state, List.mem_cons, List.mem_singleton, List.not_mem_nil,
      or_false] at hf
    rcases hf with h | h <;> subst h <;>
      simp [vm_page_find, two_frame_state, two_page_thread])⟩

/-- C10: `vm_page_insert (a)` by a thread whose page table has no entry at `a`
returns `NULL`, and afterwards `vm_page_find (a)` gives an entry with `addr = a`,
`loaded = true`, `valid = true`, `mapid = MAP_FAILED` and `file = NULL`, while
`vm_page_find` of every other address and thread is unchanged; if there is an
entry at `a`, it returns that entry and the state is unchanged. -/
theorem vm_page_insert_spec (s : State) (cur a : Nat) (raw : page) :
    (vm_page_find s cur a = none ∧ (vm_page_insert s cur a raw).2 = none ∧
      (∃ p, vm_page_find (vm_page_insert s cur a raw).1 cur a = some p ∧ p.addr = a ∧
        p.loaded = true ∧ p.valid = true ∧ p.mapid = MAP_FAILED ∧ p.file = none) ∧
      (∀ tid b, (tid ≠ cur ∨ b ≠ a) →
        vm_page_find (vm_page_insert s cur a raw).1 tid b = vm_page_find s tid b)) ∨
    (∃ old, vm_page_find s cur a = some old ∧ (vm_page_insert s cur a raw).2 = some old ∧
      (vm_page_insert s cur a raw).1 = s) := by
  cases h : (s.threads cur).page_table a with
  | none =>
    left
    refine ⟨h, by simp [vm_page_insert, h], ?_, ?_⟩
    · exact ⟨{ raw with addr := a, loaded := true, mapid := MAP_FAILED, file := none,
                          valid := true },
        by simp [vm_page_insert, h, vm_page_find, update_thread], rfl, rfl, rfl, rfl, rfl⟩
    · intro tid b hne
      simp only [vm_page_insert, h, vm_page_find, update_thread]
      by_cases ht : tid = cur
      · subst ht
        rcases hne with hne | hne
        · exact absurd rfl hne
        · simp [Function.update_noteq hne]
      · simp [Function.update_noteq ht]
  | some old =>
    right
    exact ⟨old, h, by simp [vm_page_insert, h], by simp [vm_page_insert, h]⟩

/-- C9 fails on the code: in `swapped_state`, where the invariant holds,
`vm_page_load_swap` of the swapped-out page returns false when
`pagedir_set_page` fails, and leaves the page with `valid = false` and a
`swap_idx` whose bit `swap_in` has cleared; the `ASSERT` of `swap_destroy` then
fails in `vm_page_destructor`. -/
theorem load_swap_failure_leaves_clear_slot :
    swap_slots_ok swapped_state ∧
    ∃ t, vm_page_load_swap swapped_state 0 0x1000 false = some (t, false) ∧
      (∃ p, vm_page_find t 0 0x1000 = some p ∧ p.valid = false ∧
        bitmap_test t.swap.swap_table p.swap_idx = false) ∧
      ¬ swap_slots_ok t ∧
      vm_page_destructor t 0 0x1000 = none := by
  have hpages : ∀ tid a p, vm_page_find swapped_state tid a = some p →
      tid = 0 ∧ a = 0x1000 ∧ p.swap_idx = 0 := by
    intro tid a p h
    simp only [vm_page_find, swapped_state] at h
    split at h
    · simp only [swapped_thread] at h
      split at h
      · simp only [Option.some.injEq] at h
        subst h
        exact ⟨by assumption, by assumption, rfl⟩
      · exact absurd h (by simp)
    · exact absurd h (by simp [idle_thread])
  have hfind : ∀ ft sw fp mem, vm_page_find
      { swapped_state with frame_table := ft, swap := sw, free_pages := fp, memory := mem }
      0 0x1000 = some { anon_page 0x1000 with valid := false, swap_idx := 0 } := by
    intro ft sw fp mem
    simp [vm_page_find, swapped_state, swapped_thread]
  have halloc : vm_frame_alloc swapped_state 0 0x1000 false
      = some ({ swapped_state with free_pages := [],
                                   frame_table := [frame.mk 0 102 0x1000] }, some 102) := by
    simp [vm_frame_alloc, palloc_get_page, swapped_state]
  obtain ⟨q, hq, hq1⟩ : ∃ q, swap_in swapped_state.swap 0 (swapped_state.memory 102) = some q ∧
      q.1.swap_table = [false, false] :=
    ⟨_, by simp [swap_in, bitmap_test, swapped_state]; rfl, by simp [bitmap_set, swapped_state]⟩
  have hrun : vm_page_load_swap swapped_state 0 0x1000 false =
      some ({ swapped_state with swap := q.1,
                                 memory := Function.update swapped_state.memory 102 q.2 },
            false) := by
    have h0 := hfind swapped_state.frame_table swapped_state.swap swapped_state.free_pages
      swapped_state.memory
    have h1 := hfind [frame.mk 0 102 0x1000] swapped_state.swap [] swapped_state.memory
    simp only [vm_page_load_swap]
    rw [show vm_page_find swapped_state 0 0x1000 = _ from h0]
    simp only [anon_page, halloc, Option.some_bind]
    rw [show vm_page_find _ 0 0x1000 = _ from h1]
    simp only [if_true, hq, Option.map_some']
    simp [install_ok, frame_free, vm_frame_free, palloc_free_page, swapped_state]
  refine ⟨⟨?_, ?_⟩, _, hrun, ⟨_, hfind _ _ _ _, rfl, ?_⟩, ?_, ?_⟩
  · intro tid a p h _
    rw [(hpages tid a p h).2.2]
    simp [swapped_state, bitmap_test]
  · intro tid a p tid2 a2 p2 h h2 _ _ _
    obtain ⟨e1, e2, -⟩ := hpages tid a p h
    obtain ⟨e3, e4, -⟩ := hpages tid2 a2 p2 h2
    exact ⟨e1.trans e3.symm, e2.trans e4.symm⟩
  · simp [hq1, bitmap_test]
  · intro h
    have := h.1 0 0x1000 _ (hfind _ _ _ _) rfl
    simp [hq1, bitmap_test] at this
  · have h2 := hfind swapped_state.frame_table q.1 swapped_state.free_pages
      (Function.update swapped_state.memory 102 q.2)
    simp only [vm_page_destructor]
    rw [show vm_page_find _ 0 0x1000 = _ from h2]
    simp [pagedir_get_page, swapped_state, swapped_thread, anon_page, swap_destroy, hq1,
      bitmap_test]

theorem frame_eq_of_addr {l : List frame} (hnd : (l.map fun f => f.addr).Nodup)
    {f g : frame} (hf : f ∈ l) (hg : g ∈ l) (h : f.addr = g.addr) : f = g :=
  List.inj_on_of_nodup_map hnd hf hg h

theorem get_page_clear_page (s : State) (tid upage tid2 a : Nat) :
    pagedir_get_page (pagedir_clear_page s tid upage) tid2 a =
      if tid2 = tid ∧ a = upage then none else pagedir_get_page s tid2 a := by
  simp only [pagedir_get_page, pagedir_clear_page, update_thread]
  by_cases ht : tid2 = tid
  · by_cases hu : a = upage
    · rw [ht, hu]; simp
    · rw [ht]; simp [Function.update_noteq hu, hu]
  · simp [Function.update_noteq ht, ht]

theorem get_page_set_page (s : State) (tid upage kpage : Nat) (w : Bool) (tid2 a : Nat) :
    pagedir_get_page (pagedir_set_page s tid upage kpage w) tid2 a =
      if tid2 = tid ∧ a = upage then some kpage else pagedir_get_page s tid2 a := by
  simp only [pagedir_get_page, pagedir_set_page, update_thread]
  by_cases ht : tid2 = tid
  · by_cases hu : a = upage
    · rw [ht, hu]; simp
    · rw [ht]; simp [Function.update_noteq hu, hu]
  · simp [Function.update_noteq ht, ht]

/-- Taking a frame out of the table, unmapping its page and freeing its physical
page keeps the pairing. -/
theorem pairing_remove {s t : State} {fr : frame} (hp : pairing s)
    (hfr : fr ∈ s.frame_table)
    (hft : ∀ g, g ∈ t.frame_table ↔ g ∈ s.frame_table ∧ g.addr ≠ fr.addr)
    (hnd : (t.frame_table.map fun f => f.addr).Nodup)
    (hfree : t.free_pages = fr.addr :: s.free_pages)
    (hpd : ∀ tid a, pagedir_get_page t tid a =
      if tid = fr.thread ∧ a = fr.upage then none else pagedir_get_page s tid a) :
    pairing t := by
  obtain ⟨h1, h2, h3, h4, h5⟩ := hp
  refine ⟨?_, ?_, hnd, ?_, ?_⟩
  · intro g hg
    obtain ⟨hg1, hg2⟩ := (hft g).mp hg
    rw [hpd]
    split
    · rename_i heq
      exfalso
      have a1 := h1 g hg1
      have a2 := h1 fr hfr
      rw [heq.1, heq.2, a2] at a1
      exact hg2 (Option.some.inj a1).symm
    · exact h1 g hg1
  · intro tid a k hk
    rw [hpd] at hk
    split at hk
    · exact absurd hk (by simp)
    · rename_i hne
      have hm := h2 tid a k hk
      refine (hft _).mpr ⟨hm, fun hk2 => hne ?_⟩
      have := frame_eq_of_addr h3 hm hfr hk2
      rw [← this]
      exact ⟨rfl, rfl⟩
  · rw [hfree]
    exact List.nodup_cons.mpr ⟨h5 fr hfr, h4⟩
  · intro g hg
    obtain ⟨hg1, hg2⟩ := (hft g).mp hg
    rw [hfree]
    intro hmem
    rcases List.mem_cons.mp hmem with h | h
    · exact hg2 h
    · exact h5 g hg1 h

theorem mem_eraseIdx_nodup {l : List frame} (hnd : (l.map fun f => f.addr).Nodup) :
    ∀ {e : Nat} {fr : frame}, l[e]? = some fr →
      ∀ g, g ∈ l.eraseIdx e ↔ g ∈ l ∧ g.addr ≠ fr.addr := by
  induction l with
  | nil => intro e fr h; simp at h
  | cons a l ih =>
    intro e fr h g
    simp only [List.map_cons, List.nodup_cons, List.mem_map, not_exists, not_and] at hnd
    cases e with
    | zero =>
      simp only [List.getElem?_cons_zero, Option.some.injEq] at h
      subst h
      simp only [List.eraseIdx_cons_zero, List.mem_cons]
      constructor
      · intro hg
        exact ⟨Or.inr hg, fun heq => hnd.1 g hg heq⟩
      · rintro ⟨hg | hg, hne⟩
        · exact absurd (by rw [hg]) hne
        · exact hg
    | succ e =>
      simp only [List.getElem?_cons_succ] at h
      simp only [List.eraseIdx_cons_succ, List.mem_cons, ih hnd.2 h g]
      constructor
      · rintro (hg | ⟨hg, hne⟩)
        · subst hg
          exact ⟨Or.inl rfl, fun heq => hnd.1 fr (List.getElem?_mem h) heq.symm⟩
        · exact ⟨Or.inr hg, hne⟩
      · rintro ⟨hg | hg, hne⟩
        · exact Or.inl hg
        · exact Or.inr ⟨hg, hne⟩

theorem mem_eraseP_nodup {l : List frame} (hnd : (l.map fun f => f.addr).Nodup) (k : Nat) :
    ∀ g, g ∈ l.eraseP (fun f => f.addr == k) ↔ g ∈ l ∧ g.addr ≠ k := by
  induction l with
  | nil => intro g; simp
  | cons a l ih =>
    intro g
    simp only [List.map_cons, List.nodup_cons, List.mem_map, not_exists, not_and] at hnd
    by_cases ha : a.addr = k
    · simp only [List.eraseP_cons, ha, beq_self_eq_true, cond_true, List.mem_cons]
      constructor
      · intro hg
        exact ⟨Or.inr hg, fun heq => hnd.1 g hg (heq.trans ha.symm)⟩
      · rintro ⟨hg | hg, hne⟩
        · exact absurd (by rw [hg, ha]) hne
        · exact hg
    · have hb : (a.addr == k) = false := by simpa using ha
      simp only [List.eraseP_cons, hb, cond_false, List.mem_cons, ih hnd.2 g]
      constructor
      · rintro (hg | ⟨hg, hne⟩)
        · subst hg; exact ⟨Or.inl rfl, ha⟩
        · exact ⟨Or.inr hg, hne⟩
      · rintro ⟨hg | hg, hne⟩
        · exact Or.inl hg
        · exact Or.inr ⟨hg, hne⟩

/-- A page handed out by `palloc_get_page` is neither free any more nor the page
of a frame, and the pairing is kept. -/
theorem palloc_get_spec {s : State} (zero : Bool) (hp : pairing s) :
    (palloc_get_page s zero).1.frame_table = s.frame_table ∧
    (∀ tid a, pagedir_get_page (palloc_get_page s zero).1 tid a = pagedir_get_page s tid a) ∧
    pairing (palloc_get_page s zero).1 ∧
    ∀ k, (palloc_get_page s zero).2 = some k →
      k ∉ (palloc_get_page s zero).1.free_pages ∧
      ∀ f ∈ (palloc_get_page s zero).1.frame_table, f.addr ≠ k := by
  obtain ⟨h1, h2, h3, h4, h5⟩ := hp
  unfold palloc_get_page
  cases hfree : s.free_pages with
  | nil =>
    exact ⟨rfl, fun _ _ => rfl, ⟨h1, h2, h3, h4, h5⟩, fun k hk => absurd hk (by simp)⟩
  | cons k rest =>
    rw [hfree] at h4 h5
    have hnd := List.nodup_cons.mp h4
    refine ⟨rfl, fun _ _ => rfl, ⟨h1, h2, h3, hnd.2, fun f hf hm => h5 f hf
      (List.mem_cons_of_mem _ hm)⟩, fun k2 hk2 => ?_⟩
    simp only [Option.some.injEq] at hk2
    subst hk2
    exact ⟨hnd.1, fun f hf heq => h5 f hf (by rw [heq]; exact List.mem_cons_self _ _)⟩

/-- The `else` branch of the eviction loop keeps the pairing, and the page it
returns is neither free nor the page of a frame. -/
theorem evict_commit_spec {s : State} {cur e : Nat} {zero : Bool} {r : State × Option Nat}
    (hp : pairing s) (h : evict_commit s cur e zero = some r) :
    pairing r.1 ∧ ∀ k, r.2 = some k →
      k ∉ r.1.free_pages ∧ ∀ f ∈ r.1.frame_table, f.addr ≠ k := by
  unfold evict_commit at h
  cases he : s.frame_table[e]? with
  | none => rw [he] at h; exact absurd h (by simp)
  | some fr =>
    rw [he] at h
    simp only at h
    cases hpg : vm_page_find s fr.thread fr.upage with
    | none => rw [hpg] at h; exact absurd h (by simp)
    | some page =>
      rw [hpg] at h
      simp only [Option.map_eq_some'] at h
      obtain ⟨s1, hs1, hr⟩ := h
      have hshape : same_shape s s1 := by
        split at hs1
        · split at hs1
          · simp only [Option.map_eq_some'] at hs1
            obtain ⟨s0, hs0, hs01⟩ := hs1
            subst hs01
            refine same_shape_trans ?_ (same_shape_update_page s0 _ _ _)
            unfold write_back at hs0
            split at hs0
            · simp only [Option.some.injEq] at hs0
              subst hs0
              exact ⟨rfl, rfl, fun _ _ => rfl⟩
            · exact absurd hs0 (by simp)
          · simp only [Option.map_eq_some'] at hs1
            obtain ⟨q, -, hq⟩ := hs1
            subst hq
            exact same_shape_trans ⟨rfl, rfl, fun _ _ => rfl⟩ (same_shape_update_page _ _ _ _)
        · simp only [Option.some.injEq] at hs1
          subst hs1
          exact same_shape_update_page s _ _ _
      have hp1 := pairing_of_same_shape hshape hp
      have he1 : s1.frame_table[e]? = some fr := by rw [hshape.1]; exact he
      have hrem : pairing (palloc_free_page
          (pagedir_clear_page { s1 with frame_table := s1.frame_table.eraseIdx e }
            fr.thread fr.upage) fr.addr) := by
        apply pairing_remove hp1 (List.getElem?_mem he1)
        · exact mem_eraseIdx_nodup hp1.2.2.1 he1
        · exact (hp1.2.2.1).sublist ((List.eraseIdx_sublist _ _).map _)
        · rfl
        · intro tid a
          rw [palloc_free_page]
          exact get_page_clear_page _ _ _ _ _
      obtain ⟨-, -, a3, a4⟩ := palloc_get_spec zero hrem
      rw [← hr]
      exact ⟨a3, a4⟩

theorem same_addrs_refl (s : State) : same_addrs s s := fun _ _ => rfl

theorem same_addrs_trans {s t u : State} (h1 : same_addrs s t) (h2 : same_addrs t u) :
    same_addrs s u := fun tid a => (h2 tid a).trans (h1 tid a)

theorem same_addrs_of_tables {s t : State}
    (h : ∀ tid, (t.threads tid).page_table = (s.threads tid).page_table) : same_addrs s t := by
  intro tid a
  simp only [vm_page_find, h tid]

theorem same_addrs_update_page (s : State) (tid addr : Nat) (f : page → page)
    (hf : ∀ p, (f p).addr = p.addr) : same_addrs s (update_page s tid addr f) := by
  intro tid2 a
  simp only [vm_page_find, update_page, update_thread]
  by_cases ht : tid2 = tid
  · subst ht
    by_cases ha : a = addr
    · subst ha
      simp only [Function.update_same]
      cases (s.threads tid2).page_table a with
      | none => rfl
      | some p => simp [hf]
    · simp [Function.update_noteq ha]
  · simp [Function.update_noteq ht]

/-- Changing the page directory of a thread changes no page table. -/
theorem same_addrs_update_pagedir (s : State) (tid : Nat) (f : thread → thread)
    (hf : ∀ t, (f t).page_table = t.page_table) : same_addrs s (update_thread s tid f) := by
  apply same_addrs_of_tables
  intro tid2
  simp only [update_thread]
  by_cases ht : tid2 = tid
  · subst ht; simp [hf]
  · simp [Function.update_noteq ht]

theorem evict_commit_addrs {s : State} {cur e : Nat} {zero : Bool} {r : State × Option Nat}
    (h : evict_commit s cur e zero = some r) : same_addrs s r.1 := by
  unfold evict_commit at h
  cases he : s.frame_table[e]? with
  | none => rw [he] at h; exact absurd h (by simp)
  | some fr =>
    rw [he] at h
    simp only at h
    cases hpg : vm_page_find s fr.thread fr.upage with
    | none => rw [hpg] at h; exact absurd h (by simp)
    | some page =>
      rw [hpg] at h
      simp only [Option.map_eq_some'] at h
      obtain ⟨s1, hs1, hr⟩ := h
      have h1 : same_addrs s s1 := by
        split at hs1
        · split at hs1
          · simp only [Option.map_eq_some'] at hs1
            obtain ⟨s0, hs0, hs01⟩ := hs1
            subst hs01
            refine same_addrs_trans ?_ (same_addrs_update_page s0 _ _ _ (fun _ => rfl))
            unfold write_back at hs0
            split at hs0
            · simp only [Option.some.injEq] at hs0
              subst hs0
              exact fun _ _ => rfl
            · exact absurd hs0 (by simp)
          · simp only [Option.map_eq_some'] at hs1
            obtain ⟨q, -, hq⟩ := hs1
            subst hq
            exact same_addrs_trans (fun _ _ => rfl)
              (same_addrs_update_page _ _ _ _ (fun _ => rfl))
        · simp only [Option.some.injEq] at hs1
          subst hs1
          exact same_addrs_update_page s _ _ _ (fun _ => rfl)
      rw [← hr]
      refine same_addrs_trans h1 ?_
      have h2 : same_addrs s1 (pagedir_clear_page
          { s1 with frame_table := s1.frame_table.eraseIdx e } fr.thread fr.upage) :=
        same_addrs_trans (fun _ _ => rfl) (same_addrs_update_pagedir _ _ _ (fun _ => rfl))
      refine same_addrs_trans h2 ?_
      intro tid a
      simp only [vm_page_find, palloc_get_page, palloc_free_page]

/-- What `vm_frame_evict` returns: the pairing is kept, the page it returns is
neither free nor the page of a frame, and no entry of a page table has come,
gone or changed its `addr`. -/
theorem vm_frame_evict_spec {s : State} {cur : Nat} {zero : Bool} {r : State × Option Nat}
    (hp : pairing s) (h : vm_frame_evict s cur zero = some r) :
    pairing r.1 ∧ same_addrs s r.1 ∧
    ∀ k, r.2 = some k → k ∉ r.1.free_pages ∧ ∀ f ∈ r.1.frame_table, f.addr ≠ k := by
  simp only [vm_frame_evict, Option.bind_eq_some] at h
  obtain ⟨q, hq, hc⟩ := h
  obtain ⟨hshape, -, -, htab⟩ := evict_sweep_shape s 0 0 q hq
  obtain ⟨a1, a2⟩ := evict_commit_spec (pairing_of_same_shape hshape hp) hc
  exact ⟨a1, same_addrs_trans (same_addrs_of_tables htab) (evict_commit_addrs hc), a2⟩

/-- What `vm_frame_alloc` returns: without a page, a state in which the pairing
holds; with a page, such a state with one more frame, for that page. -/
theorem vm_frame_alloc_spec {s : State} {cur upage : Nat} {zero : Bool}
    {r : State × Option Nat} (hp : pairing s) (h : vm_frame_alloc s cur upage zero = some r) :
    same_addrs s r.1 ∧
    ((r.2 = none ∧ pairing r.1) ∨ (∃ k s0, r.2 = some k ∧ fresh_frame s0 r.1 cur k upage)) := by
  simp only [vm_frame_alloc, Option.map_eq_some'] at h
  obtain ⟨q, hq, hr⟩ := h
  have hq2 : pairing q.1 ∧ same_addrs s q.1 ∧
      ∀ k, q.2 = some k → k ∉ q.1.free_pages ∧ ∀ f ∈ q.1.frame_table, f.addr ≠ k := by
    obtain ⟨-, -, b3, b4⟩ := palloc_get_spec zero hp
    split at hq
    · have hp0 : pairing (palloc_get_page s zero).1 := b3
      obtain ⟨c1, c2, c3⟩ := vm_frame_evict_spec hp0 hq
      refine ⟨c1, same_addrs_trans ?_ c2, c3⟩
      intro tid a
      simp only [vm_page_find, palloc_get_page]
      split <;> rfl
    · rename_i kpage hk
      simp only [Option.some.injEq] at hq
      subst hq
      refine ⟨b3, ?_, fun k hk2 => b4 k (hk.trans hk2)⟩
      intro tid a
      simp only [vm_page_find, palloc_get_page]
      split <;> rfl
  obtain ⟨d1, d2, d3⟩ := hq2
  cases hk : q.2 with
  | none =>
    rw [hk] at hr
    simp only at hr
    subst hr
    exact ⟨d2, Or.inl ⟨hk, d1⟩⟩
  | some k =>
    rw [hk] at hr
    simp only at hr
    subst hr
    refine ⟨d2, Or.inr ⟨k, q.1, rfl, d1, (d3 k hk).1, (d3 k hk).2, rfl, rfl, fun _ _ => rfl⟩⟩

/-- Installing the mapping of a fresh frame at an address that has none keeps
the pairing. -/
theorem pairing_install {s0 t : State} {cur k upage : Nat} (w : Bool)
    (hf : fresh_frame s0 t cur k upage) (hnone : pagedir_get_page t cur upage = none) :
    pairing (pagedir_set_page t cur upage k w) := by
  obtain ⟨⟨h1, h2, h3, h4, h5⟩, hk1, hk2, hft, hfree, hpd⟩ := hf
  have hft2 : (pagedir_set_page t cur upage k w).frame_table
      = s0.frame_table ++ [frame.mk cur k upage] := hft
  have hfree2 : (pagedir_set_page t cur upage k w).free_pages = s0.free_pages := hfree
  refine ⟨?_, ?_, ?_, ?_, ?_⟩
  · intro g hg
    rw [hft2] at hg
    rw [get_page_set_page]
    rcases List.mem_append.mp hg with hg | hg
    · split
      · rename_i heq
        exfalso
        have := h1 g hg
        rw [heq.1, heq.2, ← hpd, hnone] at this
        exact absurd this (by simp)
      · rw [hpd]; exact h1 g hg
    · rw [List.mem_singleton.mp hg]
      simp
  · intro tid a k2 hk
    rw [get_page_set_page] at hk
    rw [hft2]
    split at hk
    · rename_i heq
      simp only [Option.some.injEq] at hk
      rw [heq.1, heq.2, ← hk]
      exact List.mem_append_right _ (List.mem_singleton.mpr rfl)
    · rw [hpd] at hk
      exact List.mem_append_left _ (h2 tid a k2 hk)
  · unfold frames_distinct
    rw [hft2, List.map_append, List.nodup_append]
    refine ⟨h3, by simp, ?_⟩
    intro x hx hy
    simp only [List.map_cons, List.map_nil, List.mem_singleton] at hy
    obtain ⟨f, hfm, hfa⟩ := List.mem_map.mp hx
    exact hk2 f hfm (hfa.trans hy)
  · rw [hfree2]; exact h4
  · intro g hg
    rw [hft2] at hg
    rw [hfree2]
    rcases List.mem_append.mp hg with hg | hg
    · exact h5 g hg
    · rw [List.mem_singleton.mp hg]; exact hk1

/-- Freeing a fresh frame keeps the pairing. -/
theorem pairing_free_fresh {s0 t : State} {cur k upage : Nat}
    (hf : fresh_frame s0 t cur k upage) : pairing (vm_frame_free t k) := by
  obtain ⟨⟨h1, h2, h3, h4, h5⟩, hk1, hk2, hft, hfree, hpd⟩ := hf
  have hnone : s0.frame_table.find? (fun f => f.addr == k) = none := by
    rw [List.find?_eq_none]
    intro f hfm
    simpa using hk2 f hfm
  have hfind : t.frame_table.find? (fun f => f.addr == k) = some (frame.mk cur k upage) := by
    rw [hft, List.find?_append, hnone]
    simp
  have herase : t.frame_table.eraseP (fun f => f.addr == k) = s0.frame_table := by
    rw [hft, List.eraseP_append_right _ (fun f hfm => by simpa using hk2 f hfm)]
    simp
  unfold vm_frame_free
  rw [hfind]
  simp only [herase, palloc_free_page]
  refine ⟨?_, ?_, h3, ?_, ?_⟩
  · intro g hg
    exact (hpd g.thread g.upage).trans (h1 g hg)
  · intro tid a k2 hk
    exact h2 tid a k2 ((hpd tid a).symm.trans hk)
  · show (k :: t.free_pages).Nodup
    rw [hfree]
    exact List.nodup_cons.mpr ⟨hk1, h4⟩
  · intro g hg
    show g.addr ∉ k :: t.free_pages
    rw [hfree]
    intro hm
    rcases List.mem_cons.mp hm with h | h
    · exact hk2 g hg h
    · exact h5 g hg h

/-- Unmapping a resident page and freeing its frame keeps the pairing. -/
theorem pairing_unmap {s t : State} {cur a k : Nat} (hp : pairing s)
    (hk : pagedir_get_page s cur a = some k)
    (hft : t.frame_table = s.frame_table) (hfree : t.free_pages = s.free_pages)
    (hpd : ∀ tid b, pagedir_get_page t tid b =
      if tid = cur ∧ b = a then none else pagedir_get_page s tid b) :
    pairing (vm_frame_free t k) := by
  have hmem : frame.mk cur k a ∈ s.frame_table := hp.2.1 cur a k hk
  have hfind : ∃ f, t.frame_table.find? (fun f => f.addr == k) = some f ∧ f.addr = k := by
    cases hf : t.frame_table.find? (fun f => f.addr == k) with
    | none =>
      rw [List.find?_eq_none, hft] at hf
      exact absurd (hf _ hmem) (by simp)
    | some f => exact ⟨f, rfl, by simpa using List.find?_some hf⟩
  obtain ⟨f, hf, hfa⟩ := hfind
  unfold vm_frame_free
  rw [hf]
  apply @pairing_remove s _ (frame.mk cur k a) hp hmem
  · intro g
    show g ∈ t.frame_table.eraseP _ ↔ _
    rw [hft]
    exact mem_eraseP_nodup hp.2.2.1 k g
  · show ((t.frame_table.eraseP _).map _).Nodup
    rw [hft]
    exact (hp.2.2.1).sublist ((List.eraseP_sublist _).map _)
  · show f.addr :: t.free_pages = _
    rw [hfa, hfree]
  · intro tid b
    exact hpd tid b

theorem install_ok_none {s : State} {cur upage : Nat} {ok : Bool}
    (h : install_ok s cur upage ok = true) : pagedir_get_page s cur upage = none := by
  simp only [install_ok, Bool.and_eq_true, Option.isNone_iff_eq_none] at h
  exact h.1

theorem addr_of_same_addrs {s t : State} (h : same_addrs s t) {tid a : Nat} {p q : page}
    (hp : vm_page_find s tid a = some p) (hq : vm_page_find t tid a = some q) :
    q.addr = p.addr := by
  have := h tid a
  rw [hp, hq] at this
  simpa using this

theorem fresh_frame_of_fields {s0 t u : State} {cur k upage : Nat}
    (hf : fresh_frame s0 t cur k upage) (h1 : u.frame_table = t.frame_table)
    (h2 : u.free_pages = t.free_pages)
    (h3 : ∀ tid a, pagedir_get_page u tid a = pagedir_get_page t tid a) :
    fresh_frame s0 u cur k upage :=
  ⟨hf.1, hf.2.1, hf.2.2.1, h1.trans hf.2.2.2.1, h2.trans hf.2.2.2.2.1,
    fun tid a => (h3 tid a).trans (hf.2.2.2.2.2 tid a)⟩

theorem load_zero_pairing {s : State} {cur addr : Nat} {ok : Bool} {r : State × Bool}
    (hp : pairing s) (h : vm_page_load_zero s cur addr ok = some r) : pairing r.1 := by
  unfold vm_page_load_zero at h
  cases hp0 : vm_page_find s cur addr with
  | none => rw [hp0] at h; exact absurd h (by simp)
  | some page0 =>
    rw [hp0] at h
    simp only [Option.bind_eq_some] at h
    obtain ⟨q, hq, h⟩ := h
    obtain ⟨hsa, hdisj⟩ := vm_frame_alloc_spec hp hq
    cases hp1 : vm_page_find q.1 cur addr with
    | none => rw [hp1] at h; exact absurd h (by simp)
    | some page =>
      rw [hp1] at h
      simp only at h
      have haddr := addr_of_same_addrs hsa hp0 hp1
      split at h
      · cases hk : q.2 with
        | none =>
          rw [hk] at h
          simp only [Option.some.injEq] at h
          subst h
          rcases hdisj with ⟨-, hd⟩ | ⟨k, s0, hd, -⟩
          · exact hd
          · rw [hk] at hd; exact absurd hd (by simp)
        | some kpage =>
          rw [hk] at h
          simp only at h
          rcases hdisj with ⟨hd, -⟩ | ⟨k, s0, hd, hfresh⟩
          · rw [hk] at hd; exact absurd hd (by simp)
          · rw [hk] at hd
            simp only [Option.some.injEq] at hd
            subst hd
            rw [haddr] at h
            split at h
            · rename_i hok
              simp only [Option.some.injEq] at h
              subst h
              exact pairing_of_same_shape (same_shape_set_accessed _ _ _ _)
                (pairing_install true hfresh (install_ok_none hok))
            · simp only [Option.some.injEq] at h
              subst h
              exact pairing_free_fresh hfresh
      · exact absurd h (by simp)

theorem load_swap_pairing {s : State} {cur addr : Nat} {ok : Bool} {r : State × Bool}
    (hp : pairing s) (h : vm_page_load_swap s cur addr ok = some r) : pairing r.1 := by
  unfold vm_page_load_swap at h
  cases hp0 : vm_page_find s cur addr with
  | none => rw [hp0] at h; exact absurd h (by simp)
  | some page0 =>
    rw [hp0] at h
    simp only [Option.bind_eq_some] at h
    obtain ⟨q, hq, h⟩ := h
    obtain ⟨hsa, hdisj⟩ := vm_frame_alloc_spec hp hq
    cases hp1 : vm_page_find q.1 cur addr with
    | none => rw [hp1] at h; exact absurd h (by simp)
    | some page =>
      cases hk : q.2 with
      | none => rw [hp1, hk] at h; exact absurd h (by simp)
      | some kpage =>
        rw [hp1, hk] at h
        simp only at h
        have haddr := addr_of_same_addrs hsa hp0 hp1
        rcases hdisj with ⟨hd, -⟩ | ⟨k, s0, hd, hfresh⟩
        · rw [hk] at hd; exact absurd hd (by simp)
        · rw [hk] at hd
          simp only [Option.some.injEq] at hd
          subst hd
          split at h
          · simp only [Option.map_eq_some'] at h
            obtain ⟨w, -, h⟩ := h
            rw [haddr] at h
            have hfresh2 : fresh_frame s0
                { q.1 with swap := w.1, memory := Function.update q.1.memory kpage w.2 }
                cur kpage page0.addr :=
              fresh_frame_of_fields hfresh rfl rfl (fun _ _ => rfl)
            split at h
            · rename_i hok
              subst h
              have hnone : pagedir_get_page
                  { q.1 with swap := w.1, memory := Function.update q.1.memory kpage w.2 }
                  cur page0.addr = none := install_ok_none hok
              have := pairing_install true hfresh2 hnone
              exact pairing_of_same_shape
                (same_shape_trans (same_shape_set_dirty _ _ _ _)
                  (same_shape_trans (same_shape_set_accessed _ _ _ _)
                    (same_shape_update_page _ _ _ _))) this
            · subst h
              exact pairing_free_fresh hfresh2
          · exact absurd h (by simp)

theorem load_file_pairing {s : State} {cur addr : Nat} {ok : Bool} {r : State × Bool}
    (hp : pairing s) (h : vm_page_load_file s cur addr ok = some r) : pairing r.1 := by
  unfold vm_page_load_file at h
  cases hp0 : vm_page_find s cur addr with
  | none => rw [hp0] at h; exact absurd h (by simp)
  | some page =>
    rw [hp0] at h
    simp only at h
    split at h
    · rename_i file _ _
      simp only [Option.bind_eq_some] at h
      obtain ⟨q, hq, h⟩ := h
      obtain ⟨-, hdisj⟩ := vm_frame_alloc_spec hp hq
      cases hk : q.2 with
      | none =>
        rw [hk] at h
        simp only [Option.some.injEq] at h
        subst h
        rcases hdisj with ⟨-, hd⟩ | ⟨k, s0, hd, -⟩
        · exact hd
        · rw [hk] at hd; exact absurd hd (by simp)
      | some kpage =>
        rw [hk] at h
        simp only [Option.map_eq_some'] at h
        obtain ⟨w, hw, h⟩ := h
        rcases hdisj with ⟨hd, -⟩ | ⟨k, s0, hd, hfresh⟩
        · rw [hk] at hd; exact absurd hd (by simp)
        · rw [hk] at hd
          simp only [Option.some.injEq] at hd
          subst hd
          have key : ∀ s1 : State, fresh_frame s0 s1 cur kpage page.addr →
              pairing (if install_ok s1 cur page.addr ok = true then
                  (pagedir_set_accessed
                    (pagedir_set_page s1 cur page.addr kpage page.file_writable)
                    cur page.addr true, true)
                else (frame_free s1 kpage, false)).1 := by
            intro s1 hs1
            split
            · rename_i hok
              exact pairing_of_same_shape (same_shape_set_accessed _ _ _ _)
                (pairing_install _ hs1 (install_ok_none hok))
            · exact pairing_free_fresh hs1
          split at hw
          · split at hw
            · split at hw
              · simp only [Option.some.injEq] at hw
                subst hw
                subst h
                exact key _ (fresh_frame_of_fields hfresh rfl rfl (fun _ _ => rfl))
              · simp only [Option.some.injEq] at hw
                subst hw
                subst h
                exact pairing_free_fresh
                  (fresh_frame_of_fields hfresh rfl rfl (fun _ _ => rfl))
            · exact absurd hw (by simp)
          · simp only [Option.some.injEq] at hw
            subst hw
            subst h
            exact key _ hfresh
    · exact absurd h (by simp)

theorem vm_page_insert_shape (s : State) (cur address : Nat) (raw : page) :
    same_shape s (vm_page_insert s cur address raw).1 := by
  unfold vm_page_insert
  split
  · exact same_shape_refl s
  · exact same_shape_update_thread s cur _ (fun _ => rfl)

theorem mmap_rollback_shape (s : State) (cur current_ofs : Nat) :
    ∀ t, mmap_rollback s cur current_ofs = some t → same_shape s t := by
  induction s, cur, current_ofs using mmap_rollback.induct with
  | case1 s cur ofs hpos hnone =>
    intro t h
    rw [mmap_rollback, dif_pos hpos, hnone] at h
    exact absurd h (by simp)
  | case2 s cur ofs hpos a ha ih =>
    intro t h
    rw [mmap_rollback, dif_pos hpos, ha] at h
    exact same_shape_trans (same_shape_update_thread s cur _ (by intro _; rfl)) (ih t h)
  | case3 s cur ofs hpos =>
    intro t h
    rw [mmap_rollback, dif_neg hpos] at h
    simp only [Option.some.injEq] at h
    exact h ▸ same_shape_refl s

theorem mmap_loop_shape (s : State) (cur file addr : Nat) (mapid : Int) (raw : Nat → page)
    (crb ofs : Nat) :
    ∀ r, mmap_loop s cur file addr mapid raw crb ofs = some r → same_shape s r.1 := by
  induction s, cur, file, addr, mapid, raw, crb, ofs using mmap_loop.induct with
  | case1 s cur file addr mapid raw crb ofs hpos old hold =>
    intro r h
    rw [mmap_loop, dif_pos hpos, hold] at h
    simp only [Option.map_eq_some'] at h
    obtain ⟨s1, hs1, hr⟩ := h
    rw [← hr]
    exact same_shape_trans (same_shape_update_thread s cur _ (by intro _; rfl))
      (mmap_rollback_shape _ _ _ s1 hs1)
  | case2 s cur file addr mapid raw crb ofs hpos hnone ih =>
    intro r h
    rw [mmap_loop, dif_pos hpos, hnone] at h
    refine same_shape_trans ?_ (ih r h)
    exact same_shape_trans (vm_page_insert_shape s cur _ _)
      (same_shape_trans (same_shape_update_page _ _ _ _)
        (same_shape_update_thread _ cur _ (by intro _; rfl)))
  | case3 s cur file addr mapid raw crb ofs hpos =>
    intro r h
    rw [mmap_loop, dif_neg hpos] at h
    simp only [Option.some.injEq] at h
    exact h ▸ same_shape_refl s

theorem sys_mmap_shape {s : State} {cur : Nat} {fd : Int} {addr : Nat} {raw : Nat → page}
    {r : State × Int} (h : sys_mmap s cur fd addr raw = some r) : same_shape s r.1 := by
  unfold sys_mmap at h
  split at h
  · simp only [Option.some.injEq] at h
    exact h ▸ same_shape_refl s
  · split at h
    · simp only [Option.some.injEq] at h
      exact h ▸ same_shape_refl s
    · split at h
      · simp only [Option.some.injEq] at h
        exact h ▸ same_shape_refl s
      · simp only [Option.map_eq_some'] at h
        obtain ⟨q, hq, hr⟩ := h
        rw [← hr]
        exact same_shape_trans (same_shape_update_thread s cur _ (by intro _; rfl))
          (mmap_loop_shape _ _ _ _ _ _ _ _ q hq)

theorem write_back_shape {s t : State} {cur : Nat} {p : page}
    (h : write_back s cur p = some t) : same_shape s t := by
  unfold write_back at h
  split at h
  · simp only [Option.some.injEq] at h
    subst h
    exact ⟨rfl, rfl, fun _ _ => rfl⟩
  · exact absurd h (by simp)

theorem munmap_walk_pairing (cur : Nat) (mapid : Int) (l : List Nat) :
    ∀ (s : State) (before : List Nat) (t : State), pairing s →
      munmap_walk s cur mapid before l = some t → pairing t := by
  induction l with
  | nil =>
    intro s before t hp h
    simp only [munmap_walk, Option.some.injEq] at h
    exact h ▸ hp
  | cons a rest ih =>
    intro s before t hp h
    unfold munmap_walk at h
    cases hpg : vm_page_find s cur a with
    | none => rw [hpg] at h; exact absurd h (by simp)
    | some page =>
      rw [hpg] at h
      simp only at h
      split at h
      · exact ih s _ t hp h
      · split at h
        · simp only [Option.some.injEq] at h
          exact h ▸ hp
        · cases hk : pagedir_get_page s cur page.addr with
          | none =>
            rw [hk] at h
            simp only at h
            exact ih _ _ t
              (pairing_of_same_shape (same_shape_update_thread s cur _ (by intro _; rfl)) hp) h
          | some kpage =>
            rw [hk] at h
            simp only [Option.bind_eq_some] at h
            obtain ⟨s1, hs1, h⟩ := h
            have hsh : same_shape s s1 := by
              split at hs1
              · exact write_back_shape hs1
              · simp only [Option.some.injEq] at hs1
                exact hs1 ▸ same_shape_refl s
            refine ih _ _ t ?_ h
            apply @pairing_unmap s1 _ cur page.addr kpage (pairing_of_same_shape hsh hp)
            · rw [hsh.2.2]; exact hk
            · rfl
            · rfl
            · intro tid b
              rw [get_page_update_thread _ _ _ (by intro _; rfl)]
              exact get_page_clear_page _ _ _ _ _

theorem vm_step_pairing {s t : State} {c : VMCall} (hp : pairing s)
    (h : vm_step s c = some t) : pairing t := by
  cases c with
  | insert cur address raw =>
    simp only [vm_step, Option.some.injEq] at h
    exact h ▸ pairing_of_same_shape (vm_page_insert_shape s cur address raw) hp
  | load_zero cur addr ok =>
    simp only [vm_step, Option.map_eq_some'] at h
    obtain ⟨r, hr, h⟩ := h
    exact h ▸ load_zero_pairing hp hr
  | load_file cur addr ok =>
    simp only [vm_step, Option.map_eq_some'] at h
    obtain ⟨r, hr, h⟩ := h
    exact h ▸ load_file_pairing hp hr
  | load_swap cur addr ok =>
    simp only [vm_step, Option.map_eq_some'] at h
    obtain ⟨r, hr, h⟩ := h
    exact h ▸ load_swap_pairing hp hr
  | mmap cur fd addr raw =>
    simp only [vm_step, Option.map_eq_some'] at h
    obtain ⟨r, hr, h⟩ := h
    exact h ▸ pairing_of_same_shape (sys_mmap_shape hr) hp
  | munmap cur mapid =>
    simp only [vm_step, sys_munmap] at h
    exact munmap_walk_pairing cur mapid _ s [] t hp h
  | touch cur addr write =>
    simp only [vm_step, Option.some.injEq] at h
    exact h ▸ pairing_of_same_shape (same_shape_bits s cur addr _ (fun _ => rfl)) hp
  | set_page cur addr p =>
    simp only [vm_step, Option.some.injEq] at h
    exact h ▸ pairing_of_same_shape (same_shape_update_page s cur addr _) hp

theorem vm_run_pairing (calls : List VMCall) :
    ∀ {s t : State}, pairing s → vm_run s calls = some t → pairing t := by
  induction calls with
  | nil =>
    intro s t hp h
    simp only [vm_run, Option.some.injEq] at h
    exact h ▸ hp
  | cons c cs ih =>
    intro s t hp h
    simp only [vm_run, Option.bind_eq_some] at h
    obtain ⟨u, hu, h⟩ := h
    exact ih (vm_step_pairing hp hu) h

theorem vm_boot_pairing {pool : List Nat} (hpool : pool.Nodup) (files : Nat → List Byte)
    (swap : SwapState) (fds : List (Int × Nat)) (max_fd : Int) :
    pairing (vm_boot pool files swap fds max_fd) := by
  refine ⟨?_, ?_, ?_, hpool, ?_⟩
  · intro f hf; simp [vm_boot] at hf
  · intro tid a k hk; simp [vm_boot, pagedir_get_page] at hk
  · simp [frames_distinct, vm_boot]
  · intro f hf; simp [vm_boot] at hf

/-- In a state where the pairing holds, a mapped address has exactly one frame,
and that frame is for the mapped kernel page. -/
theorem pairing_one_frame {s : State} (hp : pairing s) {tid a k : Nat}
    (hk : pagedir_get_page s tid a = some k) :
    s.frame_table.countP (fun f => f.thread == tid && f.upage == a) = 1 ∧
    frame.mk tid k a ∈ s.frame_table := by
  obtain ⟨h1, h2, h3, -⟩ := hp
  have hmem := h2 tid a k hk
  refine ⟨?_, hmem⟩
  have hnd : s.frame_table.Nodup := List.Nodup.of_map _ h3
  have hfilter : s.frame_table.filter (fun f => f.thread == tid && f.upage == a)
      = s.frame_table.filter (fun f => f == frame.mk tid k a) := by
    apply List.filter_congr
    intro f hf
    by_cases hfa : f.thread = tid ∧ f.upage = a
    · have := h1 f hf
      rw [hfa.1, hfa.2, hk] at this
      have hfk : f = frame.mk tid k a := by
        cases f
        simp only [frame.mk.injEq]
        simp only at hfa this
        exact ⟨hfa.1, (Option.some.inj this).symm, hfa.2⟩
      simp [hfk]
    · have hne : f ≠ frame.mk tid k a := by
        intro h; subst h; exact hfa ⟨rfl, rfl⟩
      have : (f == frame.mk tid k a) = false := by simpa using hne
      rw [this]
      simp only [Bool.and_eq_false_imp, beq_iff_eq, beq_eq_false_iff_ne, ne_eq]
      intro h1 h2
      exact hfa ⟨h1, h2⟩
  rw [List.countP_eq_length_filter, hfilter, ← List.countP_eq_length_filter, ← List.count]
  exact List.count_eq_one_of_mem hnd hmem

theorem find_update_thread (s : State) (tid : Nat) (f : thread → thread)
    (hf : ∀ t, (f t).page_table = t.page_table) (tid2 a : Nat) :
    vm_page_find (update_thread s tid f) tid2 a = vm_page_find s tid2 a := by
  simp only [vm_page_find, update_thread]
  by_cases ht : tid2 = tid
  · subst ht; simp [hf]
  · simp [Function.update_noteq ht]

theorem mmap_one_page :
    ∃ s1, sys_mmap one_file_boot 0 2 0x1000 (fun _ => anon_page 0) = some (s1, 0) ∧
      vm_page_find s1 0 0x1000 = some lazy_file_page ∧
      s1.frame_table = [] ∧ s1.free_pages = [100] ∧ s1.files 7 = [1, 2, 3] ∧
      (s1.threads 0).pagedir 0x1000 = none := by
  have hfd : thread_fd_get one_file_boot 0 2 = some 7 := by
    simp [thread_fd_get, one_file_boot, vm_boot]
  have hlen : (one_file_boot.files 7).length = 3 := by simp [one_file_boot, vm_boot]
  have hmap : (one_file_boot.threads 0).max_mapid = 0 := by simp [one_file_boot, vm_boot]
  simp only [sys_mmap, hfd, hlen, hmap]
  rw [mmap_loop]
  simp [vm_page_insert, update_thread, one_file_boot, vm_boot, WORD, PGSIZE]
  rw [mmap_loop]
  simp [vm_page_find, update_page, update_thread, lazy_file_page, anon_page, PGSIZE]


theorem load_file_one_page {s1 : State} (hfind : vm_page_find s1 0 0x1000 = some lazy_file_page)
    (hfree : s1.free_pages = [100]) (hfile : s1.files 7 = [1, 2, 3])
    (hpd : (s1.threads 0).pagedir 0x1000 = none) :
    ∃ t, vm_page_load_file s1 0 0x1000 true = some (t, true) ∧
      vm_page_find t 0 0x1000 = some lazy_file_page ∧
      pagedir_get_page t 0 0x1000 = some 100 ∧
      t.frame_table = s1.frame_table ++ [frame.mk 0 100 0x1000] := by
  have halloc : vm_frame_alloc s1 0 0x1000 false
      = some ({ s1 with free_pages := [],
                        frame_table := s1.frame_table ++ [frame.mk 0 100 0x1000] },
              some 100) := by
    simp [vm_frame_alloc, palloc_get_page, hfree]
  refine ⟨pagedir_set_accessed
    (pagedir_set_page
      { s1 with free_pages := [],
                frame_table := s1.frame_table ++ [frame.mk 0 100 0x1000],
                memory := Function.update s1.memory 100
                  (memset_tail (put_bytes (s1.memory 100) [1, 2, 3]) 3) }
      0 0x1000 100 true) 0 0x1000 true, ?_, ?_, ?_, rfl⟩
  · simp only [vm_page_load_file, hfind, lazy_file_page]
    simp [halloc, hfile, file_read_at, install_ok, pagedir_get_page, hpd, PGSIZE]
  · rw [pagedir_set_accessed, find_update_thread _ _ _ (by intro _; rfl), pagedir_set_page,
      find_update_thread _ _ _ (by intro _; rfl)]
    exact hfind
  · rw [(same_shape_set_accessed _ _ _ _).2.2, get_page_set_page]
    simp


theorem find_update_page_self (s : State) (tid addr : Nat) (f : page → page) :
    vm_page_find (update_page s tid addr f) tid addr = (vm_page_find s tid addr).map f := by
  simp [vm_page_find, update_page, update_thread]

theorem load_zero_resident {s t : State} {cur addr : Nat} {ok : Bool}
    (h : vm_page_load_zero s cur addr ok = some (t, true)) :
    ∃ p k, vm_page_find t cur addr = some p ∧ pagedir_get_page t cur p.addr = some k := by
  unfold vm_page_load_zero at h
  cases hp0 : vm_page_find s cur addr with
  | none => rw [hp0] at h; exact absurd h (by simp)
  | some page0 =>
    rw [hp0] at h
    simp only [Option.bind_eq_some] at h
    obtain ⟨q, -, h⟩ := h
    cases hp1 : vm_page_find q.1 cur addr with
    | none => rw [hp1] at h; exact absurd h (by simp)
    | some page =>
      rw [hp1] at h
      simp only at h
      split at h
      · cases hk : q.2 with
        | none => rw [hk] at h; simp at h
        | some kpage =>
          rw [hk] at h
          simp only at h
          split at h
          · simp only [Option.some.injEq, Prod.mk.injEq, and_true] at h
            subst h
            refine ⟨page, kpage, ?_, ?_⟩
            · rw [pagedir_set_accessed, find_update_thread _ _ _ (by intro _; rfl),
                pagedir_set_page, find_update_thread _ _ _ (by intro _; rfl)]
              exact hp1
            · rw [(same_shape_set_accessed _ _ _ _).2.2, get_page_set_page]
              simp
          · simp at h
      · exact absurd h (by simp)

theorem load_swap_resident {s t : State} {cur addr : Nat} {ok : Bool}
    (h : vm_page_load_swap s cur addr ok = some (t, true)) :
    ∃ p k, vm_page_find t cur addr = some p ∧ pagedir_get_page t cur p.addr = some k ∧
      p.valid = true := by
  unfold vm_page_load_swap at h
  cases hp0 : vm_page_find s cur addr with
  | none => rw [hp0] at h; exact absurd h (by simp)
  | some page0 =>
    rw [hp0] at h
    simp only [Option.bind_eq_some] at h
    obtain ⟨q, -, h⟩ := h
    cases hp1 : vm_page_find q.1 cur addr with
    | none => rw [hp1] at h; exact absurd h (by simp)
    | some page =>
      cases hk : q.2 with
      | none => rw [hp1, hk] at h; exact absurd h (by simp)
      | some kpage =>
        rw [hp1, hk] at h
        simp only at h
        split at h
        · simp only [Option.map_eq_some'] at h
          obtain ⟨w, -, h⟩ := h
          split at h
          · simp only [Prod.mk.injEq, and_true] at h
            subst h
            refine ⟨{ page with valid := true }, kpage, ?_, ?_, rfl⟩
            · rw [find_update_page_self, pagedir_set_accessed,
                find_update_thread _ _ _ (by intro _; rfl), pagedir_set_dirty,
                find_update_thread _ _ _ (by intro _; rfl), pagedir_set_page,
                find_update_thread _ _ _ (by intro _; rfl)]
              show (vm_page_find q.1 cur addr).map _ = _
              rw [hp1]
              rfl
            · rw [(same_shape_update_page _ _ _ _).2.2,
                (same_shape_set_accessed _ _ _ _).2.2, (same_shape_set_dirty _ _ _ _).2.2,
                get_page_set_page]
              simp
          · simp at h
        · exact absurd h (by simp)

theorem load_file_resident {s t : State} {cur addr : Nat} {ok : Bool} (hp : pairing s)
    (h : vm_page_load_file s cur addr ok = some (t, true)) :
    ∃ p k, vm_page_find t cur addr = some p ∧ pagedir_get_page t cur p.addr = some k := by
  unfold vm_page_load_file at h
  cases hp0 : vm_page_find s cur addr with
  | none => rw [hp0] at h; exact absurd h (by simp)
  | some page =>
    rw [hp0] at h
    simp only at h
    split at h
    · rename_i file _ _
      simp only [Option.bind_eq_some] at h
      obtain ⟨q, hq, h⟩ := h
      obtain ⟨hsa, -⟩ := vm_frame_alloc_spec hp hq
      obtain ⟨p1, hp1, haddr⟩ : ∃ p1, vm_page_find q.1 cur addr = some p1 ∧
          p1.addr = page.addr := by
        have := hsa cur addr
        rw [hp0] at this
        cases hf : vm_page_find q.1 cur addr with
        | none => rw [hf] at this; simp at this
        | some p1 => rw [hf] at this; exact ⟨p1, rfl, by simpa using this⟩
      cases hk : q.2 with
      | none => rw [hk] at h; simp at h
      | some kpage =>
        rw [hk] at h
        simp only [Option.map_eq_some'] at h
        obtain ⟨w, hw, h⟩ := h
        have key : ∀ s1 : State, vm_page_find s1 cur addr = some p1 →
            (if install_ok s1 cur page.addr ok = true then
                (pagedir_set_accessed
                  (pagedir_set_page s1 cur page.addr kpage page.file_writable)
                  cur page.addr true, true)
              else (frame_free s1 kpage, false)) = (t, true) →
            ∃ p k, vm_page_find t cur addr = some p ∧
              pagedir_get_page t cur p.addr = some k := by
          intro s1 hs1 heq
          split at heq
          · simp only [Prod.mk.injEq, and_true] at heq
            subst heq
            refine ⟨p1, kpage, ?_, ?_⟩
            · rw [pagedir_set_accessed, find_update_thread _ _ _ (by intro _; rfl),
                pagedir_set_page, find_update_thread _ _ _ (by intro _; rfl)]
              exact hs1
            · rw [(same_shape_set_accessed _ _ _ _).2.2, get_page_set_page, haddr]
              simp
          · simp at heq
        split at hw
        · split at hw
          · split at hw
            · simp only [Option.some.injEq] at hw
              subst hw
              exact key _ (by exact hp1) h
            · simp only [Option.some.injEq] at hw
              subst hw
              simp at h
          · exact absurd hw (by simp)
        · simp only [Option.some.injEq] at hw
          subst hw
          exact key _ hp1 h
    · exact absurd h (by simp)


/-- A mapping of one page is made in `one_file_boot` and its page is loaded from
the file. -/
theorem lazy_file_run :
    ∃ s1 t, vm_run one_file_boot [VMCall.mmap 0 2 0x1000 (fun _ => anon_page 0)] = some s1 ∧
      vm_page_load_file s1 0 0x1000 true = some (t, true) ∧
      vm_page_find t 0 0x1000 = some lazy_file_page ∧
      pagedir_get_page t 0 0x1000 = some 100 ∧
      t.frame_table = [frame.mk 0 100 0x1000] := by
  obtain ⟨s1, h1, h2, h3, h4, h5, h6⟩ := mmap_one_page
  obtain ⟨t, g1, g2, g3, g4⟩ := load_file_one_page h2 h4 h5 h6
  refine ⟨s1, t, by simp [vm_run, vm_step, h1], g1, g2, g3, ?_⟩
  rw [g4, h3]
  rfl

/-- C8, as stated, fails: after `sys_mmap` has made a lazy page `p` and
`vm_page_load_file` has returned true for it, `p` is resident and `p.loaded` is
still false (no loader assigns it); and `vm_frame_free`, called on its own for
the frame of `p`, leaves `p` resident with no frame in the frame table. -/
theorem resident_page_with_loaded_false :
    ∃ s1 t p k, vm_run one_file_boot [VMCall.mmap 0 2 0x1000 (fun _ => anon_page 0)] = some s1 ∧
      vm_page_load_file s1 0 0x1000 true = some (t, true) ∧
      vm_page_find t 0 0x1000 = some p ∧ pagedir_get_page t 0 p.addr = some k ∧
      p.loaded = false ∧
      pagedir_get_page (vm_frame_free t k) 0 p.addr = some k ∧
      (vm_frame_free t k).frame_table.countP (fun f => f.thread == 0 && f.upage == p.addr) = 0 := by
  obtain ⟨s1, t, h1, h2, h3, h4, h5⟩ := lazy_file_run
  have hfree : vm_frame_free t 100 = palloc_free_page { t with frame_table := [] } 100 := by
    simp [vm_frame_free, h5]
  refine ⟨s1, t, lazy_file_page, 100, h1, h2, h3, h4, rfl, ?_, ?_⟩
  · rw [hfree]
    exact h4
  · rw [hfree]
    rfl

/-- C8, amended: in every state reached from boot by `vm_page_insert`, the three
loaders, `sys_mmap`, `sys_munmap`, user accesses and assignments to members of
page-table entries, every page whose `addr` is mapped by its owner's page
directory has exactly one frame in the frame table with its thread and `upage`,
and that frame is for the mapped kernel page; this holds for a page right after
a loader returns true for it, and `valid` is true right after
`vm_page_load_swap` returns true. -/
theorem resident_page_has_one_frame (pool : List Nat) (files : Nat → List Byte)
    (swap : SwapState) (fds : List (Int × Nat)) (max_fd : Int) (calls : List VMCall)
    (t : State) (hpool : pool.Nodup)
    (hrun : vm_run (vm_boot pool files swap fds max_fd) calls = some t) :
    (∀ tid a p k, vm_page_find t tid a = some p → pagedir_get_page t tid p.addr = some k →
      t.frame_table.countP (fun f => f.thread == tid && f.upage == p.addr) = 1 ∧
      frame.mk tid k p.addr ∈ t.frame_table) ∧
    (∀ cur addr ok u,
      (vm_page_load_zero t cur addr ok = some (u, true) ∨
        vm_page_load_file t cur addr ok = some (u, true) ∨
        vm_page_load_swap t cur addr ok = some (u, true)) →
      ∃ p k, vm_page_find u cur addr = some p ∧ pagedir_get_page u cur p.addr = some k ∧
        u.frame_table.countP (fun f => f.thread == cur && f.upage == p.addr) = 1 ∧
        frame.mk cur k p.addr ∈ u.frame_table) ∧
    (∀ cur addr ok u, vm_page_load_swap t cur addr ok = some (u, true) →
      ∃ p, vm_page_find u cur addr = some p ∧ p.valid = true) := by
  have hp : pairing t := vm_run_pairing calls (vm_boot_pairing hpool files swap fds max_fd) hrun
  refine ⟨fun tid a p k _ hk => pairing_one_frame hp hk, ?_, ?_⟩
  · intro cur addr ok u h
    rcases h with h | h | h
    · obtain ⟨p, k, h1, h2⟩ := load_zero_resident h
      exact ⟨p, k, h1, h2, pairing_one_frame (load_zero_pairing hp h) h2⟩
    · obtain ⟨p, k, h1, h2⟩ := load_file_resident hp h
      exact ⟨p, k, h1, h2, pairing_one_frame (load_file_pairing hp h) h2⟩
    · obtain ⟨p, k, h1, h2, -⟩ := load_swap_resident h
      exact ⟨p, k, h1, h2, pairing_one_frame (load_swap_pairing hp h) h2⟩
  · intro cur addr ok u h
    obtain ⟨p, k, h1, -, h3⟩ := load_swap_resident h
    exact ⟨p, h1, h3⟩

/-- C8, amended, at the run that maps one page of a file and loads it. -/
theorem resident_page_has_one_frame_witness :
    [100].Nodup ∧
    ∃ s1 u p k, vm_run one_file_boot [VMCall.mmap 0 2 0x1000 (fun _ => anon_page 0)] = some s1 ∧
      vm_page_load_file s1 0 0x1000 true = some (u, true) ∧
      vm_page_find u 0 0x1000 = some p ∧ pagedir_get_page u 0 p.addr = some k ∧
      u.frame_table.countP (fun f => f.thread == 0 && f.upage == p.addr) = 1 ∧
      frame.mk 0 k p.addr ∈ u.frame_table := by
  obtain ⟨s1, u, h1, h2, -, -, -⟩ := lazy_file_run
  obtain ⟨p, k, g1, g2, g3, g4⟩ :=
    (resident_page_has_one_frame [100] (fun f => if f = 7 then [1, 2, 3] else [])
      (swap_init 16 (fun _ _ => 0)) [(2, 7)] 3
      [VMCall.mmap 0 2 0x1000 (fun _ => anon_page 0)] s1 (by simp) h1).2.1
      0 0x1000 true u (Or.inr (Or.inl h2))
  exact ⟨by simp, s1, u, p, k, h1, h2, g1, g2, g3, g4⟩

/-- C16: `vm_frame_free (k)` leaves the state unchanged (no frame removed, no page
freed) when no frame has `addr = k`; otherwise the frame table is `l1 ++ f :: l2`
with `f` the first frame whose `addr` is `k`, and afterwards it is `l1 ++ l2`
(the other frames in their order), the page `k` is back in the pool, and nothing
else has changed. -/
theorem vm_frame_free_spec (s : State) (k : Nat) :
    ((∀ f ∈ s.frame_table, f.addr ≠ k) ∧ vm_frame_free s k = s) ∨
    (∃ l1 f l2, s.frame_table = l1 ++ f :: l2 ∧ f.addr = k ∧ (∀ g ∈ l1, g.addr ≠ k) ∧
      vm_frame_free s k =
        { s with frame_table := l1 ++ l2, free_pages := k :: s.free_pages }) := by
  by_cases h : ∃ f ∈ s.frame_table, f.addr = k
  · right
    obtain ⟨f, hf, hfk⟩ := h
    obtain ⟨a, l1, l2, hl1, ha, hsplit, herase⟩ :=
      List.exists_of_eraseP (p := fun f => f.addr == k) hf (by simpa using hfk)
    have hak : a.addr = k := by simpa using ha
    have hfind : s.frame_table.find? (fun f => f.addr == k) = some a := by
      rw [hsplit, List.find?_append]
      have : l1.find? (fun f => f.addr == k) = none := by
        rw [List.find?_eq_none]
        intro x hx
        exact hl1 x hx
      rw [this]
      simp [hak]
    refine ⟨l1, a, l2, hsplit, hak, fun g hg => by simpa using hl1 g hg, ?_⟩
    simp only [vm_frame_free, hfind, herase, palloc_free_page, hak]
  · left
    have hne : ∀ f ∈ s.frame_table, f.addr ≠ k := fun f hf hfk => h ⟨f, hf, hfk⟩
    refine ⟨hne, ?_⟩
    have hfind : s.frame_table.find? (fun f => f.addr == k) = none := by
      rw [List.find?_eq_none]
      intro x hx
      simpa using hne x hx
    simp only [vm_frame_free, hfind]

/-- The second-chance loop changes nothing but accessed bits. -/
theorem evict_sweep_keeps (s : State) (e n : Nat) :
    ∀ r, evict_sweep s e n = some r →
      r.1.swap = s.swap ∧ r.1.memory = s.memory ∧ r.1.files = s.files ∧
      ∀ tid a, pagedir_is_dirty r.1 tid a = pagedir_is_dirty s tid a := by
  induction s, e, n using evict_sweep.induct with
  | case1 s e n he =>
    intro r h
    rw [evict_sweep] at h
    split at h
    · exact absurd h (by simp)
    · rename_i fr hfr
      rw [he] at hfr
      exact absurd hfr (by simp)
  | case2 s e n fr he ha ih =>
    intro r h
    rw [evict_sweep] at h
    split at h
    · exact absurd h (by simp)
    · rename_i fr2 hfr
      have : fr2 = fr := by rw [he] at hfr; exact (Option.some.inj hfr).symm
      subst this
      rw [dif_pos ha] at h
      obtain ⟨h1, h2, h3, h4⟩ := ih r h
      refine ⟨h1, h2, h3, fun tid a => ?_⟩
      rw [h4]
      simp only [pagedir_is_dirty, pagedir_set_accessed, update_thread]
      by_cases ht : tid = fr2.thread
      · subst ht
        by_cases hu : a = fr2.upage
        · subst hu
          simp only [Function.update_same]
          cases (s.threads fr2.thread).pagedir fr2.upage <;> rfl
        · simp [Function.update_noteq hu]
      · simp [Function.update_noteq ht]
  | case3 s e n fr he ha =>
    intro r h
    rw [evict_sweep] at h
    split at h
    · exact absurd h (by simp)
    · rename_i fr2 hfr
      have : fr2 = fr := by rw [he] at hfr; exact (Option.some.inj hfr).symm
      subst this
      rw [dif_neg ha] at h
      simp only [Option.some.injEq] at h
      subst h
      exact ⟨rfl, rfl, rfl, fun _ _ => rfl⟩

/-- After the `else` branch of the eviction loop, the page tables are those of
the state in which the victim's page was updated, and the victim's mapping is
gone. -/
theorem evict_tail_spec (s1 : State) (e : Nat) (fr : frame) (zero : Bool) :
    (∀ tid a, vm_page_find (palloc_get_page (palloc_free_page
        (pagedir_clear_page { s1 with frame_table := s1.frame_table.eraseIdx e }
          fr.thread fr.upage) fr.addr) zero).1 tid a = vm_page_find s1 tid a) ∧
    pagedir_get_page (palloc_get_page (palloc_free_page
        (pagedir_clear_page { s1 with frame_table := s1.frame_table.eraseIdx e }
          fr.thread fr.upage) fr.addr) zero).1 fr.thread fr.upage = none ∧
    (palloc_get_page (palloc_free_page
        (pagedir_clear_page { s1 with frame_table := s1.frame_table.eraseIdx e }
          fr.thread fr.upage) fr.addr) zero).1.swap = s1.swap ∧
    (palloc_get_page (palloc_free_page
        (pagedir_clear_page { s1 with frame_table := s1.frame_table.eraseIdx e }
          fr.thread fr.upage) fr.addr) zero).1.files = s1.files := by
  have hpg : ∀ u : State, (∀ tid a, vm_page_find (palloc_get_page u zero).1 tid a
      = vm_page_find u tid a) ∧
      (∀ tid a, pagedir_get_page (palloc_get_page u zero).1 tid a = pagedir_get_page u tid a) ∧
      (palloc_get_page u zero).1.swap = u.swap ∧ (palloc_get_page u zero).1.files = u.files := by
    intro u
    unfold palloc_get_page
    cases u.free_pages with
    | nil => exact ⟨fun _ _ => rfl, fun _ _ => rfl, rfl, rfl⟩
    | cons k rest => exact ⟨fun _ _ => rfl, fun _ _ => rfl, rfl, rfl⟩
  obtain ⟨h1, h2, h3, h4⟩ := hpg (palloc_free_page
    (pagedir_clear_page { s1 with frame_table := s1.frame_table.eraseIdx e }
      fr.thread fr.upage) fr.addr)
  refine ⟨fun tid a => ?_, ?_, ?_, ?_⟩
  · rw [h1]
    show vm_page_find (pagedir_clear_page _ fr.thread fr.upage) tid a = _
    rw [pagedir_clear_page, find_update_thread _ _ _ (by intro _; rfl)]
    rfl
  · rw [h2]
    show pagedir_get_page (pagedir_clear_page _ fr.thread fr.upage) _ _ = _
    rw [get_page_clear_page]
    simp
  · rw [h3]; rfl
  · rw [h4]; rfl

/-- The shape of a committed eviction: the write-back or swap-out gives a state
`s1` that differs from `s` in the victim's page record, the files and the swap
area only, and the rest is the removal of the frame and the allocation. -/
theorem evict_commit_form {s : State} {cur e : Nat} {zero : Bool} {r : State × Option Nat}
    (h : evict_commit s cur e zero = some r) :
    ∃ fr P s1, s.frame_table[e]? = some fr ∧ vm_page_find s fr.thread fr.upage = some P ∧
      s1.frame_table = s.frame_table ∧ s1.free_pages = s.free_pages ∧
      s1.memory = s.memory ∧
      (∀ tid, (s1.threads tid).pagedir = (s.threads tid).pagedir ∧
        (s1.threads tid).mmap_list = (s.threads tid).mmap_list ∧
        (s1.threads tid).max_mapid = (s.threads tid).max_mapid) ∧
      (∀ tid a, (vm_page_find s1 tid a).map (fun p => p.mapid) =
        (vm_page_find s tid a).map (fun p => p.mapid)) ∧
      r = palloc_get_page (palloc_free_page
        (pagedir_clear_page { s1 with frame_table := s1.frame_table.eraseIdx e }
          fr.thread fr.upage) fr.addr) zero := by
  have hup : ∀ (u : State) (tid addr : Nat) (f : page → page), (∀ p, (f p).mapid = p.mapid) →
      (update_page u tid addr f).frame_table = u.frame_table ∧
      (update_page u tid addr f).free_pages = u.free_pages ∧
      (update_page u tid addr f).memory = u.memory ∧
      (∀ tid2, ((update_page u tid addr f).threads tid2).pagedir = (u.threads tid2).pagedir ∧
        ((update_page u tid addr f).threads tid2).mmap_list = (u.threads tid2).mmap_list ∧
        ((update_page u tid addr f).threads tid2).max_mapid = (u.threads tid2).max_mapid) ∧
      (∀ tid2 a, (vm_page_find (update_page u tid addr f) tid2 a).map (fun p => p.mapid) =
        (vm_page_find u tid2 a).map (fun p => p.mapid)) := by
    intro u tid addr f hf
    refine ⟨rfl, rfl, rfl, fun tid2 => ?_, fun tid2 a => ?_⟩
    · simp only [update_page, update_thread]
      by_cases ht : tid2 = tid
      · subst ht; simp
      · simp [Function.update_noteq ht]
    · simp only [vm_page_find, update_page, update_thread]
      by_cases ht : tid2 = tid
      · subst ht
        by_cases ha : a = addr
        · subst ha
          simp only [Function.update_same]
          cases (u.threads tid2).page_table a with
          | none => rfl
          | some p => simp [hf]
        · simp [Function.update_noteq ha]
      · simp [Function.update_noteq ht]
  unfold evict_commit at h
  cases he : s.frame_table[e]? with
  | none => rw [he] at h; exact absurd h (by simp)
  | some fr =>
    rw [he] at h
    simp only at h
    cases hpg : vm_page_find s fr.thread fr.upage with
    | none => rw [hpg] at h; exact absurd h (by simp)
    | some page =>
      rw [hpg] at h
      simp only [Option.map_eq_some'] at h
      obtain ⟨s1, hs1, hr⟩ := h
      refine ⟨fr, page, s1, rfl, hpg, ?_⟩
      have key : s1.frame_table = s.frame_table ∧ s1.free_pages = s.free_pages ∧
          s1.memory = s.memory ∧
          (∀ tid, (s1.threads tid).pagedir = (s.threads tid).pagedir ∧
            (s1.threads tid).mmap_list = (s.threads tid).mmap_list ∧
            (s1.threads tid).max_mapid = (s.threads tid).max_mapid) ∧
          (∀ tid a, (vm_page_find s1 tid a).map (fun p => p.mapid) =
            (vm_page_find s tid a).map (fun p => p.mapid)) := by
        split at hs1
        · split at hs1
          · simp only [Option.map_eq_some'] at hs1
            obtain ⟨s0, hs0, hs01⟩ := hs1
            subst hs01
            unfold write_back at hs0
            split at hs0
            · simp only [Option.some.injEq] at hs0
              subst hs0
              exact hup _ _ _ _ (fun _ => rfl)
            · exact absurd hs0 (by simp)
          · simp only [Option.map_eq_some'] at hs1
            obtain ⟨q, -, hq⟩ := hs1
            subst hq
            exact hup _ _ _ _ (fun _ => rfl)
        · simp only [Option.some.injEq] at hs1
          subst hs1
          exact hup _ _ _ _ (fun _ => rfl)
      exact ⟨key.1, key.2.1, key.2.2.1, key.2.2.2.1, key.2.2.2.2, hr.symm⟩

/-- An eviction installs no mapping, and with `PAL_ZERO` the page it returns is
zeroed. -/
theorem evict_commit_unmapped {s : State} {cur e : Nat} {zero : Bool} {r : State × Option Nat}
    (h : evict_commit s cur e zero = some r) :
    (∀ tid a, pagedir_get_page s tid a = none → pagedir_get_page r.1 tid a = none) ∧
    (zero = true → ∀ k, r.2 = some k → r.1.memory k = fun _ => 0) := by
  obtain ⟨fr, P, s1, -, -, -, -, -, hpd, -, hr⟩ := evict_commit_form h
  subst hr
  constructor
  · intro tid a ha
    have h1 : pagedir_get_page (palloc_free_page
        (pagedir_clear_page { s1 with frame_table := s1.frame_table.eraseIdx e }
          fr.thread fr.upage) fr.addr) tid a = none := by
      show pagedir_get_page (pagedir_clear_page
          { s1 with frame_table := s1.frame_table.eraseIdx e } fr.thread fr.upage) tid a = none
      rw [get_page_clear_page]
      split
      · rfl
      · simp only [pagedir_get_page, (hpd tid).1]
        exact ha
    revert h1
    unfold palloc_get_page
    split <;> exact id
  · intro hz k hk
    subst hz
    revert hk
    simp only [palloc_get_page, palloc_free_page]
    intro hk
    simp only [Option.some.injEq] at hk
    subst hk
    simp

/-- An allocation installs no mapping, and with `PAL_ZERO` the page it returns is
zeroed. -/
theorem vm_frame_alloc_unmapped {s : State} {cur upage : Nat} {zero : Bool}
    {r : State × Option Nat} (h : vm_frame_alloc s cur upage zero = some r) :
    (∀ tid a, pagedir_get_page s tid a = none → pagedir_get_page r.1 tid a = none) ∧
    (zero = true → ∀ k, r.2 = some k → r.1.memory k = fun _ => 0) := by
  simp only [vm_frame_alloc, Option.map_eq_some'] at h
  obtain ⟨q, hq, hr⟩ := h
  have hq2 : (∀ tid a, pagedir_get_page s tid a = none → pagedir_get_page q.1 tid a = none) ∧
      (zero = true → ∀ k, q.2 = some k → q.1.memory k = fun _ => 0) := by
    have hg : ∀ tid a, pagedir_get_page (palloc_get_page s zero).1 tid a
        = pagedir_get_page s tid a := by
      intro tid a
      unfold palloc_get_page
      split <;> rfl
    split at hq
    · simp only [vm_frame_evict, Option.bind_eq_some] at hq
      obtain ⟨w, hw, hc⟩ := hq
      obtain ⟨hshape, -, -, -⟩ := evict_sweep_shape _ 0 0 w hw
      obtain ⟨c1, c2⟩ := evict_commit_unmapped hc
      refine ⟨fun tid a ha => c1 tid a ?_, c2⟩
      rw [hshape.2.2, hg]
      exact ha
    · rename_i kpage hk
      simp only [Option.some.injEq] at hq
      subst hq
      refine ⟨fun tid a ha => by rw [hg]; exact ha, ?_⟩
      intro hz k hk2
      subst hz
      revert hk hk2
      unfold palloc_get_page
      split
      · intro hk; exact absurd hk (by simp)
      · intro hk hk2
        simp only [Option.some.injEq] at hk hk2
        subst hk
        subst hk2
        simp
  subst hr
  cases hq2' : q.2 with
  | none => simpa [hq2'] using hq2
  | some k =>
    simp only [hq2']
    refine ⟨fun tid a ha => hq2.1 tid a ha, fun hz k2 hk2 => ?_⟩
    simp only [Option.some.injEq] at hk2
    subst hk2
    exact hq2.2 hz k hq2'
/-- C11: for a page record `p` with `loaded = false`, a file, `file_read_bytes = n ≤
PGSIZE` and no hardware mapping at `p.addr`, when the frame allocation returns
the page `kpage`, the file read delivers `n` bytes and `pagedir_set_page`
succeeds, `vm_page_load_file` returns true; `p.addr` is then mapped to `kpage`
with writability `p.file_writable` and the accessed bit set, and the frame holds
the file's bytes from `file_ofs` on in the positions below `n` and zero in the
positions from `n` to the end of the page. -/
theorem vm_page_load_file_spec (s : State) (cur addr : Nat) (p : page) (f : Nat)
    (r : State) (kpage : Nat)
    (hfind : vm_page_find s cur addr = some p) (hl : p.loaded = false)
    (hfile : p.file = some f) (hn : p.file_read_bytes ≤ PGSIZE)
    (hmap : pagedir_get_page s cur p.addr = none)
    (halloc : vm_frame_alloc s cur p.addr (decide (p.file_read_bytes = 0))
      = some (r, some kpage))
    (hread : (file_read_at (r.files f) p.file_read_bytes p.file_ofs).length
      = p.file_read_bytes) :
    ∃ t, vm_page_load_file s cur addr true = some (t, true) ∧
      (t.threads cur).pagedir p.addr = some ⟨kpage, p.file_writable, true, false⟩ ∧
      t.files = r.files ∧
      ∀ off : Fin PGSIZE, t.memory kpage off =
        if off.val < p.file_read_bytes then (t.files f).getD (p.file_ofs + off.val) 0
        else 0 := by
  obtain ⟨hun, hzero⟩ := vm_frame_alloc_unmapped halloc
  have hmap2 : pagedir_get_page r cur p.addr = none := hun cur p.addr hmap
  have hpte : ∀ u : State, ((pagedir_set_accessed
      (pagedir_set_page u cur p.addr kpage p.file_writable) cur p.addr true).threads cur).pagedir
        p.addr = some ⟨kpage, p.file_writable, true, false⟩ := by
    intro u
    simp [pagedir_set_accessed, pagedir_set_page, update_thread]
  by_cases h0 : p.file_read_bytes = 0
  · refine ⟨pagedir_set_accessed (pagedir_set_page r cur p.addr kpage p.file_writable)
      cur p.addr true, ?_, hpte r, rfl, ?_⟩
    · have halloc2 : vm_frame_alloc s cur p.addr true = some (r, some kpage) := by
        simpa [h0] using halloc
      simp only [vm_page_load_file, hfind, hl, hfile]
      simp [h0, halloc2, install_ok, hmap2]
    · intro off
      have hz := hzero (by simp [h0]) kpage rfl
      show r.memory kpage off = _
      rw [hz]
      simp [h0]
  · have hpos : p.file_read_bytes > 0 := Nat.pos_of_ne_zero h0
    refine ⟨pagedir_set_accessed (pagedir_set_page
      { r with
        memory := Function.update r.memory kpage
          (memset_tail (put_bytes (r.memory kpage)
            (file_read_at (r.files f) p.file_read_bytes p.file_ofs)) p.file_read_bytes) }
      cur p.addr kpage p.file_writable) cur p.addr true, ?_, hpte _, rfl, ?_⟩
    · simp only [vm_page_load_file, hfind, hl, hfile, halloc, Option.some_bind]
      rw [if_pos hpos, if_pos (by rw [hread]; exact hn), if_pos hread]
      have : install_ok
          { r with
            memory := Function.update r.memory kpage
              (memset_tail (put_bytes (r.memory kpage)
                (file_read_at (r.files f) p.file_read_bytes p.file_ofs)) p.file_read_bytes) }
          cur p.addr true = true := by
        simp only [install_ok, Bool.and_true, Option.isNone_iff_eq_none]
        exact hmap2
      simp only [Option.map_some', this, if_true]
    · intro off
      show Function.update r.memory kpage _ kpage off = _
      rw [Function.update_same]
      simp only [memset_tail, put_bytes, hread]
      split
      · rename_i hlt
        show (file_read_at (r.files f) p.file_read_bytes p.file_ofs).getD off.val 0 = _
        have hlt2 : off.val < (file_read_at (r.files f) p.file_read_bytes p.file_ofs).length := by
          rw [hread]; exact hlt
        simp only [file_read_at] at hlt2 ⊢
        have hlt3 : p.file_ofs + off.val < (r.files f).length := by
          simp only [List.length_take, List.length_drop] at hlt2
          omega
        rw [List.getD_eq_getElem _ _ hlt2, List.getElem_take, List.getElem_drop]
        exact (List.getD_eq_getElem (r.files f) 0 hlt3).symm
      · rfl
/-- C11 on the three-byte file mapped at `0x1000`: the frame holds `1, 2, 3` and
then zeros. -/
theorem vm_page_load_file_spec_witness :
    ∃ s1 t, sys_mmap one_file_boot 0 2 0x1000 (fun _ => anon_page 0) = some (s1, 0) ∧
      vm_page_load_file s1 0 0x1000 true = some (t, true) ∧
      (t.threads 0).pagedir 0x1000 = some ⟨100, true, true, false⟩ ∧
      ∀ off : Fin PGSIZE, t.memory 100 off =
        if off.val < 3 then [1, 2, 3].getD (0 + off.val) 0 else 0 := by
  obtain ⟨s1, h1, h2, h3, h4, h5, h6⟩ := mmap_one_page
  have halloc : vm_frame_alloc s1 0 0x1000 false
      = some ({ s1 with free_pages := [],
                        frame_table := s1.frame_table ++ [frame.mk 0 100 0x1000] },
              some 100) := by
    simp [vm_frame_alloc, palloc_get_page, h4]
  obtain ⟨t, g1, g2, g3, g4⟩ := vm_page_load_file_spec s1 0 0x1000 lazy_file_page 7
    { s1 with free_pages := [], frame_table := s1.frame_table ++ [frame.mk 0 100 0x1000] } 100
    h2 rfl rfl (by simp [lazy_file_page, PGSIZE]) (by simp [pagedir_get_page, lazy_file_page, h6])
    halloc (by simp [file_read_at, h5, lazy_file_page])
  refine ⟨s1, t, h1, g1, g2, fun off => ?_⟩
  have := g4 off
  rw [g3] at this
  simp only [h5] at this
  exact this

theorem update_thread_twice (s : State) (tid : Nat) (f g : thread → thread) :
    update_thread (update_thread s tid f) tid g = update_thread s tid (fun t => g (f t)) := by
  simp [update_thread]

theorem update_thread_self (s : State) (tid : Nat) (f : thread → thread)
    (h : f (s.threads tid) = s.threads tid) : update_thread s tid f = s := by
  simp [update_thread, h]

/-- Undoing `max_mapid++` gives the state back. -/
theorem max_mapid_inc_dec (s : State) (cur : Nat) :
    update_thread (update_thread s cur fun t => { t with max_mapid := t.max_mapid + 1 }) cur
      (fun t => { t with max_mapid := t.max_mapid - 1 }) = s := by
  rw [update_thread_twice]
  apply update_thread_self
  simp

/-- One turn of the rollback loop of `sys_mmap` undoes one turn of its main
loop. -/
theorem rollback_undoes_turn (s : State) (cur a : Nat) (raw : page) (f : page → page)
    (h : (s.threads cur).page_table a = none) :
    update_thread
      (update_thread
        (update_thread (update_page (vm_page_insert s cur a raw).1 cur a f) cur
          fun t => { t with mmap_list := t.mmap_list ++ [a] })
        cur fun t => { t with max_mapid := t.max_mapid - 1 })
      cur (fun t => { t with mmap_list := t.mmap_list.dropLast,
                             page_table := Function.update t.page_table a none })
    = update_thread s cur fun t => { t with max_mapid := t.max_mapid - 1 } := by
  simp only [vm_page_insert, h, update_page, update_thread_twice]
  simp only [update_thread, Function.update_same, Function.update_idem, List.dropLast_concat]
  congr 2
  have : Function.update (s.threads cur).page_table a none = (s.threads cur).page_table := by
    rw [← h]; exact Function.update_eq_self _ _
  simp [this]
/-- After one more turn of the main loop of `sys_mmap`, the rollback loop, run
with the offset one page further, comes to where the rollback from before that
turn comes to. -/
theorem rollback_after_turn (s : State) (cur a : Nat) (raw : page) (f : page → page)
    (ofs : Nat) (h : (s.threads cur).page_table a = none) :
    mmap_rollback
      (update_thread
        (update_thread (update_page (vm_page_insert s cur a raw).1 cur a f) cur
          fun t => { t with mmap_list := t.mmap_list ++ [a] })
        cur fun t => { t with max_mapid := t.max_mapid - 1 })
      cur (ofs + PGSIZE)
    = mmap_rollback (update_thread s cur fun t => { t with max_mapid := t.max_mapid - 1 })
        cur ofs := by
  rw [mmap_rollback]
  have hpos : ofs + PGSIZE > 0 := by simp [PGSIZE]
  rw [dif_pos hpos]
  have hlast : ((update_thread
        (update_thread (update_page (vm_page_insert s cur a raw).1 cur a f) cur
          fun t => { t with mmap_list := t.mmap_list ++ [a] })
        cur fun t => { t with max_mapid := t.max_mapid - 1 }).threads cur).mmap_list.getLast?
      = some a := by
    simp [update_thread]
  rw [hlast]
  simp only [Nat.add_sub_cancel]
  rw [rollback_undoes_turn s cur a raw f h]

/-- The main loop of `sys_mmap` fails and rolls back when one of the pages still
to be made has an entry already: it returns the state that the rollback from
the current state comes to. -/
theorem mmap_loop_fails (cur file addr : Nat) (mapid : Int) (raw : Nat → page) (orig : State)
    (s : State) (crb ofs : Nat) :
    mmap_rollback (update_thread s cur fun t => { t with max_mapid := t.max_mapid - 1 })
      cur ofs = some orig →
    (∃ d, d * PGSIZE < crb ∧
      (vm_page_find s cur ((addr + (ofs + d * PGSIZE)) % WORD)).isSome = true) →
    mmap_loop s cur file addr mapid raw crb ofs = some (orig, false) := by
  induction crb using Nat.strong_induction_on generalizing s ofs with
  | _ crb ih =>
    intro hroll hex
    obtain ⟨d, hd, hentry⟩ := hex
    have hpos : crb > 0 := by omega
    rw [mmap_loop, dif_pos hpos]
    cases hins : (s.threads cur).page_table ((addr + ofs) % WORD) with
    | some old =>
      simp only [vm_page_insert, hins, hroll, Option.map_some']
    | none =>
      have hd0 : d ≠ 0 := by
        intro h0
        subst h0
        simp [vm_page_find, hins] at hentry
      have hbig : PGSIZE < crb := by
        have : 1 ≤ d := Nat.pos_of_ne_zero hd0
        calc PGSIZE = 1 * PGSIZE := (Nat.one_mul _).symm
          _ ≤ d * PGSIZE := Nat.mul_le_mul_right _ this
          _ < crb := hd
      have hnone : (vm_page_insert s cur ((addr + ofs) % WORD) (raw ofs)).2 = none := by
        simp [vm_page_insert, hins]
      simp only [hnone]
      rw [if_neg (by omega)]
      apply ih (crb - PGSIZE) (by simp only [PGSIZE] at hbig ⊢; omega)
      · rw [rollback_after_turn s cur _ _ _ ofs hins]
        exact hroll
      · refine ⟨d - 1, ?_, ?_⟩
        · have : d * PGSIZE = (d - 1) * PGSIZE + PGSIZE := by
            rw [← Nat.succ_mul]
            congr 1
            omega
          omega
        · have harg : ofs + PGSIZE + (d - 1) * PGSIZE = ofs + d * PGSIZE := by
            have : d * PGSIZE = (d - 1) * PGSIZE + PGSIZE := by
              rw [← Nat.succ_mul]
              congr 1
              omega
            omega
          rw [harg]
          simp only [vm_page_find, vm_page_insert, hins, update_page, update_thread,
            Function.update_same] at hentry ⊢
          by_cases heq : (addr + (ofs + d * PGSIZE)) % WORD = (addr + ofs) % WORD
          · rw [heq]; simp
          · simp only [Function.update_noteq heq]
            exact hentry
/-- C13: when the descriptor is not mappable, or `addr` is not page-aligned, or
`addr` is null, or the file is empty, or one of the pages of the range (the
`k`-th, with `k·PGSIZE` below the length of the file: the first, a middle or the
last one) has an entry in the page table already, `sys_mmap` returns
`MAP_FAILED` and the state after the call is the state before it: `max_mapid`,
the page table with every member of every entry, and `mmap_list` are
unchanged. -/
theorem sys_mmap_failure_restores (s : State) (cur : Nat) (fd : Int) (addr : Nat)
    (raw : Nat → page)
    (h : thread_fd_get s cur fd = none ∨ addr % PGSIZE ≠ 0 ∨ addr = 0 ∨
      ∃ file, thread_fd_get s cur fd = some file ∧
        ((s.files file).length = 0 ∨
          ∃ k, k * PGSIZE < (s.files file).length ∧
            (vm_page_find s cur ((addr + k * PGSIZE) % WORD)).isSome = true)) :
    sys_mmap s cur fd addr raw = some (s, MAP_FAILED) := by
  unfold sys_mmap
  cases hfd : thread_fd_get s cur fd with
  | none => rfl
  | some file =>
    simp only
    by_cases hal : addr % PGSIZE ≠ 0 ∨ addr = 0
    · rw [if_pos hal]
    · rw [if_neg hal]
      by_cases hlen : (s.files file).length = 0
      · rw [if_pos hlen]
      · rw [if_neg hlen]
        have hk : ∃ k, k * PGSIZE < (s.files file).length ∧
            (vm_page_find s cur ((addr + k * PGSIZE) % WORD)).isSome = true := by
          rcases h with h | h | h | ⟨file2, h2, h⟩
          · rw [hfd] at h; exact absurd h (by simp)
          · exact absurd (Or.inl h) hal
          · exact absurd (Or.inr h) hal
          · rw [hfd] at h2
            simp only [Option.some.injEq] at h2
            subst h2
            rcases h with h | h
            · exact absurd h hlen
            · exact h
        obtain ⟨k, hk1, hk2⟩ := hk
        have hloop := mmap_loop_fails cur file addr (s.threads cur).max_mapid raw s
          (update_thread s cur fun t => { t with max_mapid := t.max_mapid + 1 })
          (s.files file).length 0
          (by
            rw [max_mapid_inc_dec, mmap_rollback]
            simp)
          ⟨k, hk1, by
            rw [Nat.zero_add]
            rw [find_update_thread _ _ _ (by intro _; rfl)]
            exact hk2⟩
        rw [hloop]
        rfl

/-- What the state `big_file_boot len` with one more page at `0x2000` holds. -/
theorem occupied_facts (len : Nat) :
    thread_fd_get (vm_page_insert (big_file_boot len) 0 0x2000 (anon_page 0)).1 0 2 = some 7 ∧
    ((vm_page_insert (big_file_boot len) 0 0x2000 (anon_page 0)).1.files 7).length = len ∧
    (vm_page_find (vm_page_insert (big_file_boot len) 0 0x2000 (anon_page 0)).1 0
      ((0x1000 + 1 * PGSIZE) % WORD)).isSome = true ∧
    (vm_page_find (vm_page_insert (big_file_boot len) 0 0x2000 (anon_page 0)).1 0
      0x1000).isSome = false := by
  refine ⟨?_, ?_, ?_, ?_⟩
  · simp [thread_fd_get, big_file_boot, vm_boot, vm_page_insert, update_thread]
  · simp [big_file_boot, vm_boot, vm_page_insert, update_thread]
  · simp [vm_page_find, big_file_boot, vm_boot, vm_page_insert, update_thread, PGSIZE, WORD]
  · simp [vm_page_find, big_file_boot, vm_boot, vm_page_insert, update_thread]

/-- C13 on a three-page mapping whose middle page, at `0x2000`, has an entry
already. -/
theorem sys_mmap_failure_restores_witness :
    thread_fd_get occupied_boot 0 2 = some 7 ∧
    1 * PGSIZE < (occupied_boot.files 7).length ∧
    (vm_page_find occupied_boot 0 ((0x1000 + 1 * PGSIZE) % WORD)).isSome = true ∧
    (vm_page_find occupied_boot 0 0x1000).isSome = false ∧
    sys_mmap occupied_boot 0 2 0x1000 (fun _ => anon_page 0)
      = some (occupied_boot, MAP_FAILED) := by
  obtain ⟨h1, h2, h3, h4⟩ := occupied_facts 9000
  have h2b : 1 * PGSIZE < (occupied_boot.files 7).length := by
    show 1 * PGSIZE < ((vm_page_insert (big_file_boot 9000) 0 0x2000 (anon_page 0)).1.files
      7).length
    rw [h2]
    simp [PGSIZE]
  exact ⟨h1, h2b, h3, h4,
    sys_mmap_failure_restores occupied_boot 0 2 0x1000 (fun _ => anon_page 0)
      (Or.inr (Or.inr (Or.inr ⟨7, h1, Or.inr ⟨1, h2b, h3⟩⟩)))⟩

/-- The main loop of `sys_mmap` runs to its end when none of the pages still to
be made has an entry: it appends their addresses to `mmap_list`, in order, and
gives the page table `PT`, which has the new entries and is the old one
elsewhere. -/
theorem mmap_loop_succeeds (cur file addr : Nat) (mapid : Int) (raw : Nat → page)
    (crb : Nat) : ∀ (s : State) (ofs : Nat), crb ≤ WORD →
    (∀ d, d * PGSIZE < crb →
      vm_page_find s cur ((addr + (ofs + d * PGSIZE)) % WORD) = none) →
    ∃ PT : Nat → Option page,
      mmap_loop s cur file addr mapid raw crb ofs =
        some (update_thread s cur (fun th =>
          { th with
            mmap_list := th.mmap_list ++
              (List.range ((crb + PGSIZE - 1) / PGSIZE)).map
                (fun d => (addr + (ofs + d * PGSIZE)) % WORD),
            page_table := PT }), true) ∧
      (∀ d, d * PGSIZE < crb → PT ((addr + (ofs + d * PGSIZE)) % WORD) =
        some { addr := (addr + (ofs + d * PGSIZE)) % WORD, loaded := false, mapid := mapid,
               file := some file, file_ofs := ofs + d * PGSIZE,
               file_read_bytes := min PGSIZE (crb - d * PGSIZE), file_writable := true,
               valid := true, swap_idx := (raw (ofs + d * PGSIZE)).swap_idx }) ∧
      (∀ a, (∀ d, d * PGSIZE < crb → a ≠ (addr + (ofs + d * PGSIZE)) % WORD) →
        PT a = (s.threads cur).page_table a) := by
  induction crb using Nat.strong_induction_on with
  | _ crb ih =>
    intro s ofs hW hfree
    by_cases hpos : crb > 0
    · have hins : (s.threads cur).page_table ((addr + ofs) % WORD) = none := by
        have := hfree 0 (by simpa using hpos)
        simpa [vm_page_find] using this
      have hnone : (vm_page_insert s cur ((addr + ofs) % WORD) (raw ofs)).2 = none := by
        simp [vm_page_insert, hins]
      have hsub : crb - (if crb < PGSIZE then crb else PGSIZE) = crb - PGSIZE := by
        split <;> omega
      have hdist : ∀ d, (d + 1) * PGSIZE < crb →
          (addr + (ofs + PGSIZE + d * PGSIZE)) % WORD ≠ (addr + ofs) % WORD := by
        intro d hd
        simp only [PGSIZE, WORD] at hd hW ⊢
        omega
      rw [mmap_loop, dif_pos hpos]
      simp only [hnone, hsub]
      obtain ⟨PT, h1, h2, h3⟩ := ih (crb - PGSIZE) (by simp only [PGSIZE]; omega)
        (update_thread
          (update_page
            (vm_page_insert s cur ((addr + ofs) % WORD) (raw ofs)).1
            cur ((addr + ofs) % WORD)
            fun p =>
              { p with loaded := false, mapid := mapid, file := some file,
                       file_ofs := ofs,
                       file_read_bytes := if crb < PGSIZE then crb else PGSIZE,
                       file_writable := true })
          cur fun t => { t with mmap_list := t.mmap_list ++ [(addr + ofs) % WORD] })
        (ofs + PGSIZE) (by omega)
        (by
          intro d hd
          have hd2 : (d + 1) * PGSIZE < crb := by rw [Nat.succ_mul]; omega
          have hold := hfree (d + 1) hd2
          have harg : ofs + (d + 1) * PGSIZE = ofs + PGSIZE + d * PGSIZE := by
            rw [Nat.succ_mul]; omega
          rw [harg] at hold
          simp only [vm_page_find, vm_page_insert, hins, update_page, update_thread,
            Function.update_same] at hold ⊢
          simp only [Function.update_noteq (hdist d hd2)]
          exact hold)
      refine ⟨PT, ?_, ?_, ?_⟩
      · rw [h1]
        have hn : (crb + PGSIZE - 1) / PGSIZE = (crb - PGSIZE + PGSIZE - 1) / PGSIZE + 1 := by
          simp only [PGSIZE]; omega
        rw [hn, List.range_succ_eq_map, List.map_cons, List.map_map]
        simp only [vm_page_insert, hins, update_page, update_thread_twice]
        congr 2
        simp only [update_thread, Function.update_same, Function.update_idem]
        congr 2
        funext th
        simp only [Nat.zero_mul, Nat.add_zero, List.append_assoc, List.singleton_append,
          thread.mk.injEq, true_and, and_true]
        have hfun : (fun d => (addr + (ofs + PGSIZE + d * PGSIZE)) % WORD)
            = ((fun d => (addr + (ofs + d * PGSIZE)) % WORD) ∘ Nat.succ) := by
          funext d
          simp only [Function.comp, Nat.succ_mul]
          congr 2
          omega
        rw [hfun]
      · intro d hd
        cases d with
        | zero =>
          have := h3 ((addr + ofs) % WORD) (by
            intro d2 hd2
            have hd3 : (d2 + 1) * PGSIZE < crb := by rw [Nat.succ_mul]; omega
            exact (hdist d2 hd3).symm)
          simp only [Nat.zero_mul, Nat.add_zero, Nat.sub_zero]
          rw [this]
          simp only [vm_page_insert, hins, update_page, update_thread, Function.update_same,
            Option.map_some', Nat.min_def]
          congr 2
          split <;> split <;> omega
        | succ d =>
          have hd3 : d * PGSIZE < crb - PGSIZE := by rw [Nat.succ_mul] at hd; omega
          have := h2 d hd3
          have harg : ofs + (d + 1) * PGSIZE = ofs + PGSIZE + d * PGSIZE := by
            rw [Nat.succ_mul]; omega
          have hcrb : crb - (d + 1) * PGSIZE = crb - PGSIZE - d * PGSIZE := by
            rw [Nat.succ_mul]; omega
          rw [harg, hcrb]
          exact this
      · intro a ha
        have := h3 a (by
          intro d hd
          have hd3 : (d + 1) * PGSIZE < crb := by rw [Nat.succ_mul]; omega
          have := ha (d + 1) hd3
          have harg : ofs + (d + 1) * PGSIZE = ofs + PGSIZE + d * PGSIZE := by
            rw [Nat.succ_mul]; omega
          rw [harg] at this
          exact this)
        rw [this]
        have ha0 : a ≠ (addr + ofs) % WORD := by
          have := ha 0 (by simpa using hpos)
          simpa using this
        simp only [vm_page_insert, hins, update_page, update_thread, Function.update_same,
          Function.update_noteq ha0]
    · have h0 : crb = 0 := by omega
      subst h0
      refine ⟨(s.threads cur).page_table, ?_, fun d hd => absurd hd (Nat.not_lt_zero _),
        fun _ _ => rfl⟩
      rw [mmap_loop, dif_neg hpos]
      congr 2
      symm
      apply update_thread_self
      simp [PGSIZE]
/-- The pages of a file of `len` bytes hold `len` bytes in all. -/
theorem read_bytes_sum (len : Nat) :
    ((List.range ((len + PGSIZE - 1) / PGSIZE)).map
      (fun k => min PGSIZE (len - k * PGSIZE))).sum = len := by
  induction len using Nat.strong_induction_on with
  | _ len ih =>
    by_cases hpos : len > 0
    · have hn : (len + PGSIZE - 1) / PGSIZE = (len - PGSIZE + PGSIZE - 1) / PGSIZE + 1 := by
        simp only [PGSIZE]; omega
      rw [hn, List.range_succ_eq_map, List.map_cons, List.map_map, List.sum_cons]
      have hfun : ((fun k => min PGSIZE (len - k * PGSIZE)) ∘ Nat.succ)
          = fun k => min PGSIZE (len - PGSIZE - k * PGSIZE) := by
        funext k
        simp only [Function.comp, Nat.succ_mul]
        have : len - (k * PGSIZE + PGSIZE) = len - PGSIZE - k * PGSIZE := by omega
        rw [this]
      rw [hfun, ih (len - PGSIZE) (by simp only [PGSIZE]; omega)]
      simp only [Nat.zero_mul, Nat.sub_zero, Nat.min_def]
      split <;> omega
    · have h0 : len = 0 := by omega
      subst h0
      simp [PGSIZE]

/-- C12: for a mappable descriptor of a file of length `L > 0` (at most `2^32`) and
a page-aligned `addr ≠ 0` such that no address `addr + k·PGSIZE` with
`k·PGSIZE < L` has an entry in the page table, `sys_mmap` returns the old
`max_mapid`, `m`, and sets `max_mapid` to `m + 1`; it appends to `mmap_list`,
in increasing `k`, the `⌈L / PGSIZE⌉` addresses `addr + k·PGSIZE`, and the page
table `PT` has at each of them an entry with `loaded = false`, `mapid = m`,
`file_ofs = k·PGSIZE`, `file_read_bytes = min (PGSIZE, L − k·PGSIZE)` and
`file_writable = true`, and is unchanged elsewhere; the values of
`file_read_bytes` sum to `L`. -/
theorem sys_mmap_success (s : State) (cur : Nat) (fd : Int) (addr file : Nat)
    (raw : Nat → page)
    (hfd : thread_fd_get s cur fd = some file)
    (hlen : 0 < (s.files file).length) (hW : (s.files file).length ≤ WORD)
    (hal : addr % PGSIZE = 0) (hnz : addr ≠ 0)
    (hfree : ∀ k, k * PGSIZE < (s.files file).length →
      vm_page_find s cur ((addr + k * PGSIZE) % WORD) = none) :
    ∃ PT : Nat → Option page,
      sys_mmap s cur fd addr raw =
        some (update_thread s cur (fun th =>
          { th with
            max_mapid := th.max_mapid + 1,
            mmap_list := th.mmap_list ++
              (List.range (((s.files file).length + PGSIZE - 1) / PGSIZE)).map
                (fun k => (addr + k * PGSIZE) % WORD),
            page_table := PT }), (s.threads cur).max_mapid) ∧
      (∀ k, k < ((s.files file).length + PGSIZE - 1) / PGSIZE →
        PT ((addr + k * PGSIZE) % WORD) =
          some { addr := (addr + k * PGSIZE) % WORD, loaded := false,
                 mapid := (s.threads cur).max_mapid, file := some file,
                 file_ofs := k * PGSIZE,
                 file_read_bytes := min PGSIZE ((s.files file).length - k * PGSIZE),
                 file_writable := true, valid := true,
                 swap_idx := (raw (k * PGSIZE)).swap_idx }) ∧
      (∀ a, (∀ k, k < ((s.files file).length + PGSIZE - 1) / PGSIZE →
          a ≠ (addr + k * PGSIZE) % WORD) →
        PT a = (s.threads cur).page_table a) ∧
      ((List.range (((s.files file).length + PGSIZE - 1) / PGSIZE)).map
        (fun k => ((PT ((addr + k * PGSIZE) % WORD)).map
          (fun p => p.file_read_bytes)).getD 0)).sum = (s.files file).length := by
  have hcount : ∀ k, k < ((s.files file).length + PGSIZE - 1) / PGSIZE ↔
      k * PGSIZE < (s.files file).length := by
    intro k
    simp only [PGSIZE]
    omega
  obtain ⟨PT, h1, h2, h3⟩ := mmap_loop_succeeds cur file addr (s.threads cur).max_mapid raw
    (s.files file).length
    (update_thread s cur fun t => { t with max_mapid := t.max_mapid + 1 }) 0 hW
    (by
      intro d hd
      rw [Nat.zero_add, find_update_thread _ _ _ (by intro _; rfl)]
      exact hfree d hd)
  simp only [Nat.zero_add] at h1 h2 h3
  have hpt : ((update_thread s cur fun t => { t with max_mapid := t.max_mapid + 1 }).threads
      cur).page_table = (s.threads cur).page_table := by
    simp [update_thread]
  rw [hpt] at h3
  refine ⟨PT, ?_, fun k hk => h2 k ((hcount k).1 hk),
    fun a ha => h3 a (fun d hd => ha d ((hcount d).2 hd)), ?_⟩
  · unfold sys_mmap
    simp only [hfd]
    rw [if_neg (by
      intro h
      rcases h with h | h
      · exact h hal
      · exact hnz h), if_neg (by omega), h1]
    simp only [Option.map_some', if_true, update_thread_twice]
  · refine Eq.trans ?_ (read_bytes_sum (s.files file).length)
    congr 1
    apply List.map_congr_left
    intro k hk
    rw [List.mem_range] at hk
    rw [h2 k ((hcount k).1 hk)]
    rfl
/-- What the state `big_file_boot len` holds. -/
theorem big_file_boot_facts (len : Nat) :
    thread_fd_get (big_file_boot len) 0 2 = some 7 ∧
    ((big_file_boot len).files 7).length = len ∧
    (∀ a, vm_page_find (big_file_boot len) 0 a = none) ∧
    ((big_file_boot len).threads 0).max_mapid = 0 ∧
    ((big_file_boot len).threads 0).mmap_list = [] := by
  refine ⟨?_, ?_, fun a => rfl, rfl, rfl⟩
  · simp [thread_fd_get, big_file_boot, vm_boot]
  · simp [big_file_boot, vm_boot]

/-- C12 on a file of 6000 bytes mapped at `0x1000`: two pages, of 4096 and 1904
bytes, with `mapid` 0, and `max_mapid` becomes 1. -/
theorem sys_mmap_success_witness :
    ∃ t, sys_mmap (big_file_boot 6000) 0 2 0x1000 (fun _ => anon_page 0) = some (t, 0) ∧
      (t.threads 0).max_mapid = 1 ∧ (t.threads 0).mmap_list = [0x1000, 0x2000] ∧
      (vm_page_find t 0 0x1000).map (fun p => (p.loaded, p.mapid, p.file_ofs, p.file_read_bytes))
        = some (false, 0, 0, 4096) ∧
      (vm_page_find t 0 0x2000).map (fun p => (p.loaded, p.mapid, p.file_ofs, p.file_read_bytes))
        = some (false, 0, 4096, 1904) := by
  obtain ⟨hfd, hlen, hfree, hmax, hlist⟩ := big_file_boot_facts 6000
  obtain ⟨PT, h1, h2, -, -⟩ := sys_mmap_success (big_file_boot 6000) 0 2 0x1000 7
    (fun _ => anon_page 0) hfd (by rw [hlen]; decide) (by rw [hlen]; simp [WORD])
    (by simp [PGSIZE]) (by decide) (fun k _ => hfree _)
  rw [hlen] at h1 h2
  have hn : (6000 + PGSIZE - 1) / PGSIZE = 2 := by simp [PGSIZE]
  rw [hn] at h1 h2
  rw [hmax] at h1 h2
  have p0 := h2 0 (by decide)
  have p1 := h2 1 (by decide)
  refine ⟨_, h1, ?_, ?_, ?_, ?_⟩
  · simp [update_thread, hmax]
  · simp [update_thread, hlist, List.range_succ, PGSIZE, WORD]
  · simp only [vm_page_find, update_thread, Function.update_same]
    simp only [PGSIZE, WORD] at p0
    norm_num at p0
    rw [p0]
    rfl
  · simp only [vm_page_find, update_thread, Function.update_same]
    simp only [PGSIZE, WORD] at p1
    norm_num at p1
    rw [p1]
    rfl

theorem vm_frame_free_threads (s : State) (k : Nat) : (vm_frame_free s k).threads = s.threads := by
  unfold vm_frame_free
  split <;> rfl

theorem write_back_threads {s t : State} {cur : Nat} {p : page}
    (h : write_back s cur p = some t) : t.threads = s.threads := by
  unfold write_back at h
  split at h
  · simp only [Option.some.injEq] at h
    subst h
    rfl
  · exact absurd h (by simp)

/-- What the removal of one entry by `sys_munmap` leaves in the thread: the list
it was given, and the page table without the entry. -/
theorem munmap_remove_thread (s1 : State) (cur pa a k : Nat) (l : List Nat) :
    (∀ u : State, u = vm_frame_free
        (update_thread (pagedir_clear_page s1 cur pa) cur fun t =>
          { t with mmap_list := l, page_table := Function.update t.page_table a none }) k ∨
      u = update_thread s1 cur (fun t =>
          { t with mmap_list := l, page_table := Function.update t.page_table a none }) →
      (u.threads cur).mmap_list = l ∧ (u.threads cur).max_mapid = (s1.threads cur).max_mapid ∧
      vm_page_find u cur a = none ∧
      ∀ b, b ≠ a → vm_page_find u cur b = vm_page_find s1 cur b) := by
  intro u hu
  rcases hu with hu | hu
  · subst hu
    simp only [vm_page_find, vm_frame_free_threads]
    simp only [update_thread, pagedir_clear_page, Function.update_same, true_and]
    exact fun b hb => Function.update_noteq hb _ _
  · subst hu
    simp only [vm_page_find, update_thread, Function.update_same, true_and]
    exact fun b hb => Function.update_noteq hb _ _
/-- What a walk of `sys_munmap` that returns leaves: `mmap_list` is a list of
addresses of pages with a smaller `mapid`, followed by nothing or by a list
whose first page has a larger `mapid`. -/
theorem munmap_walk_leaves (cur : Nat) (m : Int) (l : List Nat) :
    ∀ (s : State) (before : List Nat) (t : State),
      munmap_walk s cur m before l = some t →
      (s.threads cur).mmap_list = before ++ l → (before ++ l).Nodup →
      (∀ a ∈ before, ∃ p, vm_page_find s cur a = some p ∧ p.mapid < m) →
      ∃ before2 rest2, (t.threads cur).mmap_list = before2 ++ rest2 ∧
        (∀ a ∈ before2, ∃ p, vm_page_find t cur a = some p ∧ p.mapid < m) ∧
        (rest2 = [] ∨ ∃ a r p, rest2 = a :: r ∧ vm_page_find t cur a = some p ∧ p.mapid > m) := by
  induction l with
  | nil =>
    intro s before t h hl _ hb
    simp only [munmap_walk, Option.some.injEq] at h
    subst h
    exact ⟨before, [], hl, hb, Or.inl rfl⟩
  | cons a rest ih =>
    intro s before t h hl hnd hb
    have hna : a ∉ before := by
      intro ha
      have := List.nodup_append.1 hnd
      exact this.2.2 ha (List.mem_cons_self _ _)
    have hnd2 : (before ++ rest).Nodup := by
      have := List.nodup_append.1 hnd
      exact List.nodup_append.2 ⟨this.1, (List.nodup_cons.1 this.2.1).2,
        fun x hx hy => this.2.2 hx (List.mem_cons_of_mem _ hy)⟩
    rw [munmap_walk] at h
    cases hp : vm_page_find s cur a with
    | none => rw [hp] at h; exact absurd h (by simp)
    | some page =>
      rw [hp] at h
      simp only at h
      by_cases hlt : page.mapid < m
      · rw [if_pos hlt] at h
        apply ih s (before ++ [a]) t h (by rw [hl]; simp) (by simpa using hnd)
        intro b hb2
        rcases List.mem_append.1 hb2 with hb3 | hb3
        · exact hb b hb3
        · rw [List.mem_singleton] at hb3
          subst hb3
          exact ⟨page, hp, hlt⟩
      · rw [if_neg hlt] at h
        by_cases hgt : page.mapid > m
        · rw [if_pos hgt] at h
          simp only [Option.some.injEq] at h
          subst h
          exact ⟨before, a :: rest, hl, hb, Or.inr ⟨a, rest, page, rfl, hp, hgt⟩⟩
        · rw [if_neg hgt] at h
          have key : ∀ u : State, (u.threads cur).mmap_list = before ++ rest →
              (∀ b, b ≠ a → vm_page_find u cur b = vm_page_find s cur b) →
              munmap_walk u cur m before rest = some t →
              ∃ before2 rest2, (t.threads cur).mmap_list = before2 ++ rest2 ∧
                (∀ a ∈ before2, ∃ p, vm_page_find t cur a = some p ∧ p.mapid < m) ∧
                (rest2 = [] ∨
                  ∃ a r p, rest2 = a :: r ∧ vm_page_find t cur a = some p ∧ p.mapid > m) := by
            intro u hu1 hu2 hw
            exact ih u before t hw hu1 hnd2 (fun b hb2 => by
              rw [hu2 b (fun h => hna (h ▸ hb2))]
              exact hb b hb2)
          cases hk : pagedir_get_page s cur page.addr with
          | none =>
            rw [hk] at h
            simp only at h
            obtain ⟨g1, -, -, g4⟩ := munmap_remove_thread s cur page.addr a 0 (before ++ rest)
              _ (Or.inr rfl)
            exact key _ g1 g4 h
          | some kpage =>
            rw [hk] at h
            simp only [Option.bind_eq_some] at h
            obtain ⟨s1, hs1, hw⟩ := h
            have hth : s1.threads = s.threads := by
              split at hs1
              · exact write_back_threads hs1
              · simp only [Option.some.injEq] at hs1
                rw [hs1]
            obtain ⟨g1, -, -, g4⟩ := munmap_remove_thread s1 cur page.addr a kpage
              (before ++ rest) _ (Or.inl rfl)
            refine key _ g1 (fun b hb2 => ?_) hw
            rw [g4 b hb2]
            simp only [vm_page_find, hth]

/-- A walk of `sys_munmap` over pages with a smaller `mapid`, followed by nothing
or by a page with a larger `mapid`, changes nothing. -/
theorem munmap_walk_skips (cur : Nat) (m : Int) (t : State) (rest2 : List Nat)
    (hrest : rest2 = [] ∨ ∃ a r p, rest2 = a :: r ∧ vm_page_find t cur a = some p ∧ p.mapid > m)
    (l : List Nat) :
    ∀ before : List Nat, (∀ a ∈ l, ∃ p, vm_page_find t cur a = some p ∧ p.mapid < m) →
      munmap_walk t cur m before (l ++ rest2) = some t := by
  induction l with
  | nil =>
    intro before _
    rcases hrest with h | ⟨a, r, p, h, hp, hgt⟩
    · subst h
      rfl
    · subst h
      rw [List.nil_append, munmap_walk, hp]
      simp only
      rw [if_neg (by omega), if_pos hgt]
  | cons a l ih =>
    intro before hl
    obtain ⟨p, hp, hlt⟩ := hl a (List.mem_cons_self _ _)
    rw [List.cons_append, munmap_walk, hp]
    simp only
    rw [if_pos hlt]
    exact ih _ (fun b hb => hl b (List.mem_cons_of_mem _ hb))
/-- C14: when `sys_munmap (m)` returns, a second `sys_munmap (m)` returns the very
state that the first one reached (threads with their page tables, `mmap_list`
and hardware mappings, frame table, pool, swap, memory and files): it is a
no-op.  The list `mmap_list` holds no page twice, as a `struct list` cannot;
that it is sorted by `mapid` is not needed. -/
theorem sys_munmap_idempotent (s : State) (cur : Nat) (m : Int) (t : State)
    (hnd : (s.threads cur).mmap_list.Nodup)
    (h : sys_munmap s cur m = some t) : sys_munmap t cur m = some t := by
  unfold sys_munmap at h ⊢
  obtain ⟨before2, rest2, h1, h2, h3⟩ := munmap_walk_leaves cur m _ s [] t h rfl
    (by simpa using hnd) (fun a ha => absurd ha (List.not_mem_nil a))
  rw [h1]
  exact munmap_walk_skips cur m t rest2 h3 before2 [] h2

/-- C14 on the state with one mapping: the first call removes it, the second
changes nothing. -/
theorem sys_munmap_idempotent_witness :
    (mapped_state.threads 0).mmap_list.Nodup ∧
    ∃ t, sys_munmap mapped_state 0 0 = some t ∧ (t.threads 0).mmap_list = [] ∧
      vm_page_find t 0 0x1000 = none ∧ sys_munmap t 0 0 = some t := by
  have hnd : (mapped_state.threads 0).mmap_list.Nodup := by
    simp [mapped_state, mapped_thread]
  have h : sys_munmap mapped_state 0 0 = some (update_thread mapped_state 0 fun t =>
      { t with mmap_list := [] ++ [],
               page_table := Function.update t.page_table 0x1000 none }) := by
    simp [sys_munmap, munmap_walk, mapped_state, mapped_thread, vm_page_find, lazy_file_page,
      pagedir_get_page, update_thread]
  exact ⟨hnd, _, h, by simp [update_thread], by simp [vm_page_find, update_thread],
    sys_munmap_idempotent mapped_state 0 0 _ hnd h⟩

theorem evict_sweep_step_accessed {s : State} {e : Nat} {fr : frame} (n : Nat)
    (he : s.frame_table[e]? = some fr)
    (ha : pagedir_is_accessed s fr.thread fr.upage = true) :
    evict_sweep s e n = evict_sweep (pagedir_set_accessed s fr.thread fr.upage false)
      (if e + 1 = s.frame_table.length then 0 else e + 1) (n + 1) := by
  rw [evict_sweep]
  split
  · rename_i h
    rw [he] at h
    exact absurd h (by simp)
  · rename_i fr2 h
    have : fr2 = fr := by rw [he] at h; exact (Option.some.inj h).symm
    subst this
    rw [dif_pos ha]

theorem evict_sweep_step_clear {s : State} {e : Nat} {fr : frame} (n : Nat)
    (he : s.frame_table[e]? = some fr)
    (ha : pagedir_is_accessed s fr.thread fr.upage = false) :
    evict_sweep s e n = some (s, e, n + 1) := by
  rw [evict_sweep]
  split
  · rename_i h
    rw [he] at h
    exact absurd h (by simp)
  · rename_i fr2 h
    have : fr2 = fr := by rw [he] at h; exact (Option.some.inj h).symm
    subst this
    rw [dif_neg (by simp [ha])]

/-- The bytes that `file_write_at` takes from a page that holds the byte `c`
everywhere. -/
theorem read_user_const (s : State) (tid uaddr n : Nat) (e : pte) (c : Byte)
    (hpd : (s.threads tid).pagedir uaddr = some e) (hmem : s.memory e.kpage = fun _ => c)
    (hn : n ≤ PGSIZE) : read_user s tid uaddr n = some (List.replicate n c) := by
  simp only [read_user, hpd, hmem, hn, if_true, Option.some.injEq]
  rw [List.map_const', List.take_replicate, List.length_finRange, Nat.min_eq_left hn]

/-- C20, as stated, fails: in `two_thread_state` the eviction run by thread 0
takes the frame of thread 1 (kernel page 100, bytes `0xAA`, dirty, mapped from
file 7) as victim, and writes to file 7 the bytes `0xBB` that thread 0 has at
the user address `0x1000`, not the bytes of the victim frame; run by the owner,
thread 1, the same eviction writes `0xAA`. -/
theorem evict_writes_bytes_of_running_thread :
    (∃ t n, evict_sweep two_thread_state 0 0 = some (t, 0, n) ∧
      t.frame_table[0]? = some (frame.mk 1 100 0x1000) ∧
      vm_page_find t 1 0x1000 = some resident_file_page ∧
      pagedir_is_dirty t 1 0x1000 = true) ∧
    (∀ off, two_thread_state.memory 100 off = 0xAA) ∧
    (∃ r, vm_frame_evict two_thread_state 0 false = some r ∧
      r.1.files 7 = [0xBB, 0xBB, 0xBB]) ∧
    (∃ r, vm_frame_evict two_thread_state 1 false = some r ∧
      r.1.files 7 = [0xAA, 0xAA, 0xAA]) := by
  have he : two_thread_state.frame_table[0]? = some (frame.mk 1 100 0x1000) := rfl
  have hsweep : evict_sweep two_thread_state 0 0 = some (two_thread_state, 0, 1) :=
    evict_sweep_step_clear 0 he (by simp [pagedir_is_accessed, two_thread_state])
  have hfind : vm_page_find two_thread_state 1 0x1000 = some resident_file_page := by
    simp [vm_page_find, two_thread_state]
  have hdirty : pagedir_is_dirty two_thread_state 1 0x1000 = true := by
    simp [pagedir_is_dirty, two_thread_state]
  have hr0 : read_user two_thread_state 0 0x1000 3 = some (List.replicate 3 0xBB) :=
    read_user_const two_thread_state 0 0x1000 3 ⟨101, true, true, false⟩ 0xBB
      (by simp [two_thread_state]) (by funext off; simp [two_thread_state])
      (by simp [PGSIZE])
  have hr1 : read_user two_thread_state 1 0x1000 3 = some (List.replicate 3 0xAA) :=
    read_user_const two_thread_state 1 0x1000 3 ⟨100, true, false, true⟩ 0xAA
      (by simp [two_thread_state]) (by funext off; simp [two_thread_state])
      (by simp [PGSIZE])
  have hfile : two_thread_state.files 7 = [1, 2, 3] := by simp [two_thread_state]
  have hcommit : ∀ cur c, read_user two_thread_state cur 0x1000 3 = some (List.replicate 3 c) →
      ∃ r, vm_frame_evict two_thread_state cur false = some r ∧ r.1.files 7 = [c, c, c] := by
    intro cur c hread
    simp only [vm_frame_evict, hsweep, Option.some_bind, evict_commit, he, hfind, hdirty,
      if_true]
    have hmap : resident_file_page.mapid ≠ MAP_FAILED := by
      simp [resident_file_page, MAP_FAILED]
    rw [if_pos hmap]
    have hwb : write_back two_thread_state cur resident_file_page
        = some { two_thread_state with
                 files := Function.update two_thread_state.files 7 [c, c, c] } := by
      have h1 : resident_file_page.file = some 7 := rfl
      have h2 : read_user two_thread_state cur resident_file_page.addr
          resident_file_page.file_read_bytes = some (List.replicate 3 c) := hread
      simp only [write_back, h1, h2, hfile]
      simp [file_write_at, resident_file_page, List.replicate]
    rw [hwb]
    simp only [Option.map_some']
    refine ⟨_, rfl, ?_⟩
    simp only [palloc_get_page, palloc_free_page, pagedir_clear_page, update_page,
      update_thread]
    simp
  refine ⟨⟨two_thread_state, 1, hsweep, he, hfind, hdirty⟩, ?_, hcommit 0 0xBB hr0,
    hcommit 1 0xAA hr1⟩
  intro off
  simp [two_thread_state]

/-- The registry invariant reads the list, `max_mapid` and the `mapid` of the
pages only. -/
theorem registry_inv_transfer {s t : State} {tid : Nat}
    (hl : (t.threads tid).mmap_list = (s.threads tid).mmap_list)
    (hm : (t.threads tid).max_mapid = (s.threads tid).max_mapid)
    (hp : ∀ a, (vm_page_find t tid a).map (fun p => p.mapid) =
      (vm_page_find s tid a).map (fun p => p.mapid))
    (h : registry_inv s tid) : registry_inv t tid := by
  obtain ⟨h1, h2, h3⟩ := h
  have hget : ∀ a q, vm_page_find t tid a = some q →
      ∃ p, vm_page_find s tid a = some p ∧ p.mapid = q.mapid := by
    intro a q hq
    have := hp a
    rw [hq] at this
    cases hs : vm_page_find s tid a with
    | none => rw [hs] at this; exact absurd this (by simp)
    | some p =>
      rw [hs] at this
      simp only [Option.map_some', Option.some.injEq] at this
      exact ⟨p, rfl, this.symm⟩
  refine ⟨by rw [hl]; exact h1, ?_, ?_⟩
  · intro a ha
    rw [hl] at ha
    obtain ⟨p, hp1, hp2⟩ := h2 a ha
    have := hp a
    rw [hp1] at this
    cases ht : vm_page_find t tid a with
    | none => rw [ht] at this; exact absurd this (by simp)
    | some q =>
      rw [ht] at this
      simp only [Option.map_some', Option.some.injEq] at this
      exact ⟨q, rfl, by rw [hm, this]; exact hp2⟩
  · unfold registry_sorted
    rw [hl]
    refine List.Pairwise.imp ?_ h3
    intro a b hab p q hpa hqb
    obtain ⟨p2, hp2, hpe⟩ := hget a p hpa
    obtain ⟨q2, hq2, hqe⟩ := hget b q hqb
    rw [← hpe, ← hqe]
    exact hab p2 q2 hp2 hq2

/-- The second-chance loop changes no list, no `max_mapid` and no page table. -/
theorem evict_sweep_registry (s : State) (e n : Nat) :
    ∀ r, evict_sweep s e n = some r →
      ∀ tid, (r.1.threads tid).mmap_list = (s.threads tid).mmap_list ∧
        (r.1.threads tid).max_mapid = (s.threads tid).max_mapid ∧
        (r.1.threads tid).page_table = (s.threads tid).page_table := by
  induction s, e, n using evict_sweep.induct with
  | case1 s e n he =>
    intro r h
    rw [evict_sweep] at h
    split at h
    · exact absurd h (by simp)
    · rename_i fr hfr
      rw [he] at hfr
      exact absurd hfr (by simp)
  | case2 s e n fr he ha ih =>
    intro r h
    rw [evict_sweep_step_accessed n he ha] at h
    intro tid
    obtain ⟨h1, h2, h3⟩ := ih r h tid
    rw [h1, h2, h3]
    simp only [pagedir_set_accessed, update_thread]
    by_cases ht : tid = fr.thread
    · subst ht; simp
    · simp [Function.update_noteq ht]
  | case3 s e n fr he ha =>
    intro r h
    rw [evict_sweep_step_clear n he (by simpa using ha)] at h
    simp only [Option.some.injEq] at h
    subst h
    intro tid
    exact ⟨rfl, rfl, rfl⟩

/-- An eviction keeps the registry invariant of every thread. -/
theorem vm_frame_evict_registry {s : State} {cur : Nat} {zero : Bool} {r : State × Option Nat}
    (h : vm_frame_evict s cur zero = some r) (tid : Nat) (hi : registry_inv s tid) :
    registry_inv r.1 tid := by
  simp only [vm_frame_evict, Option.bind_eq_some] at h
  obtain ⟨q, hq, hc⟩ := h
  have hsw := evict_sweep_registry s 0 0 q hq
  obtain ⟨fr, P, s1, -, -, -, -, -, hth, hmap, hr⟩ := evict_commit_form hc
  have hfin : ∀ tid, (r.1.threads tid).mmap_list = (s1.threads tid).mmap_list ∧
      (r.1.threads tid).max_mapid = (s1.threads tid).max_mapid ∧
      (r.1.threads tid).page_table = (s1.threads tid).page_table := by
    intro tid
    have hpg : ∀ u : State, (palloc_get_page u zero).1.threads = u.threads := by
      intro u
      unfold palloc_get_page
      split <;> rfl
    rw [hr, hpg]
    simp only [palloc_free_page, pagedir_clear_page, update_thread]
    by_cases ht : tid = fr.thread
    · subst ht; simp
    · simp [Function.update_noteq ht]
  apply registry_inv_transfer (s := s) _ _ _ hi
  · rw [(hfin tid).1, (hth tid).2.1, (hsw tid).1]
  · rw [(hfin tid).2.1, (hth tid).2.2, (hsw tid).2.1]
  · intro a
    have h1 : vm_page_find r.1 tid a = vm_page_find s1 tid a := by
      simp only [vm_page_find, (hfin tid).2.2]
    have h2 : vm_page_find q.1 tid a = vm_page_find s tid a := by
      simp only [vm_page_find, (hsw tid).2.2]
    rw [h1, hmap, h2]
theorem registry_inv_of_thread_eq {s t : State} {tid : Nat}
    (h : t.threads tid = s.threads tid) (hi : registry_inv s tid) : registry_inv t tid :=
  registry_inv_transfer (by rw [h]) (by rw [h]) (fun a => by simp only [vm_page_find, h]) hi

/-- Taking one element out of the list, and its page out of the page table,
keeps the registry invariant. -/
theorem registry_inv_remove {s u : State} {cur a : Nat} {before rest : List Nat}
    (hi : registry_inv s cur) (hl : (s.threads cur).mmap_list = before ++ a :: rest)
    (hul : (u.threads cur).mmap_list = before ++ rest)
    (hum : (u.threads cur).max_mapid = (s.threads cur).max_mapid)
    (hup : ∀ b, b ≠ a → vm_page_find u cur b = vm_page_find s cur b) :
    registry_inv u cur := by
  obtain ⟨h1, h2, h3⟩ := hi
  rw [hl] at h1
  have hsub : (before ++ rest).Sublist (before ++ a :: rest) :=
    List.Sublist.append_left (List.sublist_cons_self a rest) before
  have hne : ∀ b ∈ before ++ rest, b ≠ a := by
    intro b hb hba
    subst hba
    have hd := List.nodup_append.1 h1
    rcases List.mem_append.1 hb with h | h
    · exact hd.2.2 h (List.mem_cons_self _ _)
    · exact (List.nodup_cons.1 hd.2.1).1 h
  refine ⟨by rw [hul]; exact h1.sublist hsub, ?_, ?_⟩
  · intro b hb
    rw [hul] at hb
    obtain ⟨p, hp1, hp2⟩ := h2 b (by rw [hl]; exact hsub.subset hb)
    exact ⟨p, by rw [hup b (hne b hb)]; exact hp1, by rw [hum]; exact hp2⟩
  · unfold registry_sorted at h3 ⊢
    rw [hl] at h3
    rw [hul]
    refine List.Pairwise.imp_of_mem ?_ (h3.sublist hsub)
    intro x y hx hy hxy p q hp hq
    rw [hup x (hne x hx)] at hp
    rw [hup y (hne y hy)] at hq
    exact hxy p q hp hq

/-- A walk of `sys_munmap` keeps the registry invariant of the thread, and
changes no other thread. -/
theorem munmap_walk_registry (cur : Nat) (m : Int) (l : List Nat) :
    ∀ (s : State) (before : List Nat) (t : State),
      munmap_walk s cur m before l = some t →
      (s.threads cur).mmap_list = before ++ l → registry_inv s cur →
      registry_inv t cur ∧ ∀ tid, tid ≠ cur → t.threads tid = s.threads tid := by
  induction l with
  | nil =>
    intro s before t h _ hi
    simp only [munmap_walk, Option.some.injEq] at h
    subst h
    exact ⟨hi, fun _ _ => rfl⟩
  | cons a rest ih =>
    intro s before t h hl hi
    rw [munmap_walk] at h
    cases hp : vm_page_find s cur a with
    | none => rw [hp] at h; exact absurd h (by simp)
    | some page =>
      rw [hp] at h
      simp only at h
      by_cases hlt : page.mapid < m
      · rw [if_pos hlt] at h
        exact ih s (before ++ [a]) t h (by rw [hl]; simp) hi
      · rw [if_neg hlt] at h
        by_cases hgt : page.mapid > m
        · rw [if_pos hgt] at h
          simp only [Option.some.injEq] at h
          subst h
          exact ⟨hi, fun _ _ => rfl⟩
        · rw [if_neg hgt] at h
          have key : ∀ u : State, (u.threads cur).mmap_list = before ++ rest →
              (u.threads cur).max_mapid = (s.threads cur).max_mapid →
              (∀ b, b ≠ a → vm_page_find u cur b = vm_page_find s cur b) →
              (∀ tid, tid ≠ cur → u.threads tid = s.threads tid) →
              munmap_walk u cur m before rest = some t →
              registry_inv t cur ∧ ∀ tid, tid ≠ cur → t.threads tid = s.threads tid := by
            intro u hu1 hu2 hu3 hu4 hw
            obtain ⟨g1, g2⟩ := ih u before t hw hu1 (registry_inv_remove hi hl hu1 hu2 hu3)
            exact ⟨g1, fun tid ht => by rw [g2 tid ht, hu4 tid ht]⟩
          cases hk : pagedir_get_page s cur page.addr with
          | none =>
            rw [hk] at h
            simp only at h
            obtain ⟨g1, g2, -, g4⟩ := munmap_remove_thread s cur page.addr a 0 (before ++ rest)
              _ (Or.inr rfl)
            refine key _ g1 g2 g4 (fun tid ht => ?_) h
            simp [update_thread, Function.update_noteq ht]
          | some kpage =>
            rw [hk] at h
            simp only [Option.bind_eq_some] at h
            obtain ⟨s1, hs1, hw⟩ := h
            have hth : s1.threads = s.threads := by
              split at hs1
              · exact write_back_threads hs1
              · simp only [Option.some.injEq] at hs1
                rw [hs1]
            obtain ⟨g1, g2, -, g4⟩ := munmap_remove_thread s1 cur page.addr a kpage
              (before ++ rest) _ (Or.inl rfl)
            refine key _ g1 (by rw [g2, hth]) (fun b hb2 => ?_) (fun tid ht => ?_) hw
            · rw [g4 b hb2]
              simp only [vm_page_find, hth]
            · rw [vm_frame_free_threads]
              simp [update_thread, pagedir_clear_page, Function.update_noteq ht, hth]
/-- When the main loop of `sys_mmap` fails, it returns the state that the
rollback from the current state comes to. -/
theorem mmap_loop_rollback (cur file addr : Nat) (mapid : Int) (raw : Nat → page) (orig : State)
    (crb : Nat) : ∀ (s : State) (ofs : Nat) (r : State),
    mmap_rollback (update_thread s cur fun t => { t with max_mapid := t.max_mapid - 1 })
      cur ofs = some orig →
    mmap_loop s cur file addr mapid raw crb ofs = some (r, false) → r = orig := by
  induction crb using Nat.strong_induction_on with
  | _ crb ih =>
    intro s ofs r hroll h
    by_cases hpos : crb > 0
    · rw [mmap_loop, dif_pos hpos] at h
      cases hins : (s.threads cur).page_table ((addr + ofs) % WORD) with
      | some old =>
        simp only [vm_page_insert, hins, hroll, Option.map_some', Option.some.injEq,
          Prod.mk.injEq, and_true] at h
        exact h.symm
      | none =>
        have hnone : (vm_page_insert s cur ((addr + ofs) % WORD) (raw ofs)).2 = none := by
          simp [vm_page_insert, hins]
        simp only [hnone] at h
        refine ih _ ?_ _ _ r ?_ h
        · simp only [PGSIZE]
          split <;> omega
        · rw [rollback_after_turn s cur _ _ _ ofs hins]
          exact hroll
    · rw [mmap_loop, dif_neg hpos] at h
      simp at h

/-- When the main loop of `sys_mmap` runs to its end, it has appended to the list
distinct addresses that had no entry, has given each a page with the new
`mapid`, and has changed no other page and no other thread. -/
theorem mmap_loop_appends (cur file addr : Nat) (mapid : Int) (raw : Nat → page)
    (crb : Nat) : ∀ (s : State) (ofs : Nat) (r : State),
    mmap_loop s cur file addr mapid raw crb ofs = some (r, true) →
    ∃ new : List Nat,
      (r.threads cur).mmap_list = (s.threads cur).mmap_list ++ new ∧
      (r.threads cur).max_mapid = (s.threads cur).max_mapid ∧ new.Nodup ∧
      (∀ a ∈ new, vm_page_find s cur a = none ∧
        ∃ p, vm_page_find r cur a = some p ∧ p.mapid = mapid) ∧
      (∀ a, a ∉ new → vm_page_find r cur a = vm_page_find s cur a) ∧
      (∀ tid, tid ≠ cur → r.threads tid = s.threads tid) := by
  induction crb using Nat.strong_induction_on with
  | _ crb ih =>
    intro s ofs r h
    by_cases hpos : crb > 0
    · rw [mmap_loop, dif_pos hpos] at h
      cases hins : (s.threads cur).page_table ((addr + ofs) % WORD) with
      | some old =>
        simp only [vm_page_insert, hins, Option.map_eq_some', Prod.mk.injEq] at h
        obtain ⟨_, _, _, hf⟩ := h
        exact absurd hf (by simp)
      | none =>
        have hnone : (vm_page_insert s cur ((addr + ofs) % WORD) (raw ofs)).2 = none := by
          simp [vm_page_insert, hins]
        simp only [hnone] at h
        obtain ⟨new, h1, h2, h3, h4, h5, h6⟩ := ih _ (by
          simp only [PGSIZE]
          split <;> omega) _ _ r h
        have hfind : ∀ b, vm_page_find (update_thread
            (update_page (vm_page_insert s cur ((addr + ofs) % WORD) (raw ofs)).1 cur
              ((addr + ofs) % WORD) fun p =>
                { p with loaded := false, mapid := mapid, file := some file, file_ofs := ofs,
                         file_read_bytes := if crb < PGSIZE then crb else PGSIZE,
                         file_writable := true })
            cur fun t => { t with mmap_list := t.mmap_list ++ [(addr + ofs) % WORD] }) cur b
            = if b = (addr + ofs) % WORD then
                some { raw ofs with addr := (addr + ofs) % WORD, loaded := false, mapid := mapid,
                                    file := some file, file_ofs := ofs,
                                    file_read_bytes := if crb < PGSIZE then crb else PGSIZE,
                                    file_writable := true, valid := true }
              else vm_page_find s cur b := by
          intro b
          simp only [vm_page_find, vm_page_insert, hins, update_page, update_thread,
            Function.update_same]
          by_cases hb : b = (addr + ofs) % WORD
          · rw [hb]; simp
          · simp [Function.update_noteq hb, hb]
        have ha0 : (addr + ofs) % WORD ∉ new := by
          intro hmem
          have := (h4 _ hmem).1
          rw [hfind, if_pos rfl] at this
          exact absurd this (by simp)
        refine ⟨(addr + ofs) % WORD :: new, ?_, ?_, List.nodup_cons.2 ⟨ha0, h3⟩, ?_, ?_, ?_⟩
        · rw [h1]
          simp [vm_page_insert, hins, update_page, update_thread]
        · rw [h2]
          simp [vm_page_insert, hins, update_page, update_thread]
        · intro a ha
          rcases List.mem_cons.1 ha with ha | ha
          · subst ha
            refine ⟨by simpa [vm_page_find] using hins, ?_⟩
            rw [h5 _ ha0, hfind, if_pos rfl]
            exact ⟨_, rfl, rfl⟩
          · obtain ⟨g1, g2⟩ := h4 a ha
            rw [hfind] at g1
            split at g1
            · exact absurd g1 (by simp)
            · exact ⟨g1, g2⟩
        · intro a ha
          have ha1 : a ≠ (addr + ofs) % WORD := fun h => ha (h ▸ List.mem_cons_self _ _)
          have ha2 : a ∉ new := fun h => ha (List.mem_cons_of_mem _ h)
          rw [h5 a ha2, hfind, if_neg ha1]
        · intro tid ht
          rw [h6 tid ht]
          simp [vm_page_insert, hins, update_page, update_thread, Function.update_noteq ht]
    · rw [mmap_loop, dif_neg hpos] at h
      simp only [Option.some.injEq, Prod.mk.injEq, and_true] at h
      subst h
      exact ⟨[], by simp, rfl, List.nodup_nil, fun a ha => absurd ha (List.not_mem_nil a),
        fun _ _ => rfl, fun _ _ => rfl⟩
/-- A call of `sys_mmap`, successful or rolled back, keeps the registry
invariant of every thread. -/
theorem sys_mmap_registry {s t : State} {cur : Nat} {fd : Int} {addr : Nat} {raw : Nat → page}
    {v : Int} (h : sys_mmap s cur fd addr raw = some (t, v)) (tid : Nat)
    (hi : registry_inv s tid) : registry_inv t tid := by
  unfold sys_mmap at h
  split at h
  · simp only [Option.some.injEq, Prod.mk.injEq] at h
    rw [← h.1]; exact hi
  · rename_i file hfd
    split at h
    · simp only [Option.some.injEq, Prod.mk.injEq] at h
      rw [← h.1]; exact hi
    · split at h
      · simp only [Option.some.injEq, Prod.mk.injEq] at h
        rw [← h.1]; exact hi
      · simp only [Option.map_eq_some', Prod.mk.injEq] at h
        obtain ⟨⟨r, ok⟩, hloop, hrt, -⟩ := h
        simp only at hrt
        subst hrt
        cases ok with
        | false =>
          have := mmap_loop_rollback cur file addr (s.threads cur).max_mapid raw s _ _ 0 r
            (by rw [max_mapid_inc_dec, mmap_rollback]; simp) hloop
          rw [this]; exact hi
        | true =>
          obtain ⟨new, h1, h2, h3, h4, h5, h6⟩ := mmap_loop_appends cur file addr
            (s.threads cur).max_mapid raw _ _ 0 r hloop
          have hfs : ∀ a, vm_page_find
              (update_thread s cur fun t => { t with max_mapid := t.max_mapid + 1 }) cur a
              = vm_page_find s cur a :=
            fun a => find_update_thread _ _ _ (by intro _; rfl) _ _
          have hls : ((update_thread s cur fun t =>
              { t with max_mapid := t.max_mapid + 1 }).threads cur).mmap_list
              = (s.threads cur).mmap_list := by simp [update_thread]
          have hms : ((update_thread s cur fun t =>
              { t with max_mapid := t.max_mapid + 1 }).threads cur).max_mapid
              = (s.threads cur).max_mapid + 1 := by simp [update_thread]
          rw [hls] at h1
          rw [hms] at h2
          by_cases ht : tid = cur
          · subst ht
            obtain ⟨i1, i2, i3⟩ := hi
            have hold : ∀ a ∈ (s.threads tid).mmap_list, a ∉ new := by
              intro a ha hn
              obtain ⟨p, hp, -⟩ := i2 a ha
              have := (h4 a hn).1
              rw [hfs, hp] at this
              exact absurd this (by simp)
            have hsame : ∀ a ∈ (s.threads tid).mmap_list,
                vm_page_find r tid a = vm_page_find s tid a := by
              intro a ha
              rw [h5 a (hold a ha), hfs]
            refine ⟨?_, ?_, ?_⟩
            · rw [h1]
              exact List.nodup_append.2 ⟨i1, h3, fun a ha hn => hold a ha hn⟩
            · intro a ha
              rw [h1] at ha
              rw [h2]
              rcases List.mem_append.1 ha with ha | ha
              · obtain ⟨p, hp, hlt⟩ := i2 a ha
                exact ⟨p, by rw [hsame a ha]; exact hp, by omega⟩
              · obtain ⟨-, p, hp, hm⟩ := h4 a ha
                exact ⟨p, hp, by rw [hm]; omega⟩
            · unfold registry_sorted at i3 ⊢
              rw [h1, List.pairwise_append]
              refine ⟨?_, ?_, ?_⟩
              · refine List.Pairwise.imp_of_mem ?_ i3
                intro x y hx hy hxy p q hp hq
                rw [hsame x hx] at hp
                rw [hsame y hy] at hq
                exact hxy p q hp hq
              · refine List.Pairwise.imp_of_mem ?_ h3
                intro x y hx hy _ p q hp hq
                obtain ⟨-, p2, hp2, hm2⟩ := h4 x hx
                obtain ⟨-, q2, hq2, hn2⟩ := h4 y hy
                rw [hp2] at hp
                rw [hq2] at hq
                simp only [Option.some.injEq] at hp hq
                rw [← hp, ← hq, hm2, hn2]
              · intro x hx y hy p q hp hq
                rw [hsame x hx] at hp
                obtain ⟨p2, hp2, hlt⟩ := i2 x hx
                rw [hp2] at hp
                obtain ⟨-, q2, hq2, hn2⟩ := h4 y hy
                rw [hq2] at hq
                simp only [Option.some.injEq] at hp hq
                rw [← hp, ← hq, hn2]
                omega
          · apply registry_inv_of_thread_eq _ hi
            rw [h6 tid ht]
            simp [update_thread, Function.update_noteq ht]

/-- One call of `sys_mmap`, `sys_munmap` or `vm_frame_evict` keeps the registry
invariant of every thread. -/
theorem reg_step_registry {s t : State} {c : RegCall} (h : reg_step s c = some t)
    (hi : ∀ tid, registry_inv s tid) : ∀ tid, registry_inv t tid := by
  intro tid
  cases c with
  | mmap cur fd addr raw =>
    simp only [reg_step, Option.map_eq_some'] at h
    obtain ⟨⟨u, v⟩, hu, ht⟩ := h
    simp only at ht
    subst ht
    exact sys_mmap_registry hu tid (hi tid)
  | munmap cur mapid =>
    simp only [reg_step, sys_munmap] at h
    obtain ⟨g1, g2⟩ := munmap_walk_registry cur mapid _ s [] t h rfl (hi cur)
    by_cases ht : tid = cur
    · subst ht; exact g1
    · exact registry_inv_of_thread_eq (g2 tid ht) (hi tid)
  | evict cur zero =>
    simp only [reg_step, Option.map_eq_some'] at h
    obtain ⟨r, hr, ht⟩ := h
    subst ht
    exact vm_frame_evict_registry hr tid (hi tid)

theorem reg_run_registry (cs : List RegCall) :
    ∀ (s t : State), reg_run s cs = some t → (∀ tid, registry_inv s tid) →
      ∀ tid, registry_inv t tid := by
  induction cs with
  | nil =>
    intro s t h hi
    simp only [reg_run, Option.some.injEq] at h
    subst h
    exact hi
  | cons c cs ih =>
    intro s t h hi
    simp only [reg_run, Option.bind_eq_some] at h
    obtain ⟨u, hu, hrun⟩ := h
    exact ih u t hrun (reg_step_registry hu hi)

/-- C15: in every state reached from a state in which every `mmap_list` is empty
by calls of `sys_mmap` (successful or rolled back), `sys_munmap` and
`vm_frame_evict`, made by any threads, the `mmap_list` of every thread is sorted
non-decreasing by `mapid`, and every element of it is a page whose `mapid` is
below `max_mapid`. -/
theorem registry_sorted_and_bounded (s0 : State) (cs : List RegCall) (s : State)
    (h0 : ∀ tid, (s0.threads tid).mmap_list = [])
    (hrun : reg_run s0 cs = some s) (tid : Nat) :
    registry_sorted s tid ∧ registry_bounded s tid := by
  have hinit : ∀ tid, registry_inv s0 tid := by
    intro tid
    refine ⟨by rw [h0]; exact List.nodup_nil, ?_, ?_⟩
    · intro a ha
      rw [h0] at ha
      exact absurd ha (List.not_mem_nil a)
    · unfold registry_sorted
      rw [h0]
      exact List.Pairwise.nil
  obtain ⟨-, h2, h3⟩ := reg_run_registry cs s0 s hrun hinit tid
  exact ⟨h3, h2⟩

theorem mmap_one_page_list :
    ∃ s1, sys_mmap one_file_boot 0 2 0x1000 (fun _ => anon_page 0) = some (s1, 0) ∧
      vm_page_find s1 0 0x1000 = some lazy_file_page ∧
      (s1.threads 0).mmap_list = [0x1000] ∧ (s1.threads 0).max_mapid = 1 := by
  have hfd : thread_fd_get one_file_boot 0 2 = some 7 := by
    simp [thread_fd_get, one_file_boot, vm_boot]
  have hlen : (one_file_boot.files 7).length = 3 := by simp [one_file_boot, vm_boot]
  have hmap : (one_file_boot.threads 0).max_mapid = 0 := by simp [one_file_boot, vm_boot]
  simp only [sys_mmap, hfd, hlen, hmap]
  rw [mmap_loop]
  simp [vm_page_insert, update_thread, one_file_boot, vm_boot, WORD, PGSIZE]
  rw [mmap_loop]
  simp [vm_page_find, update_page, update_thread, lazy_file_page, anon_page, PGSIZE]

/-- C15 on a run from boot: a `sys_mmap` of one page, then a `sys_munmap` of a
`mapid` that is not in use. -/
theorem registry_sorted_and_bounded_witness :
    (∀ tid, (one_file_boot.threads tid).mmap_list = []) ∧
    ∃ s, reg_run one_file_boot
        [RegCall.mmap 0 2 0x1000 (fun _ => anon_page 0), RegCall.munmap 0 5] = some s ∧
      (s.threads 0).mmap_list = [0x1000] ∧
      registry_sorted s 0 ∧ registry_bounded s 0 := by
  have h0 : ∀ tid, (one_file_boot.threads tid).mmap_list = [] := fun _ => rfl
  obtain ⟨s1, h1, h2, h3, -⟩ := mmap_one_page_list
  have hrun : reg_run one_file_boot
      [RegCall.mmap 0 2 0x1000 (fun _ => anon_page 0), RegCall.munmap 0 5] = some s1 := by
    simp only [reg_run, reg_step, h1, Option.map_some', Option.some_bind, sys_munmap, h3,
      munmap_walk, h2]
    simp [lazy_file_page]
  exact ⟨h0, s1, hrun, h3,
    registry_sorted_and_bounded one_file_boot _ s1 h0 hrun 0⟩

/-- C23: for a swap disk of `S` sectors with `S · DISK_SECTOR_SIZE` below `2^32`,
the bitmap that `swap_init` creates has `⌊S · 512 / 4096⌋` bits; for every slot
`i` below that size and every `sec_no < 8` the sector that `swap_out` and
`swap_in` touch is `i · PGSIZE / DISK_SECTOR_SIZE + sec_no` (the 32-bit
arithmetic does not wrap) and is below `S`; the sectors of two distinct slots
below that size are distinct; and a `swap_out` in a swap area with that bitmap
size leaves the sectors of every other slot as they were. -/
theorem swap_slots_in_range_and_disjoint (S : Nat) (disk : Nat → Sector)
    (hS : S * DISK_SECTOR_SIZE < WORD) :
    (swap_init S disk).swap_table.length = S * 512 / 4096 ∧
    (∀ i, i < (swap_init S disk).swap_table.length → ∀ k, k < SECTORS_PER_PAGE →
      slot_sector i k = i * PGSIZE / DISK_SECTOR_SIZE + k ∧ slot_sector i k < S) ∧
    (∀ i j, i < (swap_init S disk).swap_table.length →
      j < (swap_init S disk).swap_table.length → i ≠ j →
      ∀ k m, k < SECTORS_PER_PAGE → m < SECTORS_PER_PAGE →
        slot_sector i k ≠ slot_sector j m) ∧
    (∀ (s t : SwapState) (c : PageData) (i : Nat),
      s.swap_table.length = (swap_init S disk).swap_table.length →
      swap_out s c = some (t, i) →
      ∀ j, j < (swap_init S disk).swap_table.length → j ≠ i →
        ∀ k, k < SECTORS_PER_PAGE → t.disk (slot_sector j k) = s.disk (slot_sector j k)) := by
  have hlen : (swap_init S disk).swap_table.length = S * 512 / 4096 := by
    simp only [swap_init, bitmap_create, List.length_replicate, DISK_SECTOR_SIZE, PGSIZE, WORD]
      at hS ⊢
    omega
  have hsec : ∀ i, i < S * 512 / 4096 → ∀ k, k < SECTORS_PER_PAGE →
      slot_sector i k = i * 8 + k := by
    intro i hi k hk
    simp only [slot_sector, SECTORS_PER_PAGE, PGSIZE, DISK_SECTOR_SIZE, WORD] at hS hk ⊢
    omega
  have hdis : ∀ i j, i < S * 512 / 4096 → j < S * 512 / 4096 → i ≠ j →
      ∀ k m, k < SECTORS_PER_PAGE → m < SECTORS_PER_PAGE →
        slot_sector i k ≠ slot_sector j m := by
    intro i j hi hj hij k m hk hm
    rw [hsec i hi k hk, hsec j hj m hm]
    simp only [SECTORS_PER_PAGE, PGSIZE, DISK_SECTOR_SIZE] at hk hm
    omega
  rw [hlen]
  refine ⟨rfl, ?_, hdis, ?_⟩
  · intro i hi k hk
    rw [hsec i hi k hk]
    simp only [SECTORS_PER_PAGE, PGSIZE, DISK_SECTOR_SIZE] at hk ⊢
    omega
  · intro s t c i hsl hout j hj hji k hk
    obtain ⟨h1, -, -, -, -, h6⟩ := swap_out_some hout
    rw [hsl] at h1
    apply h6
    intro m
    exact (hdis j i hj h1 hji k m.val hk m.isLt).symm

/-- C23 on a disk of 16 sectors: two slots, at the sectors 0 to 7 and 8 to 15. -/
theorem swap_slots_in_range_and_disjoint_witness :
    16 * DISK_SECTOR_SIZE < WORD ∧
    (swap_init 16 (fun _ _ => 0)).swap_table.length = 2 ∧
    slot_sector 1 7 = 15 ∧ slot_sector 0 7 ≠ slot_sector 1 0 := by
  have hS : 16 * DISK_SECTOR_SIZE < WORD := by decide
  obtain ⟨h1, h2, h3, -⟩ := swap_slots_in_range_and_disjoint 16 (fun _ _ => 0) hS
  have hl : (swap_init 16 (fun _ _ => 0)).swap_table.length = 2 := by rw [h1]
  refine ⟨hS, hl, ?_, ?_⟩
  · rw [(h2 1 (by rw [hl]; decide) 7 (by decide)).1]
    decide
  · exact h3 0 1 (by rw [hl]; decide) (by rw [hl]; decide) (by decide) 7 0 (by decide)
      (by decide)

theorem find_update_page (s : State) (tid addr : Nat) (f : page → page) (tid2 a : Nat) :
    vm_page_find (update_page s tid addr f) tid2 a =
      if tid2 = tid ∧ a = addr then (vm_page_find s tid addr).map f
      else vm_page_find s tid2 a := by
  simp only [vm_page_find, update_page, update_thread]
  by_cases ht : tid2 = tid
  · by_cases ha : a = addr
    · rw [ht, ha]; simp
    · rw [ht]; simp [Function.update_noteq ha, ha]
  · simp [Function.update_noteq ht, ht]

/-- The two ways in which a committed eviction leaves the swap area and the page
tables: without a `swap_out`, the victim's page gets `loaded = false`; with
one, which happens only when the victim is dirty, it gets `valid = false` and
the slot. -/
theorem evict_commit_cases {s : State} {cur e : Nat} {zero : Bool} {r : State × Option Nat}
    (h : evict_commit s cur e zero = some r) :
    ∃ fr P, s.frame_table[e]? = some fr ∧ vm_page_find s fr.thread fr.upage = some P ∧
      ((r.1.swap = s.swap ∧
          ∀ tid a, vm_page_find r.1 tid a =
            if tid = fr.thread ∧ a = fr.upage then some { P with loaded := false }
            else vm_page_find s tid a) ∨
        (pagedir_is_dirty s fr.thread fr.upage = true ∧
          ∃ sw i, swap_out s.swap (s.memory fr.addr) = some (sw, i) ∧ r.1.swap = sw ∧
            ∀ tid a, vm_page_find r.1 tid a =
              if tid = fr.thread ∧ a = fr.upage then some { P with valid := false, swap_idx := i }
              else vm_page_find s tid a)) := by
  unfold evict_commit at h
  cases he : s.frame_table[e]? with
  | none => rw [he] at h; exact absurd h (by simp)
  | some fr =>
    rw [he] at h
    simp only at h
    cases hpg : vm_page_find s fr.thread fr.upage with
    | none => rw [hpg] at h; exact absurd h (by simp)
    | some P =>
      rw [hpg] at h
      simp only [Option.map_eq_some'] at h
      obtain ⟨s1, hs1, hr⟩ := h
      obtain ⟨g1, -, g3, -⟩ := evict_tail_spec s1 e fr zero
      rw [hr] at g1 g3
      refine ⟨fr, P, rfl, hpg, ?_⟩
      by_cases hd : pagedir_is_dirty s fr.thread fr.upage = true
      · rw [if_pos hd] at hs1
        by_cases hm : P.mapid ≠ MAP_FAILED
        · rw [if_pos hm] at hs1
          simp only [Option.map_eq_some'] at hs1
          obtain ⟨s0, hs0, hs01⟩ := hs1
          left
          unfold write_back at hs0
          split at hs0
          · simp only [Option.some.injEq] at hs0
            subst hs0
            subst hs01
            refine ⟨by rw [g3]; rfl, fun tid a => ?_⟩
            rw [g1, find_update_page]
            show (if _ then (vm_page_find s fr.thread fr.upage).map _ else vm_page_find s tid a) = _
            rw [hpg]
            rfl
          · exact absurd hs0 (by simp)
        · rw [if_neg hm] at hs1
          simp only [Option.map_eq_some'] at hs1
          obtain ⟨q, hq, hq1⟩ := hs1
          right
          subst hq1
          refine ⟨hd, q.1, q.2, hq, by rw [g3]; rfl, fun tid a => ?_⟩
          rw [g1, find_update_page]
          show (if _ then (vm_page_find s fr.thread fr.upage).map _ else vm_page_find s tid a) = _
          rw [hpg]
          rfl
      · rw [if_neg hd] at hs1
        simp only [Option.some.injEq] at hs1
        subst hs1
        left
        refine ⟨g3, fun tid a => ?_⟩
        rw [g1, find_update_page, hpg]
        rfl
/-- A `swap_out` leaves a slot that is in use as it is: its bit stays set and its
sectors keep their bytes. -/
theorem swap_out_keeps_slot {s t : SwapState} {c : PageData} {j : Nat} (i : Nat)
    (h : swap_out s c = some (t, j)) (hbit : bitmap_test s.swap_table i = true)
    (hlen : s.swap_table.length ≤ 2 ^ 20) :
    bitmap_test t.swap_table i = true ∧ t.swap_table.length = s.swap_table.length ∧
    slot_page t.disk i = slot_page s.disk i := by
  obtain ⟨h1, h2, -, h4, -, h6⟩ := swap_out_some h
  have hji : j ≠ i := by
    intro hji
    rw [hji, hbit] at h2
    exact absurd h2 (by simp)
  have hi : i < 2 ^ 20 := Nat.lt_of_lt_of_le (bitmap_test_lt hbit) hlen
  have hj : j < 2 ^ 20 := Nat.lt_of_lt_of_le h1 hlen
  refine ⟨by rw [h4, bitmap_test_set_ne _ _ hji]; exact hbit, by rw [h4, bitmap_set_length], ?_⟩
  funext off
  have hoff : off.val / DISK_SECTOR_SIZE < SECTORS_PER_PAGE := by
    have := off.isLt
    simp only [SECTORS_PER_PAGE, PGSIZE, DISK_SECTOR_SIZE] at this ⊢
    omega
  simp only [slot_page]
  rw [h6 _ (fun k hk => hji (slot_sector_inj hj hi k.isLt hoff hk).1)]

/-- An eviction leaves a page that has no hardware mapping, and a swap slot that
is in use, as they are, but for the member `loaded` of the page. -/
theorem evict_commit_keeps_swapped {s : State} {cur e : Nat} {zero : Bool}
    {r : State × Option Nat} (h : evict_commit s cur e zero = some r) (tid a : Nat) (p : page)
    (i : Nat) (hfind : vm_page_find s tid a = some p)
    (hclean : pagedir_is_dirty s tid a = false)
    (hbit : bitmap_test s.swap.swap_table i = true)
    (hlen : s.swap.swap_table.length ≤ 2 ^ 20) :
    (vm_page_find r.1 tid a = some p ∨ vm_page_find r.1 tid a = some { p with loaded := false }) ∧
    bitmap_test r.1.swap.swap_table i = true ∧
    r.1.swap.swap_table.length = s.swap.swap_table.length ∧
    slot_page r.1.swap.disk i = slot_page s.swap.disk i := by
  obtain ⟨fr, P, -, hP, hcase⟩ := evict_commit_cases h
  rcases hcase with ⟨hsw, hpages⟩ | ⟨hd, sw, j, hout, hsw, hpages⟩
  · refine ⟨?_, by rw [hsw]; exact hbit, by rw [hsw], by rw [hsw]⟩
    rw [hpages]
    split
    · rename_i hv
      rw [hv.1, hv.2, hP] at hfind
      simp only [Option.some.injEq] at hfind
      rw [hfind]
      exact Or.inr rfl
    · exact Or.inl hfind
  · obtain ⟨g1, g2, g3⟩ := swap_out_keeps_slot i hout hbit hlen
    refine ⟨?_, by rw [hsw]; exact g1, by rw [hsw]; exact g2, by rw [hsw]; exact g3⟩
    rw [hpages]
    split
    · rename_i hv
      rw [hv.1, hv.2, hd] at hclean
      exact absurd hclean (by simp)
    · exact Or.inl hfind

/-- An allocation, with the eviction it may make, leaves a page that has no
hardware mapping, and a swap slot that is in use, as they are, but for the
member `loaded` of the page. -/
theorem vm_frame_alloc_keeps_swapped {s : State} {cur upage : Nat} {zero : Bool}
    {r : State × Option Nat} (h : vm_frame_alloc s cur upage zero = some r) (tid a : Nat)
    (p : page) (i : Nat) (hfind : vm_page_find s tid a = some p)
    (hmap : pagedir_get_page s tid a = none)
    (hbit : bitmap_test s.swap.swap_table i = true)
    (hlen : s.swap.swap_table.length ≤ 2 ^ 20) :
    (vm_page_find r.1 tid a = some p ∨ vm_page_find r.1 tid a = some { p with loaded := false }) ∧
    bitmap_test r.1.swap.swap_table i = true ∧
    slot_page r.1.swap.disk i = slot_page s.swap.disk i := by
  simp only [vm_frame_alloc, Option.map_eq_some'] at h
  obtain ⟨q, hq, hr⟩ := h
  have hpg : (palloc_get_page s zero).1.threads = s.threads ∧
      (palloc_get_page s zero).1.swap = s.swap := by
    unfold palloc_get_page
    split <;> exact ⟨rfl, rfl⟩
  have hq2 : (vm_page_find q.1 tid a = some p ∨
        vm_page_find q.1 tid a = some { p with loaded := false }) ∧
      bitmap_test q.1.swap.swap_table i = true ∧
      slot_page q.1.swap.disk i = slot_page s.swap.disk i := by
    split at hq
    · simp only [vm_frame_evict, Option.bind_eq_some] at hq
      obtain ⟨w, hw, hc⟩ := hq
      obtain ⟨-, -, -, hpt⟩ := evict_sweep_shape _ 0 0 w hw
      obtain ⟨hsw, -, -, hdirty⟩ := evict_sweep_keeps _ 0 0 w hw
      have hfind2 : vm_page_find w.1 tid a = some p := by
        simp only [vm_page_find, hpt, hpg.1]
        exact hfind
      have hclean : pagedir_is_dirty w.1 tid a = false := by
        rw [hdirty]
        simp only [pagedir_is_dirty, hpg.1]
        simp only [pagedir_get_page, Option.map_eq_none'] at hmap
        rw [hmap]
      obtain ⟨g1, g2, -, g4⟩ := evict_commit_keeps_swapped hc tid a p i hfind2 hclean
        (by rw [hsw, hpg.2]; exact hbit) (by rw [hsw, hpg.2]; exact hlen)
      refine ⟨g1, g2, ?_⟩
      rw [g4, hsw, hpg.2]
    · simp only [Option.some.injEq] at hq
      subst hq
      refine ⟨Or.inl ?_, by rw [hpg.2]; exact hbit, by rw [hpg.2]⟩
      simp only [vm_page_find, hpg.1]
      exact hfind
  subst hr
  cases hk : q.2 with
  | none => simpa [hk] using hq2
  | some k => simpa [hk] using hq2
theorem page_sector_slot_page (dk : Nat → Sector) (i : Nat) (k : Fin SECTORS_PER_PAGE) :
    page_sector (slot_page dk i) k = dk (slot_sector i k.val) := by
  funext j
  have hk := k.isLt
  have hj := j.isLt
  simp only [SECTORS_PER_PAGE, PGSIZE, DISK_SECTOR_SIZE] at hk hj
  have h1 : (k.val * DISK_SECTOR_SIZE + j.val) / DISK_SECTOR_SIZE = k.val := by
    simp only [DISK_SECTOR_SIZE]; omega
  have h2 : (k.val * DISK_SECTOR_SIZE + j.val) % DISK_SECTOR_SIZE = j.val := by
    simp only [DISK_SECTOR_SIZE]; omega
  simp only [page_sector, slot_page]
  congr 1
  · rw [h1]
  · exact Fin.ext h2

/-- C22: for a page record `p` of the running thread with `valid = false` whose
`swap_idx` bit is set in the swap bitmap (of at most `2^20` bits, as `swap_init`
makes it) and with no hardware mapping at `p.addr`, when `vm_frame_alloc`
returns the page `kpage` and `pagedir_set_page` succeeds, `vm_page_load_swap`
returns true; the page record then has `valid = true` (and is otherwise `p`, but
for `loaded`, which an eviction made by the allocation may have cleared), `p.addr`
is mapped to `kpage`, writable, with the accessed and dirty bits set, the frame
holds the 4096 bytes that the slot `p.swap_idx` held before the call, and the
bit `p.swap_idx` of the bitmap is clear. -/
theorem vm_page_load_swap_spec (s : State) (cur addr : Nat) (p : page) (r : State)
    (kpage : Nat)
    (hfind : vm_page_find s cur addr = some p) (haddr : p.addr = addr)
    (hvalid : p.valid = false)
    (hbit : bitmap_test s.swap.swap_table p.swap_idx = true)
    (hlen : s.swap.swap_table.length ≤ 2 ^ 20)
    (hmap : pagedir_get_page s cur p.addr = none)
    (halloc : vm_frame_alloc s cur p.addr false = some (r, some kpage)) :
    ∃ t q, vm_page_load_swap s cur addr true = some (t, true) ∧
      vm_page_find t cur addr = some q ∧ q.valid = true ∧
      (q = { p with valid := true } ∨ q = { p with valid := true, loaded := false }) ∧
      (t.threads cur).pagedir p.addr = some ⟨kpage, true, true, true⟩ ∧
      t.memory kpage = slot_page s.swap.disk p.swap_idx ∧
      bitmap_test t.swap.swap_table p.swap_idx = false := by
  obtain ⟨hun, -⟩ := vm_frame_alloc_unmapped halloc
  have hmap2 : pagedir_get_page r cur p.addr = none := hun cur p.addr hmap
  obtain ⟨hq0, hbit2, hslot⟩ := vm_frame_alloc_keeps_swapped halloc cur addr p p.swap_idx
    hfind (by rw [← haddr]; exact hmap) hbit hlen
  have hbit3 : bitmap_test r.swap.swap_table p.swap_idx = true := hbit2
  have hslot3 : slot_page r.swap.disk p.swap_idx = slot_page s.swap.disk p.swap_idx := hslot
  have hin := swap_in_reads_slot
    (⟨rfl, hbit3, fun k => (page_sector_slot_page r.swap.disk p.swap_idx k).symm⟩ :
      holds_slot p.swap_idx (slot_page r.swap.disk p.swap_idx) r.swap.swap_table.length r.swap)
    (r.memory kpage)
  have hpte : ∀ u : State, ((pagedir_set_accessed (pagedir_set_dirty
      (pagedir_set_page u cur p.addr kpage true) cur p.addr true) cur p.addr true).threads
        cur).pagedir p.addr = some ⟨kpage, true, true, true⟩ := by
    intro u
    simp [pagedir_set_accessed, pagedir_set_dirty, pagedir_set_page, update_thread]
  have key : ∀ q0 : page, vm_page_find r cur addr = some q0 → q0.valid = false →
      q0.swap_idx = p.swap_idx → q0.addr = p.addr →
      ∃ t, vm_page_load_swap s cur addr true = some (t, true) ∧
        vm_page_find t cur addr = some { q0 with valid := true } ∧
        (t.threads cur).pagedir p.addr = some ⟨kpage, true, true, true⟩ ∧
        t.memory kpage = slot_page s.swap.disk p.swap_idx ∧
        bitmap_test t.swap.swap_table p.swap_idx = false := by
    intro q0 hq0f hq0v hq0i hq0a
    have hok : install_ok r cur p.addr true = true := by
      simp only [install_ok, Bool.and_true, Option.isNone_iff_eq_none]
      exact hmap2
    refine ⟨update_page (pagedir_set_accessed (pagedir_set_dirty (pagedir_set_page
        { r with swap := { r.swap with
                           swap_table := bitmap_set r.swap.swap_table p.swap_idx false },
                 memory := Function.update r.memory kpage
                   (slot_page r.swap.disk p.swap_idx) }
        cur p.addr kpage true) cur p.addr true) cur p.addr true)
        cur addr (fun x => { x with valid := true }), ?_, ?_, ?_, ?_, ?_⟩
    · simp only [vm_page_load_swap, hfind, halloc, Option.some_bind, hq0f, hq0v, if_true,
        hq0i, hq0a, hin, Option.map_some', hok]
    · rw [find_update_page_self, pagedir_set_accessed,
        find_update_thread _ _ _ (by intro _; rfl), pagedir_set_dirty,
        find_update_thread _ _ _ (by intro _; rfl), pagedir_set_page,
        find_update_thread _ _ _ (by intro _; rfl)]
      show (vm_page_find r cur addr).map _ = _
      rw [hq0f]
      rfl
    · have hupd : ∀ u : State, ((update_page u cur addr
          (fun x => { x with valid := true })).threads cur).pagedir = (u.threads cur).pagedir := by
        intro u
        simp [update_page, update_thread]
      rw [hupd]
      exact hpte _
    · show Function.update r.memory kpage (slot_page r.swap.disk p.swap_idx) kpage = _
      rw [Function.update_same, hslot3]
    · show bitmap_test (bitmap_set r.swap.swap_table p.swap_idx false) p.swap_idx = false
      exact bitmap_test_set_self _ _ (bitmap_test_lt hbit3)
  rcases hq0 with hq0 | hq0
  · obtain ⟨t, h1, h2, h3, h4, h5⟩ := key p hq0 hvalid rfl rfl
    exact ⟨t, _, h1, h2, rfl, Or.inl rfl, h3, h4, h5⟩
  · obtain ⟨t, h1, h2, h3, h4, h5⟩ := key { p with loaded := false } hq0 hvalid rfl rfl
    exact ⟨t, _, h1, h2, rfl, Or.inr rfl, h3, h4, h5⟩
/-- C22 on `swapped_state`: the page of thread 0 at `0x1000` comes back from slot
0 into the kernel page 102, which then holds the byte `0x55` everywhere. -/
theorem vm_page_load_swap_spec_witness :
    ∃ t q, vm_page_load_swap swapped_state 0 0x1000 true = some (t, true) ∧
      vm_page_find t 0 0x1000 = some q ∧ q.valid = true ∧
      (t.threads 0).pagedir 0x1000 = some ⟨102, true, true, true⟩ ∧
      (∀ off, t.memory 102 off = 0x55) ∧
      bitmap_test t.swap.swap_table 0 = false := by
  have hfind : vm_page_find swapped_state 0 0x1000
      = some { anon_page 0x1000 with valid := false, swap_idx := 0 } := by
    simp [vm_page_find, swapped_state, swapped_thread]
  have halloc : vm_frame_alloc swapped_state 0 0x1000 false
      = some ({ swapped_state with free_pages := [],
                                   frame_table := [frame.mk 0 102 0x1000] }, some 102) := by
    simp [vm_frame_alloc, palloc_get_page, swapped_state]
  obtain ⟨t, q, h1, h2, h3, -, h5, h6, h7⟩ := vm_page_load_swap_spec swapped_state 0 0x1000
    { anon_page 0x1000 with valid := false, swap_idx := 0 } _ 102 hfind rfl rfl
    (by simp [bitmap_test, swapped_state]) (by simp [swapped_state])
    (by simp [pagedir_get_page, swapped_state, swapped_thread, anon_page]) halloc
  refine ⟨t, q, h1, h2, h3, h5, fun off => ?_, h7⟩
  rw [h6]
  rfl

/-- Removing the first frame with a given address is removing the frames that a
predicate picks, when the predicate picks the frames with that address and no
two frames have the same address. -/
theorem eraseP_eq_filter (k : Nat) (q : frame → Bool) (l : List frame)
    (hnd : (l.map fun f => f.addr).Nodup) (hq : ∀ f ∈ l, (q f = true ↔ f.addr = k)) :
    l.eraseP (fun f => f.addr == k) = l.filter (fun f => !q f) := by
  induction l with
  | nil => rfl
  | cons g l ih =>
    rw [List.map_cons, List.nodup_cons] at hnd
    by_cases hg : g.addr = k
    · have hqg : q g = true := (hq g (List.mem_cons_self _ _)).2 hg
      rw [List.eraseP_cons_of_pos (by simpa using hg), List.filter_cons_of_neg (by simp [hqg])]
      symm
      rw [List.filter_eq_self]
      intro f hf
      have hne : f.addr ≠ k := by
        intro h
        apply hnd.1
        rw [hg, ← h]
        exact List.mem_map.2 ⟨f, hf, rfl⟩
      have : ¬ q f = true := fun h => hne ((hq f (List.mem_cons_of_mem _ hf)).1 h)
      simpa using this
    · have hqg : ¬ q g = true := fun h => hg ((hq g (List.mem_cons_self _ _)).1 h)
      rw [List.eraseP_cons_of_neg (by simpa using hg),
        List.filter_cons_of_pos (by simpa using hqg),
        ih hnd.2 (fun f hf => hq f (List.mem_cons_of_mem _ hf))]

/-- Under the pairing, the frames of the page of thread `cur` at `a`, mapped to
`k`, are the frames with address `k`. -/
theorem frame_of_mapping {s : State} {cur a k : Nat} (hp : pairing s)
    (hk : pagedir_get_page s cur a = some k) :
    ∀ f ∈ s.frame_table, ((f.thread == cur && f.upage == a) = true ↔ f.addr = k) := by
  intro f hf
  constructor
  · intro h
    simp only [Bool.and_eq_true, beq_iff_eq] at h
    have := hp.1 f hf
    rw [h.1, h.2, hk] at this
    exact (Option.some.inj this).symm
  · intro h
    have hmem : frame.mk cur k a ∈ s.frame_table := hp.2.1 cur a k hk
    have := frame_eq_of_addr hp.2.2.1 hf hmem h
    rw [this]
    simp

/-- Under the pairing, a page that is not mapped has no frame. -/
theorem no_frame_of_unmapped {s : State} {cur a : Nat} (hp : pairing s)
    (hk : pagedir_get_page s cur a = none) :
    s.frame_table.filter (fun f => !(f.thread == cur && f.upage == a)) = s.frame_table := by
  rw [List.filter_eq_self]
  intro f hf
  have : ¬ ((f.thread == cur && f.upage == a) = true) := by
    intro h
    simp only [Bool.and_eq_true, beq_iff_eq] at h
    have := hp.1 f hf
    rw [h.1, h.2, hk] at this
    exact absurd this (by simp)
  cases hb : (f.thread == cur && f.upage == a) with
  | true => exact absurd hb this
  | false => rfl
theorem vm_frame_free_fields (s : State) (k : Nat) :
    (vm_frame_free s k).frame_table = s.frame_table.eraseP (fun f => f.addr == k) ∧
    (vm_frame_free s k).files = s.files ∧ (vm_frame_free s k).memory = s.memory ∧
    (vm_frame_free s k).swap = s.swap := by
  unfold vm_frame_free
  cases hf : s.frame_table.find? (fun f => f.addr == k) with
  | none =>
    refine ⟨?_, rfl, rfl, rfl⟩
    symm
    apply List.eraseP_of_forall_not
    intro f hmem
    rw [List.find?_eq_none] at hf
    exact hf f hmem
  | some f => exact ⟨rfl, rfl, rfl, rfl⟩

/-- The removal of one page of the mapping by the loop of `sys_munmap`: the walk
goes on from a state without the page, its mapping and its frame, in which the
file holds what `unmap_write` says. -/
theorem munmap_remove_step {u t : State} {cur a : Nat} {m : Int} {p : page}
    {before rest : List Nat}
    (h : munmap_walk u cur m before (a :: rest) = some t)
    (hp : vm_page_find u cur a = some p) (hm : p.mapid = m) (ha : p.addr = a)
    (hpair : pairing u) :
    ∃ v, munmap_walk v cur m before rest = some t ∧
      (v.threads cur).mmap_list = before ++ rest ∧
      (∀ b, vm_page_find v cur b = if b = a then none else vm_page_find u cur b) ∧
      (∀ b, (v.threads cur).pagedir b = if b = a then none else (u.threads cur).pagedir b) ∧
      (∀ tid, tid ≠ cur → v.threads tid = u.threads tid) ∧
      v.frame_table = u.frame_table.filter (fun f => !(f.thread == cur && f.upage == a)) ∧
      v.files = unmap_write u cur u.files a ∧ v.memory = u.memory ∧ v.swap = u.swap ∧
      pairing v := by
  rw [munmap_walk, hp] at h
  simp only at h
  rw [if_neg (by omega), if_neg (by omega), ha] at h
  have hfindv : ∀ (w : State) (l : List Nat), (w.threads cur).page_table = (u.threads cur).page_table →
      ∀ b, vm_page_find (update_thread w cur fun t =>
        { t with mmap_list := l, page_table := Function.update t.page_table a none }) cur b
        = if b = a then none else vm_page_find u cur b := by
    intro w l hw b
    simp only [vm_page_find, update_thread, Function.update_same, hw]
    by_cases hb : b = a
    · rw [hb]; simp
    · simp [Function.update_noteq hb, hb]
  cases hk : pagedir_get_page u cur a with
  | none =>
    rw [hk] at h
    simp only at h
    have hpd : (u.threads cur).pagedir a = none := by
      simpa [pagedir_get_page] using hk
    refine ⟨_, h, by simp [update_thread], hfindv u _ rfl, ?_, ?_, ?_, ?_, rfl, rfl, ?_⟩
    · intro b
      simp only [update_thread, Function.update_same]
      split
      · rename_i hb; rw [hb, hpd]
      · rfl
    · intro tid ht
      simp [update_thread, Function.update_noteq ht]
    · exact (no_frame_of_unmapped hpair hk).symm
    · simp only [unmap_write, hp, ha, pagedir_is_dirty, hpd]
      rfl
    · exact pairing_of_same_shape (same_shape_update_thread u cur _ (by intro _; rfl)) hpair
  | some kpage =>
    rw [hk] at h
    simp only [Option.bind_eq_some] at h
    obtain ⟨s1, hs1, h⟩ := h
    have hsh : same_shape u s1 := by
      split at hs1
      · exact write_back_shape hs1
      · simp only [Option.some.injEq] at hs1
        exact hs1 ▸ same_shape_refl u
    have hth : s1.threads = u.threads := by
      split at hs1
      · exact write_back_threads hs1
      · simp only [Option.some.injEq] at hs1
        rw [hs1]
    have hfiles : s1.files = unmap_write u cur u.files a ∧ s1.memory = u.memory ∧
        s1.swap = u.swap := by
      simp only [unmap_write, hp, ha]
      split at hs1
      · rename_i hd
        rw [if_pos hd]
        unfold write_back at hs1
        rw [ha] at hs1
        split at hs1
        · simp only [Option.some.injEq] at hs1
          subst hs1
          exact ⟨rfl, rfl, rfl⟩
        · exact absurd hs1 (by simp)
      · rename_i hd
        rw [if_neg hd]
        simp only [Option.some.injEq] at hs1
        subst hs1
        exact ⟨rfl, rfl, rfl⟩
    obtain ⟨f1, f2, f3, f4⟩ := vm_frame_free_fields
      (update_thread (pagedir_clear_page s1 cur a) cur fun t =>
        { t with mmap_list := before ++ rest,
                 page_table := Function.update t.page_table a none }) kpage
    refine ⟨_, h, ?_, ?_, ?_, ?_, ?_, ?_, ?_, ?_, ?_⟩
    · rw [vm_frame_free_threads]; simp [update_thread]
    · intro b
      simp only [vm_page_find, vm_frame_free_threads]
      exact hfindv (pagedir_clear_page s1 cur a) _
        (by simp [pagedir_clear_page, update_thread, hth]) b
    · intro b
      rw [vm_frame_free_threads]
      simp only [update_thread, pagedir_clear_page, Function.update_same, hth]
      by_cases hb : b = a
      · rw [hb]; simp
      · simp [Function.update_noteq hb, hb]
    · intro tid ht
      rw [vm_frame_free_threads]
      simp [update_thread, pagedir_clear_page, Function.update_noteq ht, hth]
    · rw [f1]
      show s1.frame_table.eraseP _ = _
      rw [hsh.1]
      exact eraseP_eq_filter kpage _ _ hpair.2.2.1 (frame_of_mapping hpair hk)
    · rw [f2]; exact hfiles.1
    · rw [f3]; exact hfiles.2.1
    · rw [f4]; exact hfiles.2.2
    · apply @pairing_unmap s1 _ cur a kpage (pairing_of_same_shape hsh hpair)
      · rw [hsh.2.2]; exact hk
      · rfl
      · rfl
      · intro tid b
        rw [get_page_update_thread _ _ _ (by intro _; rfl)]
        exact get_page_clear_page _ _ _ _ _
theorem unmap_write_congr {u v : State} {cur b : Nat} (fs : Nat → List Byte)
    (h1 : vm_page_find v cur b = vm_page_find u cur b)
    (h2 : ∀ p, vm_page_find u cur b = some p →
      (v.threads cur).pagedir p.addr = (u.threads cur).pagedir p.addr)
    (h3 : v.memory = u.memory) : unmap_write v cur fs b = unmap_write u cur fs b := by
  simp only [unmap_write, h1]
  cases hp : vm_page_find u cur b with
  | none => rfl
  | some p =>
    simp only [pagedir_is_dirty, read_user, h2 p hp, h3]

/-- The loop of `sys_munmap` over the pages `mid` of the mapping, followed by
nothing or by a page of a later mapping: the pages of `mid` leave the list and
the page table, their mappings and frames are removed, and the files hold what
the writes of `mid`, in order, leave. -/
theorem munmap_walk_removes (cur : Nat) (m : Int) (hi : List Nat) (mid : List Nat) :
    ∀ (u : State) (before : List Nat) (t : State),
      munmap_walk u cur m before (mid ++ hi) = some t →
      (u.threads cur).mmap_list = before ++ (mid ++ hi) →
      (mid ++ hi).Nodup →
      (∀ a ∈ mid, ∃ p, vm_page_find u cur a = some p ∧ p.addr = a ∧ p.mapid = m) →
      (hi = [] ∨ ∃ a r p, hi = a :: r ∧ vm_page_find u cur a = some p ∧ p.mapid > m) →
      pairing u →
      (t.threads cur).mmap_list = before ++ hi ∧
      (∀ b, vm_page_find t cur b = if b ∈ mid then none else vm_page_find u cur b) ∧
      (∀ b, (t.threads cur).pagedir b =
        if b ∈ mid then none else (u.threads cur).pagedir b) ∧
      (∀ tid, tid ≠ cur → t.threads tid = u.threads tid) ∧
      t.frame_table
        = u.frame_table.filter (fun f => !(f.thread == cur && decide (f.upage ∈ mid))) ∧
      t.files = mid.foldl (unmap_write u cur) u.files ∧ t.memory = u.memory ∧
      t.swap = u.swap ∧ pairing t := by
  induction mid with
  | nil =>
    intro u before t h hl _ _ hhi hpair
    have ht : t = u := by
      rcases hhi with hh | ⟨a, r, p, hh, hp, hgt⟩
      · subst hh
        simpa [munmap_walk] using h.symm
      · subst hh
        rw [List.nil_append, munmap_walk, hp] at h
        simp only at h
        rw [if_neg (by omega), if_pos hgt] at h
        exact (Option.some.inj h).symm
    subst ht
    refine ⟨by simpa using hl, fun b => by simp, fun b => by simp, fun _ _ => rfl, ?_, rfl, rfl,
      rfl, hpair⟩
    simp
  | cons a mid ih =>
    intro u before t h hl hnd hpages hhi hpair
    obtain ⟨p, hp, ha, hm⟩ := hpages a (List.mem_cons_self _ _)
    rw [List.cons_append] at h hnd
    obtain ⟨hna, hnd2⟩ := List.nodup_cons.1 hnd
    obtain ⟨v, hv, v1, v2, v3, v4, v5, v6, v7, v8, v9⟩ := munmap_remove_step h hp hm ha hpair
    have hne : ∀ b ∈ mid ++ hi, b ≠ a := fun b hb hba => hna (hba ▸ hb)
    obtain ⟨t1, t2, t3, t4, t5, t6, t7, t8, t9⟩ := ih v before t hv v1 hnd2
      (by
        intro b hb
        obtain ⟨q, hq, hqa, hqm⟩ := hpages b (List.mem_cons_of_mem _ hb)
        refine ⟨q, ?_, hqa, hqm⟩
        rw [v2, if_neg (hne b (List.mem_append_left _ hb))]
        exact hq)
      (by
        rcases hhi with hh | ⟨b, r, q, hh, hq, hgt⟩
        · exact Or.inl hh
        · refine Or.inr ⟨b, r, q, hh, ?_, hgt⟩
          rw [v2, if_neg (hne b (by rw [hh]; simp))]
          exact hq)
      v9
    refine ⟨t1, ?_, ?_, ?_, ?_, ?_, by rw [t7, v7], by rw [t8, v8], t9⟩
    · intro b
      rw [t2, v2]
      by_cases hb : b ∈ mid
      · simp [hb]
      · by_cases hba : b = a
        · simp [hba]
        · simp [hb, hba]
    · intro b
      rw [t3, v3]
      by_cases hb : b ∈ mid
      · simp [hb]
      · by_cases hba : b = a
        · simp [hba]
        · simp [hb, hba]
    · intro tid ht
      rw [t4 tid ht, v4 tid ht]
    · rw [t5, v5, List.filter_filter]
      congr 1
      funext f
      by_cases h1 : f.thread = cur <;> by_cases h2 : f.upage = a <;>
        by_cases h3 : f.upage ∈ mid <;> simp [h1, h2, h3]
    · rw [t6, v6, List.foldl_cons]
      apply List.foldl_ext
      intro fs b hb
      have hba : b ≠ a := hne b (List.mem_append_left _ hb)
      apply unmap_write_congr fs
      · rw [v2, if_neg hba]
      · intro q hq
        obtain ⟨q2, hq2, hqa, -⟩ := hpages b (List.mem_cons_of_mem _ hb)
        rw [hq2] at hq
        simp only [Option.some.injEq] at hq
        subst hq
        rw [hqa, v3, if_neg hba]
      · exact v7
/-- The loop of `sys_munmap` passes the pages of earlier mappings. -/
theorem munmap_walk_passes (cur : Nat) (m : Int) (s : State) (rest : List Nat) (lo : List Nat) :
    ∀ before : List Nat, (∀ a ∈ lo, ∃ p, vm_page_find s cur a = some p ∧ p.mapid < m) →
      munmap_walk s cur m before (lo ++ rest) = munmap_walk s cur m (before ++ lo) rest := by
  induction lo with
  | nil => intro before _; simp
  | cons a lo ih =>
    intro before hl
    obtain ⟨p, hp, hlt⟩ := hl a (List.mem_cons_self _ _)
    rw [List.cons_append, munmap_walk, hp]
    simp only
    rw [if_pos hlt, ih _ (fun b hb => hl b (List.mem_cons_of_mem _ hb))]
    simp

/-- A list sorted by an integer key splits at `m` into the elements below `m`,
those at `m` and those above `m`. -/
theorem sorted_split {α : Type} (g : α → Int) (m : Int) (l : List α)
    (h : l.Pairwise (fun a b => g a ≤ g b)) :
    ∃ lo mid hi, l = lo ++ (mid ++ hi) ∧ (∀ a ∈ lo, g a < m) ∧ (∀ a ∈ mid, g a = m) ∧
      (∀ a ∈ hi, g a > m) := by
  induction l with
  | nil => exact ⟨[], [], [], rfl, by simp, by simp, by simp⟩
  | cons a l ih =>
    obtain ⟨hal, hl⟩ := List.pairwise_cons.1 h
    obtain ⟨lo, mid, hi, hsplit, h1, h2, h3⟩ := ih hl
    by_cases hlt : g a < m
    · refine ⟨a :: lo, mid, hi, by rw [hsplit]; rfl, ?_, h2, h3⟩
      intro b hb
      rcases List.mem_cons.1 hb with hb | hb
      · rw [hb]; exact hlt
      · exact h1 b hb
    · have hlo : lo = [] := by
        rw [List.eq_nil_iff_forall_not_mem]
        intro b hb
        have := hal b (by rw [hsplit]; exact List.mem_append_left _ hb)
        have := h1 b hb
        omega
      subst hlo
      by_cases heq : g a = m
      · refine ⟨[], a :: mid, hi, by rw [hsplit]; rfl, by simp, ?_, h3⟩
        intro b hb
        rcases List.mem_cons.1 hb with hb | hb
        · rw [hb]; exact heq
        · exact h2 b hb
      · have hmid : mid = [] := by
          rw [List.eq_nil_iff_forall_not_mem]
          intro b hb
          have := hal b (by rw [hsplit]; simp [hb])
          have := h2 b hb
          omega
        subst hmid
        refine ⟨[], [], a :: hi, by rw [hsplit]; rfl, by simp, by simp, ?_⟩
        intro b hb
        rcases List.mem_cons.1 hb with hb | hb
        · rw [hb]; omega
        · exact h3 b hb
/-- The list and the page of the state `big_file_boot len` with one more page at
`0x2000`. -/
theorem occupied_page (len : Nat) :
    ((vm_page_insert (big_file_boot len) 0 0x2000 (anon_page 0)).1.threads 0).mmap_list = [] ∧
    vm_page_find (vm_page_insert (big_file_boot len) 0 0x2000 (anon_page 0)).1 0 0x2000
      = some { anon_page 0 with addr := 0x2000, loaded := true, mapid := MAP_FAILED,
                                file := none, valid := true } := by
  constructor
  · simp [vm_page_insert, update_thread, big_file_boot, vm_boot]
  · simp [vm_page_find, vm_page_insert, update_thread, big_file_boot, vm_boot]

/-- C21, as stated, fails for `m = MAP_FAILED`: in `occupied_boot`, the state at
boot after one `vm_page_insert`, where the `mmap_list` of thread 0 is empty (so
sorted) and the pairing holds, `sys_munmap (MAP_FAILED)` returns the state as
it is, and the page table still has the anonymous page at `0x2000`, whose
`mapid` is `MAP_FAILED`, the `m` of the call. -/
theorem munmap_map_failed_keeps_anonymous_page :
    registry_sorted occupied_boot 0 ∧ (occupied_boot.threads 0).mmap_list = [] ∧
    pairing occupied_boot ∧
    ∃ t p, sys_munmap occupied_boot 0 MAP_FAILED = some t ∧ t = occupied_boot ∧
      vm_page_find t 0 0x2000 = some p ∧ p.mapid = MAP_FAILED := by
  have hlist : (occupied_boot.threads 0).mmap_list = [] := (occupied_page 9000).1
  have hpair : pairing occupied_boot :=
    pairing_of_same_shape (vm_page_insert_shape _ 0 0x2000 (anon_page 0))
      (vm_boot_pairing (by simp) _ _ _ _)
  have hfind : vm_page_find occupied_boot 0 0x2000
      = some { anon_page 0 with addr := 0x2000, loaded := true, mapid := MAP_FAILED,
                                file := none, valid := true } := (occupied_page 9000).2
  refine ⟨?_, hlist, hpair, occupied_boot, _, ?_, rfl, hfind, rfl⟩
  · unfold registry_sorted
    rw [hlist]
    exact List.Pairwise.nil
  · simp only [sys_munmap, hlist, munmap_walk]

/-- C21, amended: in a state where the pairing of frames and mappings holds, the
`mmap_list` of the running thread is sorted by `mapid`, holds no page twice,
holds pages that are in the page table under their own address, and holds every
page of the page table whose `mapid` is `m` (so `m` is not `MAP_FAILED` when the
thread has an anonymous page), when `sys_munmap (m)` returns the list was
`lo ++ mid ++ hi` with `mid` the pages whose `mapid` is `m`, and afterwards: the
list is `lo ++ hi`; no page of the page table has `mapid = m`; the pages of
`mid` have no entry, no hardware mapping and no frame; the files are what the
writes of the pages of `mid` that had the dirty bit set, made in list order,
each of the first `file_read_bytes` bytes of the page at `file_ofs`, leave;
every other page and mapping of the thread, every other thread, the memory and
the swap area are unchanged, and the frame table is the old one without the
frames of the pages of `mid`, in the old order. -/
theorem sys_munmap_effects (s : State) (cur : Nat) (m : Int) (t : State)
    (hsorted : registry_sorted s cur)
    (hnd : (s.threads cur).mmap_list.Nodup)
    (hpages : ∀ a ∈ (s.threads cur).mmap_list, ∃ p, vm_page_find s cur a = some p ∧ p.addr = a)
    (hreg : ∀ a p, vm_page_find s cur a = some p → p.mapid = m →
      a ∈ (s.threads cur).mmap_list)
    (hpair : pairing s)
    (h : sys_munmap s cur m = some t) :
    ∃ lo mid hi,
      (s.threads cur).mmap_list = lo ++ (mid ++ hi) ∧
      (∀ a, a ∈ mid ↔ ∃ p, vm_page_find s cur a = some p ∧ p.mapid = m) ∧
      (t.threads cur).mmap_list = lo ++ hi ∧
      (∀ a p, vm_page_find t cur a = some p → p.mapid ≠ m) ∧
      (∀ a ∈ mid, vm_page_find t cur a = none ∧ pagedir_get_page t cur a = none ∧
        ∀ f ∈ t.frame_table, ¬ (f.thread = cur ∧ f.upage = a)) ∧
      t.files = mid.foldl (unmap_write s cur) s.files ∧
      (∀ a, a ∉ mid → vm_page_find t cur a = vm_page_find s cur a ∧
        (t.threads cur).pagedir a = (s.threads cur).pagedir a) ∧
      (∀ tid, tid ≠ cur → t.threads tid = s.threads tid) ∧
      t.frame_table
        = s.frame_table.filter (fun f => !(f.thread == cur && decide (f.upage ∈ mid))) ∧
      t.memory = s.memory ∧ t.swap = s.swap := by
  have hkey : (s.threads cur).mmap_list.Pairwise (fun a b =>
      ((vm_page_find s cur a).map (fun p => p.mapid)).getD 0 ≤
        ((vm_page_find s cur b).map (fun p => p.mapid)).getD 0) := by
    refine List.Pairwise.imp_of_mem ?_ hsorted
    intro a b ha hb hab
    obtain ⟨p, hp, -⟩ := hpages a ha
    obtain ⟨q, hq, -⟩ := hpages b hb
    rw [hp, hq]
    exact hab p q hp hq
  obtain ⟨lo, mid, hi, hsplit, h1, h2, h3⟩ := sorted_split _ m _ hkey
  have hget : ∀ a ∈ (s.threads cur).mmap_list, ∃ p, vm_page_find s cur a = some p ∧ p.addr = a ∧
      ((vm_page_find s cur a).map (fun p => p.mapid)).getD 0 = p.mapid := by
    intro a ha
    obtain ⟨p, hp, hpa⟩ := hpages a ha
    exact ⟨p, hp, hpa, by rw [hp]; rfl⟩
  have hlo : ∀ a ∈ lo, ∃ p, vm_page_find s cur a = some p ∧ p.mapid < m := by
    intro a ha
    obtain ⟨p, hp, -, hg⟩ := hget a (by rw [hsplit]; exact List.mem_append_left _ ha)
    exact ⟨p, hp, by rw [← hg]; exact h1 a ha⟩
  have hmid : ∀ a ∈ mid, ∃ p, vm_page_find s cur a = some p ∧ p.addr = a ∧ p.mapid = m := by
    intro a ha
    obtain ⟨p, hp, hpa, hg⟩ := hget a (by rw [hsplit]; simp [ha])
    exact ⟨p, hp, hpa, by rw [← hg]; exact h2 a ha⟩
  have hhi : ∀ a ∈ hi, ∃ p, vm_page_find s cur a = some p ∧ p.mapid > m := by
    intro a ha
    obtain ⟨p, hp, -, hg⟩ := hget a (by rw [hsplit]; simp [ha])
    exact ⟨p, hp, by rw [← hg]; exact h3 a ha⟩
  have hmem : ∀ a, a ∈ mid ↔ ∃ p, vm_page_find s cur a = some p ∧ p.mapid = m := by
    intro a
    constructor
    · intro ha
      obtain ⟨p, hp, -, hpm⟩ := hmid a ha
      exact ⟨p, hp, hpm⟩
    · rintro ⟨p, hp, hpm⟩
      have := hreg a p hp hpm
      rw [hsplit] at this
      rcases List.mem_append.1 this with hx | hx
      · obtain ⟨q, hq, hlt⟩ := hlo a hx
        rw [hp] at hq
        simp only [Option.some.injEq] at hq
        subst hq
        omega
      · rcases List.mem_append.1 hx with hx | hx
        · exact hx
        · obtain ⟨q, hq, hgt⟩ := hhi a hx
          rw [hp] at hq
          simp only [Option.some.injEq] at hq
          subst hq
          omega
  rw [hsplit] at hnd
  unfold sys_munmap at h
  rw [hsplit, munmap_walk_passes cur m s _ lo [] hlo, List.nil_append] at h
  obtain ⟨t1, t2, t3, t4, t5, t6, t7, t8, -⟩ := munmap_walk_removes cur m hi mid s lo t h hsplit
    (List.nodup_append.1 hnd).2.1 hmid
    (by
      cases hi with
      | nil => exact Or.inl rfl
      | cons b r =>
        obtain ⟨q, hq, hgt⟩ := hhi b (List.mem_cons_self _ _)
        exact Or.inr ⟨b, r, q, rfl, hq, hgt⟩)
    hpair
  refine ⟨lo, mid, hi, hsplit, hmem, t1, ?_, ?_, t6, ?_, t4, t5, t7, t8⟩
  · intro a p hp hpm
    rw [t2] at hp
    split at hp
    · exact absurd hp (by simp)
    · rename_i hna
      exact hna ((hmem a).2 ⟨p, hp, hpm⟩)
  · intro a ha
    refine ⟨by rw [t2, if_pos ha], by simp [pagedir_get_page, t3, ha], ?_⟩
    intro f hf hfa
    rw [t5, List.mem_filter] at hf
    have := hf.2
    simp [hfa.1, hfa.2, ha] at this
  · intro a ha
    exact ⟨by rw [t2, if_neg ha], by rw [t3, if_neg ha]⟩
/-- What `dirty_mapped_state` holds. -/
theorem dirty_mapped_facts :
    vm_page_find dirty_mapped_state 0 0x1000 = some resident_file_page ∧
    (dirty_mapped_state.threads 0).mmap_list = [0x1000] ∧
    (∀ a p, vm_page_find dirty_mapped_state 0 a = some p → a = 0x1000) ∧
    pagedir_get_page dirty_mapped_state 0 0x1000 = some 100 ∧
    pagedir_is_dirty dirty_mapped_state 0 0x1000 = true ∧
    read_user dirty_mapped_state 0 0x1000 3 = some (List.replicate 3 0xAA) ∧
    pairing dirty_mapped_state := by
  refine ⟨by simp [vm_page_find, dirty_mapped_state], by simp [dirty_mapped_state], ?_,
    by simp [pagedir_get_page, dirty_mapped_state],
    by simp [pagedir_is_dirty, dirty_mapped_state], ?_, ?_⟩
  · intro a p h
    simp only [vm_page_find, dirty_mapped_state] at h
    by_contra hne
    simp [hne] at h
  · exact read_user_const dirty_mapped_state 0 0x1000 3 ⟨100, true, true, true⟩ 0xAA
      (by simp [dirty_mapped_state]) (by funext off; simp [dirty_mapped_state])
      (by simp [PGSIZE])
  · refine ⟨?_, ?_, ?_, ?_⟩
    · intro f hf
      simp only [dirty_mapped_state, List.mem_singleton] at hf
      subst hf
      simp [pagedir_get_page, dirty_mapped_state]
    · intro tid upage kpage hk
      simp only [pagedir_get_page, dirty_mapped_state] at hk
      by_cases ht : tid = 0
      · subst ht
        by_cases hu : upage = 0x1000
        · subst hu
          simp at hk
          subst hk
          simp [dirty_mapped_state]
        · simp [hu] at hk
      · simp [ht, idle_thread] at hk
    · simp [frames_distinct, dirty_mapped_state]
    · simp [pool_ok, dirty_mapped_state]
theorem dirty_mapped_munmap : ∃ t, sys_munmap dirty_mapped_state 0 0 = some t := by
  obtain ⟨hfind, hlist, -, hk, hd, hread, -⟩ := dirty_mapped_facts
  have h1 : resident_file_page.addr = 0x1000 := rfl
  have h2 : resident_file_page.mapid = 0 := rfl
  have hwb : ∃ s1, write_back dirty_mapped_state 0 resident_file_page = some s1 := by
    have h3 : resident_file_page.file = some 7 := rfl
    have h4 : read_user dirty_mapped_state 0 resident_file_page.addr
        resident_file_page.file_read_bytes = some (List.replicate 3 0xAA) := hread
    simp only [write_back, h3, h4]
    exact ⟨_, rfl⟩
  obtain ⟨s1, hs1⟩ := hwb
  simp only [sys_munmap, hlist, munmap_walk, hfind, h1, h2, hk, hd, if_true, hs1,
    Option.some_bind, lt_self_iff_false, gt_iff_lt, if_false]
  exact ⟨_, rfl⟩

/-- C21, amended, on `dirty_mapped_state`: `sys_munmap (0)` empties the list,
removes the page, its mapping and its frame, and writes the three bytes `0xAA`
of the page to file 7. -/
theorem sys_munmap_effects_witness :
    ∃ t, sys_munmap dirty_mapped_state 0 0 = some t ∧
      (t.threads 0).mmap_list = [] ∧ vm_page_find t 0 0x1000 = none ∧
      pagedir_get_page t 0 0x1000 = none ∧ t.frame_table = [] ∧
      t.files 7 = [0xAA, 0xAA, 0xAA] := by
  obtain ⟨hfind, hlist, hall, hk, hd, hread, hpair⟩ := dirty_mapped_facts
  obtain ⟨t, ht⟩ := dirty_mapped_munmap
  obtain ⟨lo, mid, hi, g1, g2, g3, -, g5, g6, -, -, g9, -, -⟩ :=
    sys_munmap_effects dirty_mapped_state 0 0 t
      (by unfold registry_sorted; rw [hlist]; exact List.pairwise_singleton _ _)
      (by rw [hlist]; simp)
      (by
        intro a ha
        rw [hlist, List.mem_singleton] at ha
        subst ha
        exact ⟨resident_file_page, hfind, rfl⟩)
      (by
        intro a p hp _
        rw [hlist, hall a p hp]
        simp)
      hpair ht
  have hin : 0x1000 ∈ mid := (g2 0x1000).2 ⟨resident_file_page, hfind, rfl⟩
  rw [hlist] at g1
  have hshape : lo = [] ∧ mid = [0x1000] ∧ hi = [] := by
    cases lo with
    | nil =>
      cases mid with
      | nil => exact absurd hin (List.not_mem_nil _)
      | cons b mid =>
        simp only [List.nil_append, List.cons_append, List.cons.injEq] at g1
        obtain ⟨hb, hrest⟩ := g1
        have := List.append_eq_nil.1 hrest.symm
        exact ⟨rfl, by rw [← hb, this.1], this.2⟩
    | cons b lo =>
      simp only [List.cons_append, List.cons.injEq] at g1
      have := List.append_eq_nil.1 g1.2.symm
      have hm := (List.append_eq_nil.1 this.2).1
      rw [hm] at hin
      exact absurd hin (List.not_mem_nil _)
  obtain ⟨hlo, hmid, hhi⟩ := hshape
  subst hlo hmid hhi
  obtain ⟨b1, b2, -⟩ := g5 0x1000 hin
  refine ⟨t, ht, by simpa using g3, b1, b2, ?_, ?_⟩
  · rw [g9]
    simp [dirty_mapped_state]
  · rw [g6]
    have h3 : resident_file_page.file = some 7 := rfl
    have h4 : read_user dirty_mapped_state 0 resident_file_page.addr
        resident_file_page.file_read_bytes = some (List.replicate 3 0xAA) := hread
    have h5 : pagedir_is_dirty dirty_mapped_state 0 resident_file_page.addr = true := hd
    simp only [List.foldl_cons, List.foldl_nil, unmap_write, hfind, h5, if_true, h3, h4]
    simp [dirty_mapped_state, file_write_at, resident_file_page, List.replicate]

end VM
